import Mathlib

/-!
# Patch engine of `pkg/patches/patch_types.go`

A shallow embedding of the patch verbs (`Add`, `Remove`, `Replace`,
`CopyFromObject`, `RewriteName`, `RewriteLabelSelector`,
`RewriteLabelExpressionsSelector`) and of path synthesis (`createPath`),
followed by theorems about them.

Conventions of the embedding.

* A `*yaml.Node` that points into a tree is a `Ref`: the list of child indices
  leading from the root of the tree to the node.  Dereferencing is `getNode`,
  assignment through the pointer is `modifyAt`.
* A verb mutates its first argument in place and returns an `error`.  Here it
  returns an `Outcome`: the error (or `none` for `nil`) and the tree after the
  call.
* Helpers of the package that live outside `patch_types.go` are modelled from
  the specification; each such definition says so in its doc comment.
-/

namespace yaml

/-- The kinds of `yaml.Node` the patch engine distinguishes. -/
inductive Kind where
  | DocumentNode
  | SequenceNode
  | MappingNode
  | ScalarNode
  deriving DecidableEq, Repr

/-- The fields of `yaml.Node` the patch engine reads or writes. -/
structure Node where
  Kind : Kind
  Tag : String
  Value : String
  Content : List Node
  deriving Repr

mutual
/-- Structural equality test on nodes. -/
def Node.beq : Node → Node → Bool
  | ⟨k1, t1, v1, c1⟩, ⟨k2, t2, v2, c2⟩ =>
    decide (k1 = k2) && decide (t1 = t2) && decide (v1 = v2) && Node.beqList c1 c2
/-- Structural equality test on lists of nodes. -/
def Node.beqList : List Node → List Node → Bool
  | [], [] => true
  | a :: as, b :: bs => Node.beq a b && Node.beqList as bs
  | _, _ => false
end

mutual
theorem Node.beq_iff : ∀ (a b : Node), Node.beq a b = true ↔ a = b
  | ⟨k1, t1, v1, c1⟩, ⟨k2, t2, v2, c2⟩ => by
    simp only [Node.beq, Bool.and_eq_true, decide_eq_true_eq, Node.mk.injEq,
      Node.beqList_iff c1 c2, and_assoc]
theorem Node.beqList_iff : ∀ (a b : List Node), Node.beqList a b = true ↔ a = b
  | [], [] => by simp [Node.beqList]
  | [], _ :: _ => by simp [Node.beqList]
  | _ :: _, [] => by simp [Node.beqList]
  | a :: as, b :: bs => by
    simp only [Node.beqList, Bool.and_eq_true, List.cons.injEq, Node.beq_iff a b,
      Node.beqList_iff as bs]
end

instance : DecidableEq Node := fun a b =>
  decidable_of_iff (Node.beq a b = true) (Node.beq_iff a b)

end yaml

namespace patches

open yaml

/-! ## Errors, handles and outcomes -/

/-- A Go `error` value, by its message, or a run-time panic. -/
inductive Err where
  | msg (text : String)
  | panic (text : String)
  deriving DecidableEq, Repr

/-- `errors.Wrap(err, context)`: the context is put in front of the message. -/
def Err.wrap (e : Err) (context : String) : Err :=
  match e with
  | .msg text => .msg (context ++ ": " ++ text)
  | .panic text => .panic text

instance instDecidableEqExcept {ε α : Type} [DecidableEq ε] [DecidableEq α] :
    DecidableEq (Except ε α)
  | .error a, .error b =>
    if h : a = b then isTrue (by rw [h]) else isFalse (fun h2 => h (Except.error.inj h2))
  | .ok a, .ok b =>
    if h : a = b then isTrue (by rw [h]) else isFalse (fun h2 => h (Except.ok.inj h2))
  | .error _, .ok _ => isFalse (fun h => by cases h)
  | .ok _, .error _ => isFalse (fun h => by cases h)

/-- A pointer to a node of a tree: the child indices from the root to it. -/
abbrev Ref := List Nat

/-- The result of a verb: the returned `error` and the tree it leaves behind. -/
structure Outcome where
  err : Option Err
  tree : Node
  deriving DecidableEq

/-- Dereference a handle. -/
def getNode : Node → Ref → Option Node
  | n, [] => some n
  | n, i :: r =>
    match n.Content[i]? with
    | some c => getNode c r
    | none => none

/-- Assign `f old` to the node a handle points to. -/
def modifyAt (f : Node → Node) : Node → Ref → Node
  | n, [] => f n
  | n, i :: r =>
    match n.Content[i]? with
    | some c => { n with Content := n.Content.set i (modifyAt f c r) }
    | none => n

/-- The assignment `node.Content = content` through a handle. -/
def setContent (obj : Node) (r : Ref) (content : List Node) : Node :=
  modifyAt (fun n => { n with Content := content }) obj r

/-- The handle that denotes, after the children of the node `p` were renumbered
by `g`, the node that `r` denoted before.  Go pointers are not affected by an
insertion or removal among siblings; positions are, so the handles still to be
visited by a loop are re-based after such a change. -/
def rebase (g : Nat → Nat) : Ref → Ref → Ref
  | [], [] => []
  | [], j :: rest => g j :: rest
  | _ :: _, [] => []
  | a :: p, b :: r => if a = b then b :: rebase g p r else b :: r

/-! ## Paths -/

/-- Split a string at every dot, as `strings.Split(path, ".")`. -/
def splitDots : List Char → List (List Char)
  | [] => [[]]
  | c :: cs =>
    if c = '.' then [] :: splitDots cs
    else
      match splitDots cs with
      | [] => [[c]]
      | s :: ss => (c :: s) :: ss

/-- Join segments with dots, as `strings.Join(segments, ".")`. -/
def joinDots : List (List Char) → List Char
  | [] => []
  | [s] => s
  | s :: t :: ts => s ++ '.' :: joinDots (t :: ts)

/-- The segments of a path. -/
def segments (path : String) : List String :=
  (splitDots path.data).map String.mk

/-- The path made of the given segments. -/
def joinPath (segs : List String) : String :=
  String.mk (joinDots (segs.map String.data))

/-- Modelled from the spec: `OpPath.getParentPath` is missing from the sources; by
§3 and §4.1 it is the pure string decomposition that drops the last segment
of the path (the parent of a one-segment path is the empty path). -/
def getParentPath (path : String) : String :=
  String.mk (joinDots (splitDots path.data).dropLast)

/-- Modelled from the spec: `OpPath.getChildName` is missing from the sources; by
§3 and §4.1 it is the last segment of the path. -/
def getChildName (path : String) : String :=
  String.mk ((splitDots path.data).getLast?.getD [])

/-- The Go library function `strconv.Atoi`: an optional sign followed by decimal digits,
within the range of a 64-bit `int`. -/
def Atoi (s : String) : Option Int :=
  let digits : List Char :=
    match s.data with
    | '-' :: r => r
    | '+' :: r => r
    | cs => cs
  let negative : Bool :=
    match s.data with
    | '-' :: _ => true
    | _ => false
  if digits.isEmpty || !(digits.all Char.isDigit) then none
  else
    let n : Nat := digits.foldl (fun a c => 10 * a + (c.toNat - 48)) 0
    let v : Int := if negative then -(n : Int) else (n : Int)
    if -(2 ^ 63 : Int) ≤ v ∧ v < (2 ^ 63 : Int) then some v else none

/-- Modelled from the spec: part of `FindMatches`, which is missing from the sources.
By §3 a path is made of dot/bracket-free segments: a segment is well formed when it
is not empty and free of brackets (dots cannot occur in a segment). -/
def validSegment (seg : String) : Bool :=
  !seg.data.isEmpty && !(seg.data.contains '[') && !(seg.data.contains ']')

/-- Modelled from the spec: part of `FindMatches`, which is missing from the sources.
The values of the entries of a mapping whose key equals the segment (§3: key lookup is
by value equality), with their positions among the children (`i` is the position of
the first child given). -/
def mappingValues (seg : String) : Nat → List Node → List (Nat × Node)
  | _, [] => []
  | _, [_] => []
  | i, k :: v :: rest =>
    if k.Value = seg then (i + 1, v) :: mappingValues seg (i + 2) rest
    else mappingValues seg (i + 2) rest

/-- Modelled from the spec: part of `FindMatches`, which is missing from the sources.
The element of a sequence at the index the segment denotes, if there is one. -/
def sequenceElement (seg : String) (content : List Node) : List (Nat × Node) :=
  match Atoi seg with
  | some i =>
    if 0 ≤ i then
      match content[i.toNat]? with
      | some c => [(i.toNat, c)]
      | none => []
    else []
  | none => []

/-- The error of indexing a scalar as a container. -/
def scalarIndexed : Err := .msg "cannot index a scalar as a container"

/-- Modelled from the spec: part of `FindMatches`, which is missing from the sources.
One step of path resolution, the children of a node that a segment selects; `none`
when the node is a scalar, which cannot be indexed (§4.1). -/
def selectChildren (seg : String) (n : Node) : Option (List (Nat × Node)) :=
  match n.Kind with
  | .ScalarNode => none
  | .MappingNode => some (mappingValues seg 0 n.Content)
  | .SequenceNode => some (sequenceElement seg n.Content)
  | .DocumentNode => some []

/-- Apply `f` to every handle of a result. -/
def mapRefs (f : Ref → Ref) : Option (List Ref) → Option (List Ref)
  | none => none
  | some rs => some (rs.map f)

/-- Concatenate two results; a failure on either side is a failure. -/
def appendRefs : Option (List Ref) → Option (List Ref) → Option (List Ref)
  | some a, some b => some (a ++ b)
  | _, _ => none

/-- Run `f` on every selected child and concatenate the handles found. -/
def collect (f : Nat × Node → Option (List Ref)) : List (Nat × Node) → Option (List Ref)
  | [] => some []
  | x :: xs => appendRefs (f x) (collect f xs)

/-- Modelled from the spec: part of `FindMatches`, which is missing from the sources.
Walk the segments downwards from a node; the handles are relative to it. The result
is `none` when the walk has to index a scalar. -/
def resolve : List String → Node → Option (List Ref)
  | [], _ => some [[]]
  | seg :: segs, n =>
    match selectChildren seg n with
    | none => none
    | some cs => collect (fun ic => mapRefs (fun r => ic.1 :: r) (resolve segs ic.2)) cs

/-- The handles reached from the nodes `rs` of the tree `n` by walking the segments
`segs` further down. -/
def extendRefs (segs : List String) (n : Node) : List Ref → Option (List Ref)
  | [] => some []
  | r :: rs =>
    appendRefs
      (match getNode n r with
        | some c => mapRefs (fun t => r ++ t) (resolve segs c)
        | none => some [])
      (extendRefs segs n rs)

/-- Modelled from the spec: part of `FindMatches`, which is missing from the sources.
The walk from the root: it starts at the root value of a Document (§3), and at the
root itself otherwise. -/
def resolveRoot (segs : List String) (obj : Node) : Option (List Ref) :=
  match obj.Kind, obj.Content with
  | .DocumentNode, [] => some []
  | .DocumentNode, c :: _ => mapRefs (fun r => 0 :: r) (resolve segs c)
  | _, _ => resolve segs obj

/-- Modelled from the spec: part of `FindMatches`, which is missing from the sources.
The segments a path is walked by: none for the empty path, the dot-separated segments
otherwise. -/
def pathSegments (path : String) : List String :=
  if path = "" then [] else segments path

/-- Modelled from the spec: `FindMatches` is missing from the sources. By §4.1 it
splits the path into segments and walks the tree from the root, selecting at a
mapping the value paired with a matching key and at a sequence the element at
the index the segment denotes. It returns the matches in document order, none
when a key or index is absent, and fails only for a malformed path or when a
scalar is indexed as a container. The walk starts at the root value of a
Document (§3) and at the root itself otherwise; the empty path has no segment
and denotes that starting point. -/
def FindMatches (obj : Node) (path : String) : Except Err (List Ref) :=
  if (pathSegments path).all validSegment then
    match resolveRoot (pathSegments path) obj with
    | none => .error scalarIndexed
    | some rs => .ok rs
  else .error (.msg ("malformed path " ++ path))

/-- Modelled from the spec: `getParents` is missing from the sources. By §4.4 it
resolves the parent path of the path. -/
def getParents (obj : Node) (opPath : String) : Except Err (List Ref) :=
  FindMatches obj (getParentPath opPath)

/-! ## Conditions and patches -/

/-- Modelled from the spec: the type of a condition is declared outside the sources.
By §3 its grammar is owned by the configuration; the engine only evaluates it against
the tree and a candidate match (`none` for the nil candidate), with a verdict or an
error as the result. -/
abbrev Condition := Node → Option Ref → Except Err Bool

/-- A compiled name pattern (`*regexp.Regexp`); the engine only passes it on. -/
structure Regexp where
  source : String
  deriving DecidableEq, Repr

/-- Modelled from the spec: `config.Patch` is declared outside the sources. These are
the fields the verbs read (§3). `Value` is the node form of the raw value, the root
value of the document that `NewNode` produces for it. -/
structure Patch where
  Path : String
  FromPath : String
  Value : Node
  ParsedRegex : Regexp
  Conditions : List Condition

/-- Modelled from the spec: `ValidateAllConditions` is missing from the sources. By
§3 and §4.3 the conditions are conjunctive and evaluated in order, stopping at
the first one that fails or errors. -/
def ValidateAllConditions (obj : Node) (candidate : Option Ref) :
    List Condition → Except Err Bool
  | [] => .ok true
  | c :: cs =>
    match c obj candidate with
    | .error e => .error e
    | .ok false => .ok false
    | .ok true => ValidateAllConditions obj candidate cs

/-! ## Tree navigation and mutation primitives -/

/-- Modelled from the spec: `Find` with the predicate `ContainsChild(m)` is missing
from the sources. By §4.2 it returns the node whose direct children include
`m`, and nothing when `m` is the root. The result is the handle of the parent,
the parent itself and the position of `m` among its children. -/
def Find (obj : Node) (m : Ref) : Option (Ref × Node × Nat) :=
  match m.getLast? with
  | none => none
  | some i =>
    match getNode obj m.dropLast with
    | none => none
    | some parent => if i < parent.Content.length then some (m.dropLast, parent, i) else none

/-- Modelled from the spec: `AddChildAtIndex` is missing from the sources. By §4.2
it inserts `value` immediately after the child at position `i`. -/
def AddChildAtIndex (parent : Node) (i : Nat) (value : Node) : List Node :=
  parent.Content.take (i + 1) ++ value :: parent.Content.drop (i + 1)

/-- Modelled from the spec: `removeChild` is missing from the sources. By §4.2 it
returns the children without the one at position `i`. -/
def removeChild (parent : Node) (i : Nat) : List Node :=
  parent.Content.take i ++ parent.Content.drop (i + 1)

/-- Modelled from the spec: `removeProperty` is missing from the sources. By §4.2 it
returns the children without the value at position `i` and without the key in
front of it. -/
def removeProperty (parent : Node) (i : Nat) : List Node :=
  parent.Content.take (i - 1) ++ parent.Content.drop (i + 1)

/-- Modelled from the spec: `NewNode` is missing from the sources. By §3 a freshly
parsed value is a Document whose single child is the root value. -/
def NewNode (value : Node) : Except Err Node :=
  .ok ⟨.DocumentNode, "", "", [value]⟩

/-- Modelled from the spec: `NewNode` applied to a Go string, a Document around a
string scalar. -/
def NewNodeString (value : String) : Except Err Node :=
  .ok ⟨.DocumentNode, "", "", [⟨.ScalarNode, "!!str", value, []⟩]⟩

/-- The value a Document wraps; any other node is its own value. -/
def unwrapDocument (value : Node) : Node :=
  match value.Kind, value.Content with
  | .DocumentNode, c :: _ => c
  | _, _ => value

/-- Modelled from the spec: `ReplaceNode` is missing from the sources. By §3 and
§4.5 the match is entirely substituted by the new value, unwrapped first when
it is a Document. -/
def ReplaceNode (obj1 : Node) (m : Ref) (value : Node) : Node :=
  modifyAt (fun _ => unwrapDocument value) obj1 m

/-! ## Building nodes -/

/-- A string scalar, as the source builds it for a synthesised key. -/
def strScalar (value : String) : Node := ⟨.ScalarNode, "!!str", value, []⟩

/-- A mapping with the given children (keys and values alternate). -/
def mappingOf (content : List Node) : Node := ⟨.MappingNode, "!!map", "", content⟩

/-- A sequence with the given elements. -/
def sequenceOf (content : List Node) : Node := ⟨.SequenceNode, "!!seq", "", content⟩

/-- A Document around the given children. -/
def documentOf (content : List Node) : Node := ⟨.DocumentNode, "", "", content⟩

/-! ## Loops over matches -/

/-- What one iteration of a loop over matches does: go on with the next match
(`continue`, or the end of the loop body), or `return` an error. An iteration
that goes on hands over the tree and the renumbering of handles that its
insertions or removals caused. -/
inductive Step where
  | next (tree : Node) (renumber : Ref → Ref)
  | ret (err : Err) (tree : Node)

/-- The loop `for _, m := range matches`, followed by `return nil`. The handles
still to be visited are read through the renumberings of the iterations
before them. -/
def rangeMatches (body : Node → Ref → Step) : (Ref → Ref) → Node → List Ref → Outcome
  | _, obj1, [] => ⟨none, obj1⟩
  | sigma, obj1, m :: ms =>
    match body obj1 (sigma m) with
    | .next obj2 rho => rangeMatches body (rho ∘ sigma) obj2 ms
    | .ret e obj2 => ⟨some e, obj2⟩

/-- The tree an iteration leaves behind. -/
def Step.tree : Step → Node
  | .next tree _ => tree
  | .ret _ tree => tree

/-- The panic of dereferencing a nil pointer. -/
def nilDereference : Err := .panic "invalid memory address or nil pointer dereference"

/-- The panic of indexing an empty slice. -/
def indexOutOfRange : Err := .panic "index out of range"

/-! ## Path synthesis (`patch_types.go`, lines 290-385) -/

/-- The function `isSequenceChild`: the child name is not empty and `strconv.Atoi`
accepts it. -/
def isSequenceChild (path : String) : Bool :=
  let propertyName := getChildName path
  if propertyName = "" then false
  else (Atoi propertyName).isSome

/-- The function `createSequenceNode`: a sequence holding the child, if there is one. -/
def createSequenceNode (_path : String) (child : Option Node) : Node :=
  match child with
  | some c => sequenceOf [c]
  | none => sequenceOf []

/-- The function `createMappingNode`: a mapping with one entry, the child under the
child name of the path, if there is a child. -/
def createMappingNode (path : String) (child : Option Node) : Node :=
  match child with
  | some c => mappingOf [strScalar (getChildName path), c]
  | none => mappingOf []

/-- One iteration of the loop of `createPath` over the parents found (lines 317-337):
splice the value into the parent according to its kind. -/
def createPathSplice (childName : String) (value : Node) (obj1 : Node) (m : Ref) : Step :=
  match getNode obj1 m with
  | none => .ret nilDereference obj1
  | some node =>
    match node.Kind with
    | .ScalarNode =>
      match Find obj1 m with
      | none => .ret nilDereference obj1
      | some (p, parent, i) =>
        .next (setContent obj1 p (AddChildAtIndex parent i value))
          (rebase (fun j => if i < j then j + 1 else j) p)
    | .MappingNode =>
      .next (setContent obj1 m
        (node.Content ++ [strScalar childName, value])) id
    | .SequenceNode =>
      .next (setContent obj1 m (node.Content ++ [value])) id
    | .DocumentNode =>
      match node.Content with
      | [] => .ret indexOutOfRange obj1
      | root :: _ =>
        .next (setContent obj1 (m ++ [0])
          (root.Content ++ [strScalar childName, value])) id

/-- The function `createPath`, with its recursion depth bounded by `fuel`. The value
is never nil here: the callers in this package pass a node. -/
def createPathAux : Nat → Node → String → Node → Outcome
  | 0, obj1, _, _ => ⟨some (.msg "recursion budget exhausted"), obj1⟩
  | fuel + 1, obj1, path, value =>
    -- unpack document nodes
    match (if value.Kind = .DocumentNode then value.Content.head? else some value) with
    | none => ⟨some indexOutOfRange, obj1⟩
    | some value =>
      match getParents obj1 path with
      | .error _ => ⟨some (.msg ("could not replace using path: " ++ path)), obj1⟩
      | .ok [] =>
        -- are we at the top path?
        let parentPath := getParentPath path
        if path = parentPath ∨ parentPath = "" ∨ path = "" then ⟨none, obj1⟩
        else
          let wrapped : Node :=
            if isSequenceChild path then createSequenceNode path (some value)
            else createMappingNode path (some value)
          createPathAux fuel obj1 parentPath wrapped
      | .ok (m :: ms) =>
        -- check if we expect an array or map as parent
        rangeMatches (createPathSplice (getChildName path) value) id obj1 (m :: ms)

/-- The function `createPath`. Every recursive call is on the parent path, which is
shorter, so the length of the path bounds the recursion depth. -/
def createPath (obj1 : Node) (path : String) (value : Node) : Outcome :=
  createPathAux (path.length + 1) obj1 path value

/-! ## The verbs (`patch_types.go`, lines 20-288 and 387-399) -/

/-- The function `AddNode`: merge the value, a Document, into the match according to
the kind of the match. -/
def AddNode (obj1 : Node) (m : Ref) (value : Node) : Step :=
  match getNode obj1 m with
  | none => .ret nilDereference obj1
  | some node =>
    match node.Kind with
    | .ScalarNode =>
      match Find obj1 m with
      | none => .ret nilDereference obj1
      | some (p, parent, i) =>
        .next (setContent obj1 p (AddChildAtIndex parent i value))
          (rebase (fun j => if i < j then j + 1 else j) p)
    | .MappingNode =>
      match value.Content with
      | [] => .ret indexOutOfRange obj1
      | v :: _ => .next (setContent obj1 m (node.Content ++ v.Content)) id
    | .SequenceNode =>
      .next (setContent obj1 m (node.Content ++ value.Content)) id
    | .DocumentNode =>
      match node.Content, value.Content with
      | root :: _, v :: _ => .next (setContent obj1 (m ++ [0]) (root.Content ++ v.Content)) id
      | _, _ => .ret indexOutOfRange obj1

/-- The verb `CopyFromObject`; `obj2` is `none` for a nil source. -/
def CopyFromObject (obj1 : Node) (obj2 : Option Node) (patch : Patch) : Outcome :=
  match obj2 with
  | none => ⟨none, obj1⟩
  | some obj2 =>
    match FindMatches obj1 patch.Path with
    | .error e => ⟨some (e.wrap "find matches"), obj1⟩
    | .ok matched =>
      let fromPath := if patch.FromPath = "" then patch.Path else patch.FromPath
      match FindMatches obj2 fromPath with
      | .error e => ⟨some (e.wrap "find from matches"), obj1⟩
      | .ok fromMatches =>
        if fromMatches.length > 1 then
          ⟨some (.msg ("more than 1 match found for path " ++ fromPath)), obj1⟩
        else if fromMatches.length = 1 ∧ matched.length = 0 then
          match ValidateAllConditions obj1 none patch.Conditions with
          | .error e => ⟨some (e.wrap "validate conditions"), obj1⟩
          | .ok false => ⟨none, obj1⟩
          | .ok true =>
            match fromMatches.head?.bind (getNode obj2) with
            | none => ⟨some nilDereference, obj1⟩
            | some source => createPath obj1 patch.Path source
        else
          rangeMatches (fun obj1 m =>
            match ValidateAllConditions obj1 (some m) patch.Conditions with
            | .error e => .ret (e.wrap "validate conditions") obj1
            | .ok false => .next obj1 id
            | .ok true =>
              if fromMatches.length = 1 then
                match fromMatches.head?.bind (getNode obj2) with
                | none => .ret nilDereference obj1
                | some source =>
                  .next (ReplaceNode obj1 m (documentOf [source])) id
              else
                match Find obj1 m with
                | none => .ret nilDereference obj1
                | some (_, parent, i) =>
                  -- the children `removeChild` returns are not assigned to the parent
                  let _unused := removeChild parent i
                  .next obj1 id) id obj1 matched

/-- The verb `Remove`. -/
def Remove (obj1 : Node) (patch : Patch) : Outcome :=
  match FindMatches obj1 patch.Path with
  | .error e => ⟨some (e.wrap "find matches"), obj1⟩
  | .ok matched =>
    rangeMatches (fun obj1 m =>
      match ValidateAllConditions obj1 (some m) patch.Conditions with
      | .error e => .ret (e.wrap "validate conditions") obj1
      | .ok false => .next obj1 id
      | .ok true =>
        match Find obj1 m with
        | none => .ret nilDereference obj1
        | some (p, parent, i) =>
          match parent.Kind with
          | .MappingNode =>
            .next (setContent obj1 p (removeProperty parent i))
              (rebase (fun j => if i < j then j - 2 else j) p)
          | .SequenceNode =>
            .next (setContent obj1 p (removeChild parent i))
              (rebase (fun j => if i < j then j - 1 else j) p)
          | _ => .next obj1 id) id obj1 matched

/-- The verb `Add`. -/
def Add (obj1 : Node) (patch : Patch) : Outcome :=
  match FindMatches obj1 patch.Path with
  | .error e => ⟨some (e.wrap "find matches"), obj1⟩
  | .ok matched =>
    match NewNode patch.Value with
    | .error e => ⟨some (e.wrap "new node from value"), obj1⟩
    | .ok value =>
      if matched.length = 0 then
        match ValidateAllConditions obj1 none patch.Conditions with
        | .error e => ⟨some (e.wrap "validate conditions"), obj1⟩
        | .ok false => ⟨none, obj1⟩
        | .ok true => createPath obj1 patch.Path value
      else
        rangeMatches (fun obj1 m =>
          match ValidateAllConditions obj1 (some m) patch.Conditions with
          | .error e => .ret (e.wrap "validate conditions") obj1
          | .ok false => .next obj1 id
          | .ok true => AddNode obj1 m value) id obj1 matched

/-- The verb `Replace`. -/
def Replace (obj1 : Node) (patch : Patch) : Outcome :=
  match FindMatches obj1 patch.Path with
  | .error e => ⟨some (e.wrap "find matches"), obj1⟩
  | .ok matched =>
    match NewNode patch.Value with
    | .error e => ⟨some (e.wrap "new node from value"), obj1⟩
    | .ok value =>
      rangeMatches (fun obj1 m =>
        match ValidateAllConditions obj1 (some m) patch.Conditions with
        | .error e => .ret (e.wrap "validate conditions") obj1
        | .ok false => .next obj1 id
        | .ok true => .next (ReplaceNode obj1 m value) id) id obj1 matched

/-! ## The rewriting verbs and their collaborators -/

/-- A flat label map (`map[string]string`), by its entries. -/
abbrev LabelMap := List (String × String)

/-- One requirement of a structured selector (`metav1.LabelSelectorRequirement`). -/
structure LabelSelectorRequirement where
  Key : String
  Operator : String
  Values : List String
  deriving DecidableEq, Repr

/-- A structured selector (`metav1.LabelSelector`). -/
structure LabelSelector where
  MatchLabels : LabelMap
  MatchExpressions : List LabelSelectorRequirement
  deriving DecidableEq, Repr

/-- Modelled from the spec: the interface `NameResolver` is declared outside the
sources. By §3 the engine requires the three translations and never inspects them. -/
structure NameResolver where
  TranslateName : String → Regexp → String → Except Err String
  TranslateLabelSelector : LabelMap → Except Err LabelMap
  TranslateLabelExpressionsSelector : LabelSelector → Except Err LabelSelector

/-- The serialisation library the selector verbs go through: `yaml.Marshal` of a
node, the strict decoding of the text into a label map or a structured
selector, and `NewNode` on the translated value. It is external to the engine
and a parameter of the selector verbs. -/
structure Serializer where
  Marshal : Node → Except Err String
  UnmarshalStrictLabels : String → Except Err LabelMap
  UnmarshalStrictSelector : String → Except Err LabelSelector
  NewNodeLabels : LabelMap → Except Err Node
  NewNodeSelector : LabelSelector → Except Err Node

/-- The verb `RewriteName`. -/
def RewriteName (obj1 : Node) (patch : Patch) (resolver : NameResolver) : Outcome :=
  match FindMatches obj1 patch.Path with
  | .error e => ⟨some (e.wrap "find matches"), obj1⟩
  | .ok matched =>
    rangeMatches (fun obj1 m =>
      match getNode obj1 m with
      | none => .ret nilDereference obj1
      | some node =>
        if node.Kind = .ScalarNode then
          match ValidateAllConditions obj1 (some m) patch.Conditions with
          | .error e => .ret (e.wrap "validate conditions") obj1
          | .ok false => .next obj1 id
          | .ok true =>
            match resolver.TranslateName node.Value patch.ParsedRegex patch.FromPath with
            | .error e => .ret e obj1
            | .ok translatedName =>
              match NewNodeString translatedName with
              | .error e => .ret (e.wrap "create node") obj1
              | .ok newNode => .next (ReplaceNode obj1 m newNode) id
        else .next obj1 id) id obj1 matched

/-- The verb `RewriteLabelSelector`. -/
def RewriteLabelSelector (yamlLib : Serializer) (obj1 : Node) (patch : Patch)
    (resolver : NameResolver) : Outcome :=
  match FindMatches obj1 patch.Path with
  | .error e => ⟨some (e.wrap "find matches"), obj1⟩
  | .ok matched =>
    rangeMatches (fun obj1 m =>
      match getNode obj1 m with
      | none => .ret nilDereference obj1
      | some node =>
        if node.Kind = .MappingNode then
          match ValidateAllConditions obj1 (some m) patch.Conditions with
          | .error e => .ret (e.wrap "validate conditions") obj1
          | .ok false => .next obj1 id
          | .ok true =>
            match yamlLib.Marshal node with
            | .error e => .ret (e.wrap "marshal label selector") obj1
            | .ok yamlString =>
              -- try to unmarshal into label selector first
              match yamlLib.UnmarshalStrictLabels yamlString with
              | .error e => .ret (e.wrap "unmarshal label selector") obj1
              | .ok labelSelector =>
                -- translate label selector
                match resolver.TranslateLabelSelector labelSelector with
                | .error e => .ret e obj1
                | .ok translated =>
                  match yamlLib.NewNodeLabels translated with
                  | .error e => .ret (e.wrap "create node") obj1
                  | .ok newNode => .next (ReplaceNode obj1 m newNode) id
        else .next obj1 id) id obj1 matched

/-- The verb `RewriteLabelExpressionsSelector`. -/
def RewriteLabelExpressionsSelector (yamlLib : Serializer) (obj1 : Node) (patch : Patch)
    (resolver : NameResolver) : Outcome :=
  match FindMatches obj1 patch.Path with
  | .error e => ⟨some (e.wrap "find matches"), obj1⟩
  | .ok matched =>
    rangeMatches (fun obj1 m =>
      match getNode obj1 m with
      | none => .ret nilDereference obj1
      | some node =>
        if node.Kind = .MappingNode then
          match ValidateAllConditions obj1 (some m) patch.Conditions with
          | .error e => .ret (e.wrap "validate conditions") obj1
          | .ok false => .next obj1 id
          | .ok true =>
            match yamlLib.Marshal node with
            | .error e => .ret (e.wrap "marshal label selector") obj1
            | .ok yamlString =>
              -- try to unmarshal into label selector first
              match yamlLib.UnmarshalStrictSelector yamlString with
              | .error e => .ret (e.wrap "unmarshal label selector") obj1
              | .ok labelSelector =>
                -- translate label expressions selector
                match resolver.TranslateLabelExpressionsSelector labelSelector with
                | .error e => .ret e obj1
                | .ok translated =>
                  match yamlLib.NewNodeSelector translated with
                  | .error e => .ret (e.wrap "create node") obj1
                  | .ok newNode => .next (ReplaceNode obj1 m newNode) id
        else .next obj1 id) id obj1 matched

/-! ## Definitions used to state the properties -/

/-- The container the specification asks for around a value at a missing segment:
a one-element Sequence when the segment parses as an integer, a one-entry
Mapping keyed by the segment otherwise. -/
def wrapSegment (seg : String) (value : Node) : Node :=
  if (Atoi seg).isSome then sequenceOf [value] else mappingOf [strScalar seg, value]

/-- The value wrapped for each of the segments, innermost first (the last segment
wraps the value itself). -/
def wrapSegments : List String → Node → Node
  | [], value => value
  | seg :: rest, value => wrapSegment seg (wrapSegments rest value)

/-- Segments that are well formed and free of dots: the segments of a path that
resolution accepts. -/
def GoodSegments (segs : List String) : Prop :=
  ∀ s ∈ segs, validSegment s = true ∧ '.' ∉ s.data

/-- The parents after which a synthesised path resolves again: a Mapping with an
even number of children, or a Sequence whose length is the index that the
first missing segment denotes. -/
def ResolvableParent (s1 : String) (P : Node) : Prop :=
  (P.Kind = .MappingNode ∧ P.Content.length % 2 = 0) ∨
  (P.Kind = .SequenceNode ∧ Atoi s1 = some (P.Content.length : Int))

/-! ## Concrete inputs for the witnesses -/

/-- The document `{a: "1"}`. -/
def sampleTarget : Node := documentOf [mappingOf [strScalar "a", strScalar "1"]]

/-- The document `{a: "2"}`. -/
def sampleSource : Node := documentOf [mappingOf [strScalar "a", strScalar "2"]]

/-- A patch on the path `a` with the value `"9"` whose only condition always fails. -/
def neverPatch : Patch := ⟨"a", "", strScalar "9", ⟨""⟩, [fun _ _ => .ok false]⟩

/-- A patch on the path `a` with the value `"9"` and no condition. -/
def plainPatch : Patch := ⟨"a", "", strScalar "9", ⟨""⟩, []⟩

/-- A resolver that translates nothing. -/
def identityResolver : NameResolver :=
  ⟨fun name _ _ => .ok name, fun labels => .ok labels, fun selector => .ok selector⟩

/-- A serialisation library that decodes every text to the empty selector. -/
def emptySerializer : Serializer :=
  ⟨fun _ => .ok "", fun _ => .ok [], fun _ => .ok ⟨[], []⟩, fun _ => .ok (mappingOf []),
    fun _ => .ok (mappingOf [])⟩

/-! ## Structural well-formedness -/

/-- Whether the children of a mapping come in pairs whose first member, the key, is a
Scalar. -/
def scalarKeys : List Node → Bool
  | [] => true
  | [_] => false
  | k :: _ :: rest => decide (k.Kind = .ScalarNode) && scalarKeys rest

mutual
/-- Structural well-formedness of a node below the root: neither it nor a node under it
is a Document, and every Mapping has an even number of children with a Scalar key at each
even position. -/
def wellFormedBelow : Node → Bool
  | ⟨k, _, _, content⟩ =>
    decide (k ≠ .DocumentNode) && (decide (k ≠ .MappingNode) || scalarKeys content) &&
      wellFormedAll content
/-- Structural well-formedness of every node of a list of nodes below the root. -/
def wellFormedAll : List Node → Bool
  | [] => true
  | c :: cs => wellFormedBelow c && wellFormedAll cs
end

/-- Structural well-formedness of a tree: every Mapping has an even number of children
with a Scalar key at each even position, every Document has exactly one child and no
Document occurs below the root. -/
def WellFormed (obj : Node) : Bool :=
  match obj.Kind with
  | .DocumentNode => decide (obj.Content.length = 1) && wellFormedAll obj.Content
  | _ => wellFormedBelow obj

/-! ## The state of a loop over matches -/

/-- The renumbering of handles in force when the loop `for _, m := range matches` ends or
returns: the renumberings of its iterations, one after the other. A match that the loop
was handed at the handle `m` is found at the handle `rangeHandles body id obj ms m` in the
tree that the loop leaves behind. -/
def rangeHandles (body : Node → Ref → Step) : (Ref → Ref) → Node → List Ref → (Ref → Ref)
  | sigma, _, [] => sigma
  | sigma, obj1, m :: ms =>
    match body obj1 (sigma m) with
    | .next obj2 rho => rangeHandles body (rho ∘ sigma) obj2 ms
    | .ret _ _ => sigma

/-- One iteration of the loop of `RewriteLabelSelector` over the matches (lines 204-239). -/
def RewriteLabelSelectorStep (yamlLib : Serializer) (patch : Patch) (resolver : NameResolver)
    (obj1 : Node) (m : Ref) : Step :=
  match getNode obj1 m with
  | none => .ret nilDereference obj1
  | some node =>
    if node.Kind = .MappingNode then
      match ValidateAllConditions obj1 (some m) patch.Conditions with
      | .error e => .ret (e.wrap "validate conditions") obj1
      | .ok false => .next obj1 id
      | .ok true =>
        match yamlLib.Marshal node with
        | .error e => .ret (e.wrap "marshal label selector") obj1
        | .ok yamlString =>
          match yamlLib.UnmarshalStrictLabels yamlString with
          | .error e => .ret (e.wrap "unmarshal label selector") obj1
          | .ok labelSelector =>
            match resolver.TranslateLabelSelector labelSelector with
            | .error e => .ret e obj1
            | .ok translated =>
              match yamlLib.NewNodeLabels translated with
              | .error e => .ret (e.wrap "create node") obj1
              | .ok newNode => .next (ReplaceNode obj1 m newNode) id
    else .next obj1 id

/-- A renumbering of the handles of length `len`: it keeps their length and their parent
and sends different handles to different handles. -/
def Renumbering (len : Nat) (sigma : Ref → Ref) : Prop :=
  (∀ a : Ref, a.length = len → (sigma a).length = len ∧ (sigma a).dropLast = a.dropLast) ∧
  (∀ a b : Ref, a.length = len → b.length = len → a ≠ b → sigma a ≠ sigma b)

/-- An iteration that is stable on the handles of length `len`: when it returns, the tree
is as it was; when it goes on, it renumbers the handles of that length and every node at
such a handle, other than the one it was run on, is found unchanged at its new handle. -/
def StableStep (len : Nat) (body : Node → Ref → Step) : Prop :=
  ∀ (T : Node) (h : Ref), h.length = len →
    (∀ e T2, body T h = .ret e T2 → T2 = T) ∧
    (∀ T2 rho, body T h = .next T2 rho →
      Renumbering len rho ∧
      ∀ y : Ref, y.length = len → y ≠ h → getNode T2 (rho y) = getNode T y)

/-! ## Label maps and their serialised form

The selector verbs go through `yaml.Marshal`, `yamlhelper.UnmarshalStrict` and `NewNode`,
none of which is in the sources. They are modelled after gopkg.in/yaml.v3 on flat label
maps: mappings whose keys and values are scalars written on one line each, made of the
characters that the keys and values of Kubernetes labels are made of (letters, digits,
`-`, `_`, `.`, `/`). What the model does not cover is reported as an error of its own. -/

/-- Whether the key `a` comes before the key `b` in the order of their character codes,
the order in which the entries of a Go map are held here. -/
def keyLess : List Char → List Char → Bool
  | _, [] => false
  | [], _ :: _ => true
  | a :: as, b :: bs =>
    decide (a.toNat < b.toNat) || (decide (a.toNat = b.toNat) && keyLess as bs)

/-- Modelled from the spec: the assignment `labels[key] = value` on a Go
`map[string]string`. The map is held as its entries in the order of their keys, so that
two maps with the same entries are equal. -/
def setLabel (key value : String) : LabelMap → LabelMap
  | [] => [(key, value)]
  | (k, v) :: rest =>
    if key = k then (key, value) :: rest
    else if keyLess key.data k.data then (key, value) :: (k, v) :: rest
    else (k, v) :: setLabel key value rest

/-- Modelled from the spec: the Go `map[string]string` that holds the given entries,
`labelSelector` of line 220 after the strict decoding of §4.5. A Go map has no order of
its own: the order in which the entries were assigned is lost, and a later entry
overwrites an earlier one with the same key. -/
def goMap (entries : LabelMap) : LabelMap :=
  entries.foldl (fun labels e => setLabel e.1 e.2 labels) []

/-- The entries of a flat mapping: the values of its keys paired with the values of its
values, in the order of the children. -/
def labelEntries : List Node → LabelMap
  | k :: v :: rest => (k.Value, v.Value) :: labelEntries rest
  | _ => []

/-- The conversion to `int64` of an integer, with wrap-around. -/
def wrapInt64 (x : Int) : Int :=
  (x + 9223372036854775808) % 18446744073709551616 - 9223372036854775808

/-- The number held by the digits at the start of a text, counted up from `start` in
`int64`, and how many digits there are. -/
def digitRun : Int → List Char → Int × Nat
  | n, [] => (n, 0)
  | n, c :: cs =>
    if c.isDigit then
      ((digitRun (wrapInt64 (n * 10 + ((c.toNat : Int) - 48))) cs).1,
        (digitRun (wrapInt64 (n * 10 + ((c.toNat : Int) - 48))) cs).2 + 1)
    else (n, 0)

/-- Modelled from the spec: the comparison by which the encoder behind `NewNode` sorts the
string keys of a Go map (`keyList.Less` of gopkg.in/yaml.v3, for keys of ASCII
characters). At the first character that differs, two letters compare by their codes; a
letter comes after any other character, unless the character before was a digit; runs of
digits compare as numbers, then by length; other characters compare by their codes. A
proper prefix comes first. `before` holds the common characters read so far, the last one
first. -/
def naturalLessFrom (before : List Char) : List Char → List Char → Bool
  | [], [] => false
  | [], _ :: _ => true
  | _ :: _, [] => false
  | a :: as, b :: bs =>
    if a = b then naturalLessFrom (a :: before) as bs
    else if a.isAlpha && b.isAlpha then decide (a.toNat < b.toNat)
    else if a.isAlpha || b.isAlpha then
      (if (before.head?.map Char.isDigit) = some true then a.isAlpha else b.isAlpha)
    else
      if (digitRun (if (a = '0' ∨ b = '0') ∧
            (before.takeWhile Char.isDigit).any (fun c => c != '0') then 1 else 0)
          (a :: as)).1 ≠
        (digitRun (if (a = '0' ∨ b = '0') ∧
            (before.takeWhile Char.isDigit).any (fun c => c != '0') then 1 else 0)
          (b :: bs)).1 then
        decide ((digitRun (if (a = '0' ∨ b = '0') ∧
            (before.takeWhile Char.isDigit).any (fun c => c != '0') then 1 else 0)
          (a :: as)).1 <
        (digitRun (if (a = '0' ∨ b = '0') ∧
            (before.takeWhile Char.isDigit).any (fun c => c != '0') then 1 else 0)
          (b :: bs)).1)
      else if (digitRun 0 (a :: as)).2 ≠ (digitRun 0 (b :: bs)).2 then
        decide ((digitRun 0 (a :: as)).2 < (digitRun 0 (b :: bs)).2)
      else decide (a.toNat < b.toNat)

/-- Modelled from the spec: one step of the sort of the keys of a Go map in the encoder:
the entry is put in front of the first entry whose key it comes before. -/
def insertEntry (e : String × String) : LabelMap → LabelMap
  | [] => [e]
  | x :: rest =>
    if naturalLessFrom [] e.1.data x.1.data then e :: x :: rest else x :: insertEntry e rest

/-- Modelled from the spec: the entries of a Go map in the order in which the encoder
behind `NewNode` lists them, sorted by their keys. -/
def listKeys (labels : LabelMap) : LabelMap :=
  labels.foldr insertEntry []

/-- Modelled from the spec: the mapping that `NewNode` builds for a label map whose
entries are listed in the given order, keys and values as string scalars. -/
def labelsNode (labels : LabelMap) : Node :=
  mappingOf (labels.flatMap (fun e => [strScalar e.1, strScalar e.2]))

/-- The characters of the scalars that the model of the text form covers. -/
def isWordChar (c : Char) : Bool :=
  c.isAlphanum || c = '-' || c = '_' || c = '.' || c = '/'

/-- A text that the model of the text form covers when it is not empty: it starts with a
letter or a digit and goes on with letters, digits and the characters `-`, `_`, `.`,
`/`. -/
def isWord : List Char → Bool
  | [] => false
  | c :: cs => c.isAlphanum && cs.all isWordChar

/-- The plain words that a YAML 1.2 reader takes for a boolean. -/
def boolWords : List (List Char) :=
  ["true".data, "True".data, "TRUE".data, "false".data, "False".data, "FALSE".data]

/-- The plain texts that a YAML reader takes for null, other than the empty one. -/
def nullWords : List (List Char) :=
  ["~".data, "null".data, "Null".data, "NULL".data]

/-- The value of a digit in a base up to 16. -/
def digitOf (c : Char) : Option Nat :=
  if c.isDigit then some (c.toNat - 48)
  else if 97 ≤ c.toNat ∧ c.toNat ≤ 102 then some (c.toNat - 87)
  else if 65 ≤ c.toNat ∧ c.toNat ≤ 70 then some (c.toNat - 55)
  else none

/-- The number that a text of digits denotes in a base, if every character is a digit of
the base. -/
def parseDigits (base : Nat) (s : List Char) : Option Nat :=
  s.foldl (fun acc c =>
    match acc, digitOf c with
    | some n, some d => if d < base then some (n * base + d) else none
    | _, _ => none) (some 0)

/-- Modelled from the spec: whether `strconv.ParseInt` or `strconv.ParseUint` with base 0
and 64 bits accepts a text without sign and underscores, as the resolution of a plain
scalar in gopkg.in/yaml.v3 asks: decimal, or binary, octal or hexadecimal after `0b`, `0o`
or `0`, `0x`, below 2^64. -/
def readsAsInt (s : List Char) : Bool :=
  match
    (match s with
      | '0' :: c :: d :: rest =>
        if c = 'b' ∨ c = 'B' then parseDigits 2 (d :: rest)
        else if c = 'o' ∨ c = 'O' then parseDigits 8 (d :: rest)
        else if c = 'x' ∨ c = 'X' then parseDigits 16 (d :: rest)
        else parseDigits 8 (c :: d :: rest)
      | '0' :: rest => parseDigits 8 rest
      | _ => parseDigits 10 s) with
  | some n => decide (n < 18446744073709551616)
  | none => false

/-- Whether the decimal number with the digits `mantissa` and the exponent `exponent` of
ten is a finite `float64` after rounding: it is below 2^1024 - 2^970. -/
def fitsFloat64 (mantissa : List Char) (exponent : Int) : Bool :=
  match parseDigits 10 mantissa with
  | some m =>
    if 0 ≤ exponent then
      decide (m * 10 ^ exponent.toNat < 2 ^ 1024 - 2 ^ 970)
    else decide (m < (2 ^ 1024 - 2 ^ 970) * 10 ^ (-exponent).toNat)
  | none => false

/-- Modelled from the spec: whether the resolution of a plain scalar in gopkg.in/yaml.v3
takes a text without sign and underscores for a float: digits, an optional point with
digits, an optional exponent, and a value that `strconv.ParseFloat` accepts. -/
def readsAsFloat (s : List Char) : Bool :=
  if s.takeWhile Char.isDigit = [] then false
  else
    match
      (match s.dropWhile Char.isDigit with
        | '.' :: t => (t.takeWhile Char.isDigit, t.dropWhile Char.isDigit)
        | r => ([], r)) with
    | (fraction, []) =>
      fitsFloat64 (s.takeWhile Char.isDigit ++ fraction) (-(fraction.length : Int))
    | (fraction, e :: r) =>
      if e = 'e' ∨ e = 'E' then
        match r with
        | '-' :: ds =>
          !ds.isEmpty && ds.all Char.isDigit &&
            fitsFloat64 (s.takeWhile Char.isDigit ++ fraction)
              (-((parseDigits 10 ds).getD 0 : Int) - (fraction.length : Int))
        | '+' :: ds =>
          !ds.isEmpty && ds.all Char.isDigit &&
            fitsFloat64 (s.takeWhile Char.isDigit ++ fraction)
              (((parseDigits 10 ds).getD 0 : Int) - (fraction.length : Int))
        | ds =>
          !ds.isEmpty && ds.all Char.isDigit &&
            fitsFloat64 (s.takeWhile Char.isDigit ++ fraction)
              (((parseDigits 10 ds).getD 0 : Int) - (fraction.length : Int))
      else false

/-- The parts of a text between its hyphens. -/
def splitHyphens : List Char → List (List Char)
  | [] => [[]]
  | c :: cs =>
    if c = '-' then [] :: splitHyphens cs
    else
      match splitHyphens cs with
      | [] => [[c]]
      | part :: parts => (c :: part) :: parts

/-- The number of days of a month. -/
def daysIn (year month : Nat) : Nat :=
  if month = 2 then
    if year % 4 = 0 ∧ (year % 100 ≠ 0 ∨ year % 400 = 0) then 29 else 28
  else if month = 4 ∨ month = 6 ∨ month = 9 ∨ month = 11 then 30
  else 31

/-- Modelled from the spec: whether the resolution of a plain scalar in gopkg.in/yaml.v3
takes a covered text for a timestamp: a date `YYYY-M-D` that `time.Parse` accepts. The
other formats of a timestamp hold a colon. -/
def readsAsDate (s : List Char) : Bool :=
  match splitHyphens s with
  | [y, m, d] =>
    decide (y.length = 4) && y.all Char.isDigit &&
      decide (1 ≤ m.length ∧ m.length ≤ 2) && m.all Char.isDigit &&
      decide (1 ≤ d.length ∧ d.length ≤ 2) && d.all Char.isDigit &&
      decide (1 ≤ (parseDigits 10 m).getD 0 ∧ (parseDigits 10 m).getD 0 ≤ 12) &&
      decide (1 ≤ (parseDigits 10 d).getD 0 ∧
        (parseDigits 10 d).getD 0 ≤
          daysIn ((parseDigits 10 y).getD 0) ((parseDigits 10 m).getD 0))
  | _ => false

/-- Modelled from the spec: the tag that gopkg.in/yaml.v3 resolves a plain scalar with the
given text to, for a text that is empty or covered: null for the empty text and the null
words, a boolean, for a text that starts with a digit a timestamp, an integer or a float
(underscores are dropped before a number is read), and a string otherwise. -/
def resolvedTag (s : List Char) : String :=
  if s = [] ∨ s ∈ nullWords then "!!null"
  else if s ∈ boolWords then "!!bool"
  else
    match s with
    | c :: _ =>
      if c.isDigit then
        if readsAsDate s then "!!timestamp"
        else if readsAsInt (s.filter (fun x => x != '_')) then "!!int"
        else if readsAsFloat (s.filter (fun x => x != '_')) then "!!float"
        else "!!str"
      else "!!str"
    | [] => "!!null"

/-- Modelled from the spec: how `yaml.Marshal` writes a Scalar with the given tag and
value (gopkg.in/yaml.v3; the nodes of this model carry no style). A scalar without a tag,
or whose text resolves to its tag, is written plain; a string whose text would resolve to
another tag, the empty string included, is put in double quotes. `none` stands for a
scalar that the model does not cover: a text with other characters, and a scalar that is
written with its tag. -/
def scalarToken (tag : String) (value : List Char) : Option (List Char) :=
  if value = [] ∨ value ∈ nullWords ∨ isWord value = true then
    if tag = "" ∨ resolvedTag value = tag then some value
    else if tag = "!!str" ∧ value.all isWordChar = true then some ('"' :: value ++ ['"'])
    else none
  else none

/-- Modelled from the spec: one line `key: value` of the text form of a mapping. The key
is a string Scalar of at most 128 characters; a value that is written as the empty text
leaves `key:`. -/
def entryLine (indent : List Char) (k v : Node) : Option (List Char) :=
  if k.Kind = .ScalarNode ∧ k.Tag = "!!str" ∧ v.Kind = .ScalarNode ∧ k.Value.length ≤ 128 then
    match scalarToken k.Tag k.Value.data, scalarToken v.Tag v.Value.data with
    | some kt, some vt =>
      some (indent ++ kt ++ ':' :: (if vt = [] then [] else ' ' :: vt) ++ ['\n'])
    | _, _ => none
  else none

/-- Modelled from the spec: the lines of the entries of a mapping whose values are all
Scalars. A last child without a value is not written. -/
def renderEntries (indent : List Char) : List Node → Option (List Char)
  | k :: v :: rest =>
    match entryLine indent k v, renderEntries indent rest with
    | some line, some lines => some (line ++ lines)
    | _, _ => none
  | _ => some []

/-- Modelled from the spec: the lines `- item` of the elements of a sequence of Scalars. -/
def renderItems (indent : List Char) : List Node → Option (List Char)
  | [] => some []
  | v :: rest =>
    if v.Kind = .ScalarNode then
      match scalarToken v.Tag v.Value.data, renderItems indent rest with
      | some vt, some lines =>
        if vt = [] then none else some (indent ++ '-' :: ' ' :: vt ++ '\n' :: lines)
      | _, _ => none
    else none

/-- The key of an entry whose value is a collection. -/
def keyToken (k : Node) : Option (List Char) :=
  if k.Kind = .ScalarNode ∧ k.Tag = "!!str" ∧ k.Value.length ≤ 128 then
    scalarToken k.Tag k.Value.data
  else none

/-- Modelled from the spec: the text of the entries of the mapping that is marshalled. A
value that is a Scalar gives one line; a Mapping or a Sequence without entries is written
`{}` or `[]`; a Mapping of Scalars and a Sequence of Scalars are written on the lines
below the key, four columns in. -/
def renderTop : List Node → Option (List Char)
  | k :: v :: rest =>
    match
      (match v.Kind with
        | .ScalarNode => entryLine [] k v
        | .MappingNode =>
          if v.Tag = "!!map" ∨ v.Tag = "" then
            match keyToken k, renderEntries [' ', ' ', ' ', ' '] v.Content with
            | some kt, some lines =>
              if v.Content.length < 2 then some (kt ++ [':', ' ', '\x7b', '\x7d', '\n'])
              else some (kt ++ ':' :: '\n' :: lines)
            | _, _ => none
          else none
        | .SequenceNode =>
          if v.Tag = "!!seq" ∨ v.Tag = "" then
            match keyToken k, renderItems [' ', ' ', ' ', ' '] v.Content with
            | some kt, some lines =>
              if v.Content = [] then some (kt ++ [':', ' ', '[', ']', '\n'])
              else some (kt ++ ':' :: '\n' :: lines)
            | _, _ => none
          else none
        | .DocumentNode => none),
      renderTop rest with
    | some first, some lines => some (first ++ lines)
    | _, _ => none
  | _ => some []

/-- Modelled from the spec: `yaml.Marshal` of a node, the "underlying text form" of §4.5
(gopkg.in/yaml.v3). A Mapping without entries is written `{}`, any other Mapping entry by
entry. Other nodes and other tags are not covered. -/
def marshalNode (node : Node) : Option (List Char) :=
  if node.Kind = .MappingNode ∧ (node.Tag = "!!map" ∨ node.Tag = "") then
    if node.Content.length < 2 then some ['\x7b', '\x7d', '\n'] else renderTop node.Content
  else none

/-- The lines of a text, each ended by a line feed. -/
def splitLines : List Char → List (List Char)
  | [] => []
  | c :: cs =>
    if c = '\n' then [] :: splitLines cs
    else
      match splitLines cs with
      | [] => [[c]]
      | l :: ls => (c :: l) :: ls

/-- The texts before and after the first colon of a line. -/
def splitEntry : List Char → Option (List Char × List Char)
  | [] => none
  | c :: rest =>
    if c = ':' then some ([], rest)
    else (splitEntry rest).map (fun kv => (c :: kv.1, kv.2))

/-- Modelled from the spec: the string that the strict decoding of §4.5 reads from a
scalar of the text form (the decoding of gopkg.in/yaml.v3 into a Go string). A text in
double quotes is the text between them; a plain text that reads as null is the empty
string, the zero value of the Go type; any other plain text is itself, whatever type it
reads as. `none` stands for a text that the model does not cover. -/
def readToken : List Char → Option (List Char)
  | [] => some []
  | '"' :: rest =>
    if rest.getLast? = some '"' ∧ rest.dropLast.all isWordChar = true then some rest.dropLast
    else none
  | c :: rest =>
    if c :: rest ∈ nullWords then some []
    else if isWord (c :: rest) = true then some (c :: rest)
    else none

/-- Modelled from the spec: the strict decoding of §4.5 of the lines of a text into a flat
string-to-string map. Every line is an entry `key: value` of two scalars; a line of a
nested collection and a value `{}` or `[]` cannot be decoded into a string, and a key that
occurs twice is an error. A key that reads as null and any other text are not covered by
the model, which reports them as errors as well. -/
def decodeLabels : List (List Char) → LabelMap → Except Err LabelMap
  | [], labels => .ok labels
  | line :: rest, labels =>
    match splitEntry line with
    | none => .error (.msg "cannot unmarshal into map[string]string")
    | some (kt, after) =>
      if kt = [] ∨ kt ∈ nullWords then .error (.msg "text outside the modelled text form")
      else
        match readToken kt,
          (match after with
            | [] => some []
            | ' ' :: vt => if vt = [] then none else readToken vt
            | _ => none) with
        | some k, some v =>
          if (labels.map Prod.fst).contains (String.mk k) then
            .error (.msg "mapping key already defined")
          else decodeLabels rest (setLabel (String.mk k) (String.mk v) labels)
        | _, _ => .error (.msg "cannot unmarshal into map[string]string")

/-- Modelled from the spec: the serialisation library on flat label maps (§4.5).
`yaml.Marshal` writes the match in its text form; `yamlhelper.UnmarshalStrict` decodes
the text into a Go map; `NewNode` encodes a Go map as a Document around the mapping of its
entries, the keys sorted by the encoder. Structured selectors are not decoded by it. -/
def flatYaml : Serializer :=
  ⟨fun node =>
      match marshalNode node with
      | some text => .ok (String.mk text)
      | none => .error (.msg "node outside the modelled text form"),
    fun text =>
      if text.data = ['\x7b', '\x7d', '\n'] then .ok []
      else decodeLabels ((splitLines text.data).filter (fun l => !l.isEmpty)) [],
    fun _ => .error (.msg "cannot unmarshal into a label selector"),
    fun labels => .ok (documentOf [labelsNode (listKeys (goMap labels))]),
    fun _ => .error (.msg "cannot encode a label selector")⟩

/-- Whether the children of a mapping are the entries of a flat map of strings that the
text form covers: keys and values come in pairs, every key and every value is a string
Scalar, a key is a covered text of at most 128 characters, and a value is a covered text or
empty. -/
def flatStrings : List Node → Bool
  | [] => true
  | [_] => false
  | k :: v :: rest =>
    decide (k.Kind = .ScalarNode) && decide (k.Tag = "!!str") && isWord k.Value.data &&
      decide (k.Value.length ≤ 128) &&
      decide (v.Kind = .ScalarNode) && decide (v.Tag = "!!str") &&
      (isWord v.Value.data || decide (v.Value.data = [])) &&
      flatStrings rest

/-- A key of letters and the characters `-`, `.`, `/`. -/
def isSimpleKey (s : List Char) : Bool :=
  s.all (fun c => c.isAlpha || c = '-' || c = '.' || c = '/')

/-! ## Properties of paths -/

theorem splitDots_ne_nil (cs : List Char) : splitDots cs ≠ [] := by
  cases cs with
  | nil => simp [splitDots]
  | cons c cs =>
    simp only [splitDots]
    split
    · simp
    · split <;> simp

theorem splitDots_dotfree (cs : List Char) : ∀ s ∈ splitDots cs, '.' ∉ s := by
  induction cs with
  | nil => simp [splitDots]
  | cons c cs ih =>
    intro s hs
    simp only [splitDots] at hs
    split at hs
    · rcases List.mem_cons.1 hs with h | h
      · simp [h]
      · exact ih s h
    · rename_i hc
      split at hs
      · rename_i heq
        exact absurd heq (splitDots_ne_nil cs)
      · rename_i s0 ss heq
        rw [heq] at ih
        rcases List.mem_cons.1 hs with h | h
        · subst h
          have := ih s0 (by simp)
          simp only [List.mem_cons, not_or]
          exact ⟨fun h => hc h.symm, this⟩
        · exact ih s (by simp [h])

theorem joinDots_splitDots (cs : List Char) : joinDots (splitDots cs) = cs := by
  induction cs with
  | nil => simp [splitDots, joinDots]
  | cons c cs ih =>
    simp only [splitDots]
    split
    · rename_i hc
      cases h : splitDots cs with
      | nil => exact absurd h (splitDots_ne_nil cs)
      | cons s ss =>
        rw [h] at ih
        simp [joinDots, ih, hc]
    · cases h : splitDots cs with
      | nil => exact absurd h (splitDots_ne_nil cs)
      | cons s ss =>
        rw [h] at ih
        cases ss with
        | nil => simpa [joinDots] using ih
        | cons t ts =>
          simp only [joinDots] at ih ⊢
          simp [ih]

theorem splitDots_append_dot (s : List Char) (hs : '.' ∉ s) (cs : List Char) :
    splitDots (s ++ '.' :: cs) = s :: splitDots cs := by
  induction s with
  | nil => simp [splitDots]
  | cons c s ih =>
    simp only [List.mem_cons, not_or] at hs
    have hc : c ≠ '.' := fun h => hs.1 h.symm
    have h2 := ih hs.2
    simp only [List.cons_append, splitDots, hc, if_false, List.append_eq, h2]

theorem splitDots_dotfree_self (s : List Char) (hs : '.' ∉ s) : splitDots s = [s] := by
  induction s with
  | nil => simp [splitDots]
  | cons c s ih =>
    simp only [List.mem_cons, not_or] at hs
    have hc : c ≠ '.' := fun h => hs.1 h.symm
    simp only [splitDots, hc, if_false, ih hs.2]

theorem splitDots_joinDots (segs : List (List Char)) (hne : segs ≠ [])
    (hfree : ∀ s ∈ segs, '.' ∉ s) : splitDots (joinDots segs) = segs := by
  induction segs with
  | nil => exact absurd rfl hne
  | cons s t ih =>
    cases t with
    | nil => simpa [joinDots] using splitDots_dotfree_self s (hfree s (by simp))
    | cons t ts =>
      simp only [joinDots]
      rw [splitDots_append_dot s (hfree s (by simp)), ih (by simp) (fun x hx => hfree x (by simp [hx]))]

theorem segments_map_data (path : String) :
    (segments path).map String.data = splitDots path.data := by
  simp [segments, Function.comp_def]

theorem joinPath_segments (path : String) : joinPath (segments path) = path := by
  simp [joinPath, segments_map_data, joinDots_splitDots]

theorem segments_dotfree (path : String) : ∀ s ∈ segments path, '.' ∉ s.data := by
  intro s hs
  simp only [segments, List.mem_map] at hs
  obtain ⟨l, hl, rfl⟩ := hs
  exact splitDots_dotfree path.data l hl

theorem segments_ne_nil (path : String) : segments path ≠ [] := by
  simp [segments, splitDots_ne_nil]

theorem segments_joinPath (segs : List String) (hne : segs ≠ [])
    (hfree : ∀ s ∈ segs, '.' ∉ s.data) : segments (joinPath segs) = segs := by
  have h := splitDots_joinDots (segs.map String.data) (by simpa using hne)
    (by
      intro l hl
      simp only [List.mem_map] at hl
      obtain ⟨s, hs, rfl⟩ := hl
      exact hfree s hs)
  simp [segments, joinPath, h, Function.comp_def]

theorem getParentPath_eq (path : String) :
    getParentPath path = joinPath (segments path).dropLast := by
  simp [getParentPath, joinPath, segments, List.map_dropLast, Function.comp_def]

theorem getChildName_eq (path : String) (init : List String) (s : String)
    (h : segments path = init ++ [s]) : getChildName path = s := by
  have h2 := congrArg (List.map String.data) h
  rw [segments_map_data] at h2
  simp [getChildName, h2]

theorem getParentPath_of_segments (path : String) (init : List String) (s : String)
    (h : segments path = init ++ [s]) : getParentPath path = joinPath init := by
  rw [getParentPath_eq, h, List.dropLast_concat]

theorem joinPath_ne_empty (segs : List String) (hne : segs ≠ [])
    (hfree : ∀ s ∈ segs, '.' ∉ s.data) (hvalid : ∀ s ∈ segs, s ≠ "") : joinPath segs ≠ "" := by
  intro h
  have h2 := segments_joinPath segs hne hfree
  rw [h] at h2
  have h3 : segments "" = [""] := by decide
  rw [h3] at h2
  exact hvalid "" (by rw [← h2]; simp) rfl

/-! ## Properties of handles -/

theorem getNode_append (n : Node) (r q : Ref) :
    getNode n (r ++ q) = (getNode n r).bind (fun c => getNode c q) := by
  induction r generalizing n with
  | nil => simp [getNode]
  | cons i r ih =>
    simp only [List.cons_append, getNode]
    cases n.Content[i]? with
    | none => simp
    | some c => simpa using ih c

theorem getNode_modifyAt (f : Node → Node) (n : Node) (r : Ref) :
    getNode (modifyAt f n r) r = (getNode n r).map f := by
  induction r generalizing n with
  | nil => simp [getNode, modifyAt]
  | cons i r ih =>
    simp only [getNode, modifyAt]
    cases h : n.Content[i]? with
    | none => simp [h]
    | some c =>
      have hi : i < n.Content.length := (List.getElem?_eq_some.1 h).1
      simp [List.getElem?_set, hi, ih]

theorem modifyAt_kind (f : Node → Node) (n : Node) (i : Nat) (r : Ref) :
    (modifyAt f n (i :: r)).Kind = n.Kind := by
  simp only [modifyAt]
  cases n.Content[i]? <;> simp

theorem getNode_modifyAt_ne (f : Node → Node) (n : Node) (r q : Ref)
    (hlen : r.length = q.length) (hne : r ≠ q) :
    getNode (modifyAt f n r) q = getNode n q := by
  induction r generalizing n q with
  | nil =>
    cases q with
    | nil => exact absurd rfl hne
    | cons j q => simp at hlen
  | cons i r ih =>
    cases q with
    | nil => simp at hlen
    | cons j q =>
      simp only [modifyAt]
      cases h : n.Content[i]? with
      | none => simp
      | some c =>
        have hi : i < n.Content.length := (List.getElem?_eq_some.1 h).1
        simp only [getNode]
        by_cases hij : i = j
        · subst hij
          have hrq : r ≠ q := fun hh => hne (by rw [hh])
          simp only [List.getElem?_set, hi, if_true, h]
          simpa using ih c q (by simpa using hlen) hrq
        · simp [List.getElem?_set, hij]

/-! ## Properties of path resolution -/

@[simp] theorem mapRefs_some (f : Ref → Ref) (rs : List Ref) :
    mapRefs f (some rs) = some (rs.map f) := rfl

@[simp] theorem mapRefs_none (f : Ref → Ref) : mapRefs f none = none := rfl

@[simp] theorem appendRefs_some (a b : List Ref) :
    appendRefs (some a) (some b) = some (a ++ b) := rfl

@[simp] theorem appendRefs_none_left (x : Option (List Ref)) : appendRefs none x = none := by
  cases x <;> rfl

@[simp] theorem appendRefs_none_right (x : Option (List Ref)) : appendRefs x none = none := by
  cases x <;> rfl

theorem appendRefs_nil_left (x : Option (List Ref)) : appendRefs (some []) x = x := by
  cases x <;> simp

theorem appendRefs_nil_right (x : Option (List Ref)) : appendRefs x (some []) = x := by
  cases x <;> simp

theorem appendRefs_assoc (x y z : Option (List Ref)) :
    appendRefs (appendRefs x y) z = appendRefs x (appendRefs y z) := by
  cases x <;> cases y <;> cases z <;> simp

theorem mapRefs_appendRefs (f : Ref → Ref) (x y : Option (List Ref)) :
    mapRefs f (appendRefs x y) = appendRefs (mapRefs f x) (mapRefs f y) := by
  cases x <;> cases y <;> simp

theorem mapRefs_mapRefs (f g : Ref → Ref) (x : Option (List Ref)) :
    mapRefs f (mapRefs g x) = mapRefs (f ∘ g) x := by
  cases x <;> simp

theorem mapRefs_id (x : Option (List Ref)) : mapRefs (fun t => t) x = x := by
  cases x <;> simp

theorem appendRefs_eq_some {x y : Option (List Ref)} {rs : List Ref}
    (h : appendRefs x y = some rs) : ∃ a b, x = some a ∧ y = some b ∧ rs = a ++ b := by
  cases x <;> cases y <;> simp at h
  exact ⟨_, _, rfl, rfl, h.symm⟩

theorem mappingValues_mem (seg : String) (l : List Node) (k : Nat) (ic : Nat × Node)
    (h : ic ∈ mappingValues seg k l) : ∃ j, ic.1 = k + j ∧ l[j]? = some ic.2 ∧ j % 2 = 1 := by
  generalize hl : l.length = m
  induction m using Nat.strong_induction_on generalizing l k with
  | _ m ih =>
    match l, hl with
    | [], _ => simp [mappingValues] at h
    | [_], _ => simp [mappingValues] at h
    | key :: v :: rest, hl =>
      simp only [mappingValues] at h
      have hrest : ic ∈ mappingValues seg (k + 2) rest →
          ∃ j, ic.1 = k + j ∧ (key :: v :: rest)[j]? = some ic.2 ∧ j % 2 = 1 := by
        intro h2
        obtain ⟨j, hj1, hj2, hj3⟩ := ih rest.length (by simp at hl; omega) rest (k + 2) h2 rfl
        exact ⟨j + 2, by omega, by simpa using hj2, by omega⟩
      split at h
      · rcases List.mem_cons.1 h with h1 | h1
        · exact ⟨1, by simp [h1], by simp [h1], rfl⟩
        · exact hrest h1
      · exact hrest h

theorem sequenceElement_mem (seg : String) (l : List Node) (ic : Nat × Node)
    (h : ic ∈ sequenceElement seg l) : l[ic.1]? = some ic.2 := by
  unfold sequenceElement at h
  split at h
  · split at h
    · split at h
      · rename_i c hc
        simp at h
        subst h
        exact hc
      · simp at h
    · simp at h
  · simp at h

theorem selectChildren_mem (seg : String) (n : Node) (cs : List (Nat × Node))
    (h : selectChildren seg n = some cs) (ic : Nat × Node) (hic : ic ∈ cs) :
    n.Content[ic.1]? = some ic.2 := by
  unfold selectChildren at h
  split at h
  · simp at h
  · simp only [Option.some.injEq] at h
    subst h
    obtain ⟨j, hj1, hj2, _⟩ := mappingValues_mem seg n.Content 0 ic hic
    simp only [Nat.zero_add] at hj1
    rw [hj1]
    exact hj2
  · simp only [Option.some.injEq] at h
    subst h
    exact sequenceElement_mem seg n.Content ic hic
  · simp only [Option.some.injEq] at h
    subst h
    simp at hic

theorem extendRefs_append (segs : List String) (n : Node) (a b : List Ref) :
    extendRefs segs n (a ++ b) = appendRefs (extendRefs segs n a) (extendRefs segs n b) := by
  induction a with
  | nil => simp [extendRefs, appendRefs_nil_left]
  | cons r a ih => simp [extendRefs, ih, appendRefs_assoc]

theorem extendRefs_map_cons (segs : List String) (n c : Node) (i : Nat)
    (h : n.Content[i]? = some c) (rs : List Ref) :
    extendRefs segs n (rs.map (fun r => i :: r)) =
      mapRefs (fun r => i :: r) (extendRefs segs c rs) := by
  induction rs with
  | nil => simp [extendRefs]
  | cons r rs ih =>
    simp only [List.map_cons, extendRefs, ih, mapRefs_appendRefs, getNode, h]
    congr 1
    cases getNode c r with
    | none => simp
    | some d => simp [mapRefs_mapRefs, Function.comp_def]

theorem resolve_append (a b : List String) (n : Node) :
    resolve (a ++ b) n = (resolve a n).bind (extendRefs b n) := by
  induction a generalizing n with
  | nil =>
    simp only [List.nil_append, resolve, Option.some_bind, extendRefs, getNode,
      appendRefs_nil_right, List.nil_append]
    exact (mapRefs_id _).symm
  | cons s a ih =>
    simp only [List.cons_append, resolve]
    cases hsel : selectChildren s n with
    | none => simp
    | some cs =>
      simp only
      have hmem := selectChildren_mem s n cs hsel
      clear hsel
      induction cs with
      | nil => simp [collect, extendRefs]
      | cons x xs ihx =>
        simp only [collect, List.append_eq] at ihx ⊢
        rw [ihx (fun ic hic => hmem ic (by simp [hic])), ih x.2]
        have hx := hmem x (by simp)
        cases h1 : resolve a x.2 with
        | none => simp
        | some rsx =>
          cases h2 : collect (fun ic => mapRefs (fun r => ic.1 :: r) (resolve a ic.2)) xs with
          | none => simp
          | some rest =>
            simp [extendRefs_append, extendRefs_map_cons b n x.2 x.1 hx]

theorem mappingValues_set (seg : String) (l : List Node) (k j : Nat) (c : Node)
    (hj : j % 2 = 1) :
    mappingValues seg k (l.set j c) =
      (mappingValues seg k l).map (fun ic => if ic.1 = k + j then (k + j, c) else ic) := by
  generalize hl : l.length = m
  induction m using Nat.strong_induction_on generalizing l k j with
  | _ m ih =>
    match l, hl with
    | [], _ => simp [mappingValues]
    | [x], _ =>
      cases j with
      | zero => simp at hj
      | succ j => simp [mappingValues]
    | key :: v :: rest, hl =>
      have hfix : ∀ ic ∈ mappingValues seg (k + 2) rest, ic.1 ≠ k + 1 := by
        intro ic hic
        obtain ⟨j2, h1, _, _⟩ := mappingValues_mem seg rest (k + 2) ic hic
        omega
      match j, hj with
      | 0, hj => simp at hj
      | 1, _ =>
        have hmap : (mappingValues seg (k + 2) rest).map
            (fun ic => if ic.1 = k + 1 then (k + 1, c) else ic) =
            mappingValues seg (k + 2) rest := by
          conv_rhs => rw [← List.map_id (mappingValues seg (k + 2) rest)]
          apply List.map_congr_left
          intro ic hic
          simp [hfix ic hic]
        simp only [List.set_cons_succ, List.set_cons_zero, mappingValues]
        split <;> simp [hmap]
      | j + 2, hj =>
        have h2 := ih rest.length (by simp at hl; omega) rest (k + 2) j (by omega) rfl
        have e : k + 2 + j = k + (j + 2) := by omega
        rw [e] at h2
        simp only [List.set_cons_succ, mappingValues, h2]
        split
        · simp only [List.map_cons, List.cons.injEq, and_true]
          have : k + 1 ≠ k + (j + 2) := by omega
          simp [this]
        · rfl

theorem sequenceElement_set (seg : String) (l : List Node) (x : Nat × Node) (c : Node)
    (hx : x ∈ sequenceElement seg l) :
    sequenceElement seg (l.set x.1 c) =
      (sequenceElement seg l).map (fun ic => if ic.1 = x.1 then (x.1, c) else ic) := by
  unfold sequenceElement at hx ⊢
  split at hx
  · rename_i i hi
    split at hx
    · split at hx
      · rename_i hpos _ d hd
        simp only [List.mem_singleton] at hx
        subst hx
        have hlt : i.toNat < l.length := (List.getElem?_eq_some.1 hd).1
        simp [hd, List.getElem?_set, hlt, hpos]
      · simp at hx
    · simp at hx
  · simp at hx

theorem selectChildren_set (seg : String) (n : Node) (cs : List (Nat × Node))
    (h : selectChildren seg n = some cs) (x : Nat × Node) (hx : x ∈ cs) (c : Node) :
    selectChildren seg { n with Content := n.Content.set x.1 c } =
      some (cs.map (fun ic => if ic.1 = x.1 then (x.1, c) else ic)) := by
  unfold selectChildren at h ⊢
  simp only
  split at h
  · simp at h
  · rename_i hk
    simp only [Option.some.injEq] at h
    subst h
    obtain ⟨j, hj1, _, hj3⟩ := mappingValues_mem seg n.Content 0 x hx
    simp only [Nat.zero_add] at hj1
    have := mappingValues_set seg n.Content 0 j c hj3
    simp only [Nat.zero_add, ← hj1] at this
    simp [hk, this]
  · rename_i hk
    simp only [Option.some.injEq] at h
    subst h
    simp [hk, sequenceElement_set seg n.Content x c hx]
  · simp only [Option.some.injEq] at h
    subst h
    simp at hx

theorem collect_congr (f g : Nat × Node → Option (List Ref)) (cs : List (Nat × Node))
    (h : ∀ x ∈ cs, f x = g x) : collect f cs = collect g cs := by
  induction cs with
  | nil => rfl
  | cons x xs ih =>
    simp only [collect]
    rw [h x (by simp), ih (fun y hy => h y (by simp [hy]))]

theorem collect_map (f : Nat × Node → Option (List Ref)) (u : Nat × Node → Nat × Node)
    (cs : List (Nat × Node)) : collect f (cs.map u) = collect (fun x => f (u x)) cs := by
  induction cs with
  | nil => rfl
  | cons x xs ih => simp [collect, ih]

theorem collect_mem (f : Nat × Node → Option (List Ref)) (cs : List (Nat × Node))
    (rs : List Ref) (h : collect f cs = some rs) (r : Ref) (hr : r ∈ rs) :
    ∃ x ∈ cs, ∃ a, f x = some a ∧ r ∈ a := by
  induction cs generalizing rs with
  | nil =>
    simp only [collect, Option.some.injEq] at h
    subst h
    simp at hr
  | cons x xs ih =>
    simp only [collect] at h
    obtain ⟨a, b, ha, hb, hab⟩ := appendRefs_eq_some h
    subst hab
    rcases List.mem_append.1 hr with h1 | h1
    · exact ⟨x, by simp, a, ha, h1⟩
    · obtain ⟨y, hy, a2, ha2, hr2⟩ := ih b hb h1
      exact ⟨y, by simp [hy], a2, ha2, hr2⟩

theorem resolve_mem_cons (s : String) (a : List String) (n : Node) (rs : List Ref)
    (h : resolve (s :: a) n = some rs) (r : Ref) (hr : r ∈ rs) :
    ∃ cs, selectChildren s n = some cs ∧ ∃ x ∈ cs, ∃ rsx q,
      resolve a x.2 = some rsx ∧ q ∈ rsx ∧ r = x.1 :: q := by
  simp only [resolve] at h
  cases hsel : selectChildren s n with
  | none => simp [hsel] at h
  | some cs =>
    simp only [hsel] at h
    obtain ⟨x, hx, a2, ha2, hr2⟩ := collect_mem _ cs rs h r hr
    cases hres : resolve a x.2 with
    | none => simp [hres] at ha2
    | some rsx =>
      simp only [hres, mapRefs_some, Option.some.injEq] at ha2
      subst ha2
      obtain ⟨q, hq, rfl⟩ := List.mem_map.1 hr2
      exact ⟨cs, rfl, x, hx, rsx, q, hres, hq, rfl⟩

theorem resolve_modifyAt (f : Node → Node) (a : List String) (n : Node) (rs : List Ref)
    (h : resolve a n = some rs) (r : Ref) (hr : r ∈ rs) :
    resolve a (modifyAt f n r) = some rs := by
  induction a generalizing n rs r with
  | nil => simpa [resolve] using h
  | cons s a ih =>
    obtain ⟨cs, hsel, x, hx, rsx, q, hres, hq, rfl⟩ := resolve_mem_cons s a n rs h r hr
    have hxc := selectChildren_mem s n cs hsel x hx
    simp only [resolve, hsel] at h
    simp only [modifyAt, hxc, resolve, selectChildren_set s n cs hsel x hx, collect_map]
    rw [← h]
    apply collect_congr
    intro y hy
    by_cases hyx : y.1 = x.1
    · have hyc := selectChildren_mem s n cs hsel y hy
      rw [hyx, hxc] at hyc
      simp only [hyx, if_true, ih x.2 rsx hres q hq]
      simp only [Option.some.injEq] at hyc
      rw [← hyc, hres]
    · simp [hyx]

theorem resolve_length (a : List String) (n : Node) (rs : List Ref)
    (h : resolve a n = some rs) (r : Ref) (hr : r ∈ rs) : r.length = a.length := by
  induction a generalizing n rs r with
  | nil =>
    simp only [resolve, Option.some.injEq] at h
    subst h
    simp at hr
    simp [hr]
  | cons s a ih =>
    obtain ⟨cs, _, x, _, rsx, q, hres, hq, rfl⟩ := resolve_mem_cons s a n rs h r hr
    simp [ih x.2 rsx hres q hq]

theorem resolve_valid (a : List String) (n : Node) (rs : List Ref)
    (h : resolve a n = some rs) (r : Ref) (hr : r ∈ rs) : ∃ c, getNode n r = some c := by
  induction a generalizing n rs r with
  | nil =>
    simp only [resolve, Option.some.injEq] at h
    subst h
    simp at hr
    simp [hr, getNode]
  | cons s a ih =>
    obtain ⟨cs, hsel, x, hx, rsx, q, hres, hq, rfl⟩ := resolve_mem_cons s a n rs h r hr
    have hxc := selectChildren_mem s n cs hsel x hx
    simpa [getNode, hxc] using ih x.2 rsx hres q hq

/-! ## Properties of `FindMatches` -/

theorem GoodSegments.all_valid {segs : List String} (h : GoodSegments segs) :
    segs.all validSegment = true := by
  simp only [List.all_eq_true]
  exact fun s hs => (h s hs).1

theorem GoodSegments.ne_empty {segs : List String} (h : GoodSegments segs) :
    ∀ s ∈ segs, s ≠ "" := by
  intro s hs he
  have := (h s hs).1
  rw [he] at this
  exact absurd this (by decide)

theorem GoodSegments.append_left {a b : List String} (h : GoodSegments (a ++ b)) :
    GoodSegments a := fun s hs => h s (by simp [hs])

theorem GoodSegments.append_right {a b : List String} (h : GoodSegments (a ++ b)) :
    GoodSegments b := fun s hs => h s (by simp [hs])

theorem pathSegments_empty : pathSegments "" = [] := rfl

theorem pathSegments_of_ne (path : String) (h : path ≠ "") :
    pathSegments path = segments path := by
  simp [pathSegments, h]

theorem pathSegments_dotfree (path : String) : ∀ s ∈ pathSegments path, '.' ∉ s.data := by
  unfold pathSegments
  split
  · simp
  · exact segments_dotfree path

theorem pathSegments_joinPath (segs : List String) (hgood : GoodSegments segs) :
    pathSegments (joinPath segs) = segs := by
  cases segs with
  | nil => rfl
  | cons s t =>
    have h1 : joinPath (s :: t) ≠ "" :=
      joinPath_ne_empty _ (by simp) (fun x hx => (hgood x hx).2) hgood.ne_empty
    rw [pathSegments_of_ne _ h1]
    exact segments_joinPath _ (by simp) (fun x hx => (hgood x hx).2)

theorem joinPath_pathSegments (path : String) : joinPath (pathSegments path) = path := by
  unfold pathSegments
  split
  · rename_i h
    rw [h]
    rfl
  · exact joinPath_segments path

theorem FindMatches_joinPath (obj : Node) (segs : List String) (hgood : GoodSegments segs) :
    FindMatches obj (joinPath segs) =
      match resolveRoot segs obj with
      | none => .error scalarIndexed
      | some rs => .ok rs := by
  simp only [FindMatches, pathSegments_joinPath segs hgood, hgood.all_valid, if_true]

theorem FindMatches_ok_good (obj : Node) (path : String) (rs : List Ref)
    (h : FindMatches obj path = .ok rs) :
    GoodSegments (pathSegments path) ∧ resolveRoot (pathSegments path) obj = some rs := by
  simp only [FindMatches] at h
  split at h
  · rename_i hall
    constructor
    · intro s hs
      exact ⟨by simpa using (List.all_eq_true.1 hall) s hs, pathSegments_dotfree path s hs⟩
    · split at h
      · simp at h
      · rename_i rs2 hr
        simp only [Except.ok.injEq] at h
        rw [hr, h]
  · simp at h

theorem resolveRoot_append (a b : List String) (obj : Node) :
    resolveRoot (a ++ b) obj = (resolveRoot a obj).bind (extendRefs b obj) := by
  unfold resolveRoot
  split
  · simp [extendRefs]
  · rename_i c t hk hc
    rw [resolve_append]
    cases resolve a c with
    | none => simp
    | some rsx =>
      simp only [Option.some_bind, mapRefs_some]
      rw [extendRefs_map_cons b obj c 0 (by simp [hc])]
  · exact resolve_append a b obj

theorem resolveRoot_modifyAt (f : Node → Node) (a : List String) (obj : Node)
    (rs : List Ref) (h : resolveRoot a obj = some rs) (r : Ref) (hr : r ∈ rs)
    (hf : a ≠ [] ∨ ∀ x, x.Kind ≠ .DocumentNode → (f x).Kind ≠ .DocumentNode) :
    resolveRoot a (modifyAt f obj r) = some rs := by
  unfold resolveRoot at h
  split at h
  · simp only [Option.some.injEq] at h
    subst h
    simp at hr
  · rename_i c t hk hc
    cases hres : resolve a c with
    | none => simp [hres] at h
    | some rsx =>
      simp only [hres, mapRefs_some, Option.some.injEq] at h
      subst h
      obtain ⟨q, hq, rfl⟩ := List.mem_map.1 hr
      have h2 := resolve_modifyAt f a c rsx hres q hq
      simp [resolveRoot, modifyAt, hc, hk, h2]
  · rename_i hnd
    have hnd2 : ¬ (obj.Kind = .DocumentNode) := by
      intro hk
      cases hc : obj.Content with
      | nil => rename_i hnd1; exact hnd1 hk hc
      | cons c t => exact hnd c t hk hc
    have h2 := resolve_modifyAt f a obj rs h r hr
    have hkind : (modifyAt f obj r).Kind ≠ .DocumentNode := by
      cases r with
      | nil =>
        rcases hf with hf | hf
        · cases a with
          | nil => exact absurd rfl hf
          | cons s a =>
            have := resolve_length (s :: a) obj rs h [] hr
            simp at this
        · simpa [modifyAt] using hf obj hnd2
      | cons i q =>
        rw [modifyAt_kind f obj i q]
        exact hnd2
    unfold resolveRoot
    split
    · rename_i hk _
      exact absurd hk hkind
    · rename_i hk _
      exact absurd hk hkind
    · exact h2

theorem wrapSegments_concat (rest : List String) (s : String) (v : Node) :
    wrapSegments (rest ++ [s]) v = wrapSegments rest (wrapSegment s v) := by
  induction rest with
  | nil => rfl
  | cons t rest ih => simp [wrapSegments, ih]

theorem wrapSegment_kind (s : String) (v : Node) : (wrapSegment s v).Kind ≠ .DocumentNode := by
  unfold wrapSegment
  split <;> simp [sequenceOf, mappingOf]

theorem FindMatches_extend_nil (obj : Node) (a b : List String)
    (hgood : GoodSegments (a ++ b)) (h : FindMatches obj (joinPath a) = .ok []) :
    FindMatches obj (joinPath (a ++ b)) = .ok [] := by
  rw [FindMatches_joinPath obj a hgood.append_left] at h
  rw [FindMatches_joinPath obj (a ++ b) hgood, resolveRoot_append]
  cases hres : resolveRoot a obj with
  | none => simp [hres] at h
  | some rs =>
    simp only [hres, Except.ok.injEq] at h
    subst h
    simp [extendRefs]

theorem joinPath_inj (a b : List String) (ha : a ≠ []) (hb : b ≠ [])
    (hga : GoodSegments a) (hgb : GoodSegments b) (h : joinPath a = joinPath b) : a = b := by
  rw [← segments_joinPath a ha (fun s hs => (hga s hs).2),
    ← segments_joinPath b hb (fun s hs => (hgb s hs).2), h]

theorem createPathAux_synthesise (obj : Node) (pre : List String) (s1 : String)
    (m : Ref) (ms : List Ref)
    (hpre : FindMatches obj (joinPath pre) = .ok (m :: ms))
    (hmiss : FindMatches obj (joinPath (pre ++ [s1])) = .ok [])
    (rest : List String) (hgood : GoodSegments (pre ++ s1 :: rest))
    (value v0 : Node)
    (hv : (if value.Kind = .DocumentNode then value.Content.head? else some value) = some v0)
    (fuel : Nat) (hfuel : rest.length < fuel) :
    createPathAux fuel obj (joinPath (pre ++ s1 :: rest)) value =
      rangeMatches (createPathSplice s1 (wrapSegments rest v0)) id obj (m :: ms) := by
  generalize hn : rest.length = n
  induction n generalizing rest value v0 fuel with
  | zero =>
    have hrest : rest = [] := List.length_eq_zero.1 hn
    subst hrest
    obtain ⟨f, rfl⟩ : ∃ f, fuel = f + 1 := ⟨fuel - 1, by omega⟩
    have hseg : segments (joinPath (pre ++ [s1])) = pre ++ [s1] :=
      segments_joinPath _ (by simp) (fun s hs => (hgood s hs).2)
    simp only [createPathAux, hv, getParents, getParentPath_of_segments _ pre s1 hseg, hpre,
      getChildName_eq _ pre s1 hseg, wrapSegments]
  | succ n ih =>
    obtain ⟨f, rfl⟩ : ∃ f, fuel = f + 1 := ⟨fuel - 1, by omega⟩
    rcases List.eq_nil_or_concat rest with hnil | ⟨init, sk, hrest⟩
    · subst hnil
      simp at hn
    · rw [List.concat_eq_append] at hrest
      subst hrest
      have hlen : init.length = n := by simpa using hn
      have hgood2 : GoodSegments ((pre ++ s1 :: init) ++ [sk]) := by
        simpa using hgood
      have hseg : segments (joinPath (pre ++ s1 :: (init ++ [sk]))) =
          (pre ++ s1 :: init) ++ [sk] := by
        have := segments_joinPath _ (by simp) (fun s hs => (hgood s hs).2)
        simpa using this
      have hparent : FindMatches obj (joinPath (pre ++ s1 :: init)) = .ok [] := by
        have := FindMatches_extend_nil obj (pre ++ [s1]) init
          (by simpa using hgood2.append_left) hmiss
        simpa using this
      have hp1 : joinPath (pre ++ s1 :: init) ≠ "" :=
        joinPath_ne_empty _ (by simp) (fun s hs => (hgood2.append_left s hs).2)
          hgood2.append_left.ne_empty
      have hp2 : joinPath (pre ++ s1 :: (init ++ [sk])) ≠ "" :=
        joinPath_ne_empty _ (by simp) (fun s hs => (hgood s hs).2) hgood.ne_empty
      have hp3 : joinPath (pre ++ s1 :: (init ++ [sk])) ≠ joinPath (pre ++ s1 :: init) := by
        intro h
        have := joinPath_inj _ _ (by simp) (by simp) hgood hgood2.append_left h
        have := congrArg List.length this
        simp at this
      have hsk : sk ≠ "" := hgood.ne_empty sk (by simp)
      have hwrap : (if isSequenceChild (joinPath (pre ++ s1 :: (init ++ [sk]))) then
            createSequenceNode (joinPath (pre ++ s1 :: (init ++ [sk]))) (some v0)
          else createMappingNode (joinPath (pre ++ s1 :: (init ++ [sk]))) (some v0)) =
          wrapSegment sk v0 := by
        simp only [isSequenceChild, getChildName_eq _ _ sk hseg, hsk, if_false,
          createSequenceNode, createMappingNode, wrapSegment]
      simp only [createPathAux, hv, getParents, getParentPath_of_segments _ _ sk hseg, hparent,
        hp1, hp2, hp3, or_self, if_false, hwrap]
      rw [ih init hgood2.append_left (wrapSegment sk v0) (wrapSegment sk v0)
        (by simp [wrapSegment_kind]) f (by simp at hfuel; omega) hlen, wrapSegments_concat]

theorem splitDots_length (cs : List Char) : (splitDots cs).length ≤ cs.length + 1 := by
  induction cs with
  | nil => simp [splitDots]
  | cons c cs ih =>
    simp only [splitDots]
    split
    · simp only [List.length_cons]
      omega
    · split
      · simp
      · rename_i s ss heq
        rw [heq] at ih
        simp only [List.length_cons] at ih ⊢
        omega

theorem segments_length (path : String) : (segments path).length ≤ path.length + 1 := by
  simp only [segments, List.length_map]
  exact splitDots_length path.data

theorem segments_of_pathSegments (path : String) (pre rest : List String) (s1 : String)
    (h : pathSegments path = pre ++ s1 :: rest) : segments path = pre ++ s1 :: rest := by
  have hne : path ≠ "" := by
    intro hp
    rw [hp, pathSegments_empty] at h
    simp at h
  rwa [pathSegments_of_ne path hne] at h

theorem createPath_synthesise (obj : Node) (path : String) (pre rest : List String)
    (s1 : String) (m : Ref) (ms : List Ref)
    (hsegs : segments path = pre ++ s1 :: rest)
    (hgood : GoodSegments (segments path))
    (hpre : FindMatches obj (joinPath pre) = .ok (m :: ms))
    (hmiss : FindMatches obj (joinPath (pre ++ [s1])) = .ok [])
    (value v0 : Node)
    (hv : (if value.Kind = .DocumentNode then value.Content.head? else some value) = some v0) :
    createPath obj path value =
      rangeMatches (createPathSplice s1 (wrapSegments rest v0)) id obj (m :: ms) := by
  have hlen := segments_length path
  rw [hsegs] at hlen hgood
  simp only [List.length_append, List.length_cons] at hlen
  have hpath : path = joinPath (pre ++ s1 :: rest) := by
    rw [← hsegs, joinPath_segments]
  have hfuel : rest.length < (joinPath (pre ++ s1 :: rest)).length + 1 := by
    rw [← hpath]
    omega
  unfold createPath
  rw [hpath]
  exact createPathAux_synthesise obj pre s1 m ms hpre hmiss rest hgood value v0 hv _ hfuel

/-- C1: when the longest existing prefix of the path resolves to a Mapping `M` and the
remaining segments `s1 .. sk` are missing, and the conditions pass against the nil
candidate, `Add` returns no error and changes the tree only by appending to `M` one
entry whose key is the string scalar `s1` and whose value is the patch value wrapped,
innermost first, in a one-element Sequence for every later segment that parses as an
integer and in a one-entry Mapping keyed by the segment otherwise. -/
theorem Add_synthesises_missing_structure (obj : Node) (patch : Patch)
    (pre rest : List String) (s1 : String) (rM : Ref) (M : Node)
    (hsegs : pathSegments patch.Path = pre ++ s1 :: rest)
    (hzero : FindMatches obj patch.Path = .ok [])
    (hpre : FindMatches obj (joinPath pre) = .ok [rM])
    (hM : getNode obj rM = some M) (hkind : M.Kind = .MappingNode)
    (hmiss : FindMatches obj (joinPath (pre ++ [s1])) = .ok [])
    (hcond : ValidateAllConditions obj none patch.Conditions = .ok true) :
    Add obj patch =
      ⟨none, setContent obj rM
        (M.Content ++ [strScalar s1, wrapSegments rest patch.Value])⟩ := by
  have hgood := (FindMatches_ok_good obj patch.Path [] hzero).1
  have hsegs2 := segments_of_pathSegments patch.Path pre rest s1 hsegs
  rw [hsegs, ← hsegs2] at hgood
  have hcp := createPath_synthesise obj patch.Path pre rest s1 rM [] hsegs2 hgood hpre hmiss
    ⟨.DocumentNode, "", "", [patch.Value]⟩ patch.Value (by simp)
  simp only [Add, hzero, NewNode, List.length_nil, if_true, hcond, hcp, rangeMatches,
    createPathSplice, id, hM, hkind]

/-- The scenario of C1: `Add(path="spec.containers.0.name", value="nginx")` on
`{spec: {}}` yields `{spec: {containers: [{name: "nginx"}]}}`. -/
theorem Add_synthesises_missing_structure_witness :
    Add (mappingOf [strScalar "spec", mappingOf []])
        ⟨"spec.containers.0.name", "", strScalar "nginx", ⟨""⟩, []⟩ =
      ⟨none, mappingOf [strScalar "spec", mappingOf [strScalar "containers",
        sequenceOf [mappingOf [strScalar "name", strScalar "nginx"]]]]⟩ :=
  Add_synthesises_missing_structure (mappingOf [strScalar "spec", mappingOf []])
    ⟨"spec.containers.0.name", "", strScalar "nginx", ⟨""⟩, []⟩
    ["spec"] ["0", "name"] "containers" [1] (mappingOf [])
    (by decide) (by decide) (by decide) (by decide) (by decide) (by decide) (by decide)

/-! ## Resolving a synthesised path -/

theorem set_getElem_same {α : Type} (l : List α) (i : Nat) (c : α) (h : l[i]? = some c) :
    l.set i c = l := by
  apply List.ext_getElem?
  intro j
  rw [List.getElem?_set]
  split
  · rename_i hij
    subst hij
    have hi : i < l.length := (List.getElem?_eq_some.1 h).1
    simp [hi, h]
  · rfl

theorem modifyAt_id (n : Node) (r : Ref) : modifyAt (fun x => x) n r = n := by
  induction r generalizing n with
  | nil => rfl
  | cons i r ih =>
    simp only [modifyAt]
    cases h : n.Content[i]? with
    | none => rfl
    | some c =>
      simp only [ih, set_getElem_same n.Content i c h]
      cases n
      rfl

theorem mappingValues_append_aux (seg : String) (key v : Node) (m : Nat) :
    ∀ (l : List Node) (k : Nat), l.length = m → m % 2 = 0 →
      mappingValues seg k (l ++ [key, v]) =
        mappingValues seg k l ++ (if key.Value = seg then [(k + m + 1, v)] else []) := by
  induction m using Nat.strong_induction_on with
  | _ m ih =>
    intro l k hl heven
    match l, hl with
    | [], hl =>
      simp only [List.length_nil] at hl
      subst hl
      simp [mappingValues]
    | [_], hl =>
      simp only [List.length_singleton] at hl
      subst hl
      simp at heven
    | a :: b :: rest, hl =>
      simp only [List.length_cons] at hl
      have h2 := ih rest.length (by omega) rest (k + 2) rfl (by omega)
      have e : k + 2 + rest.length + 1 = k + m + 1 := by omega
      rw [e] at h2
      simp only [List.cons_append, mappingValues]
      split <;> simp [h2]

theorem mappingValues_append (seg : String) (l : List Node) (k : Nat) (key v : Node)
    (heven : l.length % 2 = 0) :
    mappingValues seg k (l ++ [key, v]) =
      mappingValues seg k l ++ (if key.Value = seg then [(k + l.length + 1, v)] else []) :=
  mappingValues_append_aux seg key v l.length l k rfl heven

theorem resolve_singleton_nil (s : String) (n : Node) (h : resolve [s] n = some []) :
    selectChildren s n = some [] := by
  simp only [resolve] at h
  cases hsel : selectChildren s n with
  | none => simp [hsel] at h
  | some cs =>
    cases cs with
    | nil => rfl
    | cons x xs =>
      simp only [hsel, collect, mapRefs_some] at h
      obtain ⟨a, b, ha, _, hab⟩ := appendRefs_eq_some h
      simp only [Option.some.injEq] at ha
      subst ha
      simp at hab

theorem resolve_cons_single (s : String) (rest : List String) (n : Node) (i : Nat) (w : Node)
    (hsel : selectChildren s n = some [(i, w)]) :
    resolve (s :: rest) n = mapRefs (fun r => i :: r) (resolve rest w) := by
  simp [resolve, hsel, collect, appendRefs_nil_right]

theorem resolve_wrapSegments (rest : List String) (v : Node)
    (hrest : ∀ s ∈ rest, ∀ i, Atoi s = some i → i = 0) :
    ∃ r, resolve rest (wrapSegments rest v) = some [r] ∧
      getNode (wrapSegments rest v) r = some v := by
  induction rest with
  | nil => exact ⟨[], rfl, rfl⟩
  | cons s rest ih =>
    obtain ⟨r, hr1, hr2⟩ := ih (fun t ht => hrest t (by simp [ht]))
    cases hs : Atoi s with
    | none =>
      have hsel : selectChildren s (wrapSegments (s :: rest) v) =
          some [(1, wrapSegments rest v)] := by
        simp [wrapSegments, wrapSegment, hs, selectChildren, mappingOf, mappingValues, strScalar]
      refine ⟨1 :: r, ?_, ?_⟩
      · rw [resolve_cons_single s rest _ 1 _ hsel, hr1]
        rfl
      · simpa [wrapSegments, wrapSegment, hs, getNode, mappingOf] using hr2
    | some i =>
      have hi : i = 0 := hrest s (by simp) i hs
      subst hi
      have hsel : selectChildren s (wrapSegments (s :: rest) v) =
          some [(0, wrapSegments rest v)] := by
        simp [wrapSegments, wrapSegment, hs, selectChildren, sequenceOf, sequenceElement]
      refine ⟨0 :: r, ?_, ?_⟩
      · rw [resolve_cons_single s rest _ 0 _ hsel, hr1]
        rfl
      · simpa [wrapSegments, wrapSegment, hs, getNode, sequenceOf] using hr2

theorem resolve_appended_entry (s1 : String) (rest : List String) (M v : Node)
    (hkind : M.Kind = .MappingNode) (heven : M.Content.length % 2 = 0)
    (hmiss : resolve [s1] M = some [])
    (hrest : ∀ s ∈ rest, ∀ i, Atoi s = some i → i = 0) :
    ∃ r, resolve (s1 :: rest)
        { M with Content := M.Content ++ [strScalar s1, wrapSegments rest v] } = some [r] ∧
      getNode { M with Content := M.Content ++ [strScalar s1, wrapSegments rest v] } r =
        some v := by
  obtain ⟨r, hr1, hr2⟩ := resolve_wrapSegments rest v hrest
  have h0 := resolve_singleton_nil s1 M hmiss
  simp only [selectChildren, hkind, Option.some.injEq] at h0
  have hsel : selectChildren s1
      { M with Content := M.Content ++ [strScalar s1, wrapSegments rest v] } =
      some [(M.Content.length + 1, wrapSegments rest v)] := by
    simp [selectChildren, hkind, mappingValues_append s1 M.Content 0 _ _ heven, h0, strScalar]
  refine ⟨(M.Content.length + 1) :: r, ?_, ?_⟩
  · rw [resolve_cons_single s1 rest _ _ _ hsel, hr1]
    rfl
  · simp only [getNode]
    have : (M.Content ++ [strScalar s1, wrapSegments rest v])[M.Content.length + 1]? =
        some (wrapSegments rest v) := by
      rw [List.getElem?_append_right (by omega)]
      simp
    rw [this]
    exact hr2

theorem resolve_appended_element (s1 : String) (rest : List String) (S v : Node)
    (hkind : S.Kind = .SequenceNode) (hindex : Atoi s1 = some (S.Content.length : Int))
    (hrest : ∀ s ∈ rest, ∀ i, Atoi s = some i → i = 0) :
    ∃ r, resolve (s1 :: rest)
        { S with Content := S.Content ++ [wrapSegments rest v] } = some [r] ∧
      getNode { S with Content := S.Content ++ [wrapSegments rest v] } r = some v := by
  obtain ⟨r, hr1, hr2⟩ := resolve_wrapSegments rest v hrest
  have hget : (S.Content ++ [wrapSegments rest v])[S.Content.length]? =
      some (wrapSegments rest v) := by
    rw [List.getElem?_append_right (by omega)]
    simp
  have hsel : selectChildren s1 { S with Content := S.Content ++ [wrapSegments rest v] } =
      some [(S.Content.length, wrapSegments rest v)] := by
    simp [selectChildren, hkind, sequenceElement, hindex, hget]
  refine ⟨S.Content.length :: r, ?_, ?_⟩
  · rw [resolve_cons_single s1 rest _ _ _ hsel, hr1]
    rfl
  · simp only [getNode, hget]
    exact hr2

theorem FindMatches_below (g : Node → Node) (hg : ∀ x, (g x).Kind = x.Kind) (obj : Node)
    (pre rest : List String) (rP : Ref) (P : Node)
    (hpre : FindMatches obj (joinPath pre) = .ok [rP]) (hP : getNode obj rP = some P)
    (hgood : GoodSegments (pre ++ rest)) :
    FindMatches (modifyAt g obj rP) (joinPath (pre ++ rest)) =
      match resolve rest (g P) with
      | none => .error scalarIndexed
      | some out => .ok (out.map (fun t => rP ++ t)) := by
  rw [FindMatches_joinPath _ (pre ++ rest) hgood]
  rw [FindMatches_joinPath _ pre hgood.append_left] at hpre
  cases hres : resolveRoot pre obj with
  | none => simp [hres] at hpre
  | some rs =>
    simp only [hres, Except.ok.injEq] at hpre
    subst hpre
    have h2 := resolveRoot_modifyAt g pre obj [rP] hres rP (by simp)
      (Or.inr (fun x hx => by rw [hg]; exact hx))
    rw [resolveRoot_append, h2]
    simp only [Option.some_bind, extendRefs, getNode_modifyAt, hP, Option.map_some',
      appendRefs_nil_right]
    cases resolve rest (g P) <;> simp

theorem FindMatches_below_self (obj : Node) (pre rest : List String) (rP : Ref) (P : Node)
    (hpre : FindMatches obj (joinPath pre) = .ok [rP]) (hP : getNode obj rP = some P)
    (hgood : GoodSegments (pre ++ rest)) :
    FindMatches obj (joinPath (pre ++ rest)) =
      match resolve rest P with
      | none => .error scalarIndexed
      | some out => .ok (out.map (fun t => rP ++ t)) := by
  have h := FindMatches_below (fun x => x) (fun _ => rfl) obj pre rest rP P hpre hP hgood
  rwa [modifyAt_id] at h

theorem resolve_nil_of_FindMatches (obj : Node) (pre : List String) (s1 : String) (rP : Ref)
    (P : Node) (hpre : FindMatches obj (joinPath pre) = .ok [rP]) (hP : getNode obj rP = some P)
    (hgood : GoodSegments (pre ++ [s1]))
    (hmiss : FindMatches obj (joinPath (pre ++ [s1])) = .ok []) :
    resolve [s1] P = some [] := by
  rw [FindMatches_below_self obj pre [s1] rP P hpre hP hgood] at hmiss
  cases hres : resolve [s1] P with
  | none => simp [hres] at hmiss
  | some out =>
    simp only [hres, Except.ok.injEq, List.map_eq_nil_iff] at hmiss
    rw [hmiss]

theorem createPath_round_trip (obj : Node) (path : String) (pre rest : List String)
    (s1 : String) (rP : Ref) (P : Node)
    (hsegs : segments path = pre ++ s1 :: rest)
    (hgood : GoodSegments (segments path))
    (hpre : FindMatches obj (joinPath pre) = .ok [rP]) (hP : getNode obj rP = some P)
    (hmiss : FindMatches obj (joinPath (pre ++ [s1])) = .ok [])
    (hparent : ResolvableParent s1 P)
    (hrest : ∀ s ∈ rest, ∀ i, Atoi s = some i → i = 0)
    (value v0 : Node)
    (hv : (if value.Kind = .DocumentNode then value.Content.head? else some value) = some v0) :
    (createPath obj path value).err = none ∧
      ∃ r, FindMatches (createPath obj path value).tree path = .ok [r] ∧
        getNode (createPath obj path value).tree r = some v0 := by
  have hcp := createPath_synthesise obj path pre rest s1 rP [] hsegs hgood hpre hmiss value v0 hv
  have hpath : path = joinPath (pre ++ s1 :: rest) := by
    rw [← hsegs, joinPath_segments]
  rw [hsegs] at hgood
  have hgood1 : GoodSegments (pre ++ [s1]) := by
    have : GoodSegments ((pre ++ [s1]) ++ rest) := by simpa using hgood
    exact this.append_left
  rcases hparent with ⟨hk, heven⟩ | ⟨hk, hindex⟩
  · have h0 := resolve_nil_of_FindMatches obj pre s1 rP P hpre hP hgood1 hmiss
    obtain ⟨r, hr1, hr2⟩ := resolve_appended_entry s1 rest P v0 hk heven h0 hrest
    have hfm := FindMatches_below
      (fun n => { n with Content := P.Content ++ [strScalar s1, wrapSegments rest v0] })
      (fun _ => rfl) obj pre (s1 :: rest) rP P hpre hP hgood
    simp only [hr1] at hfm
    have hout : createPath obj path value = ⟨none, modifyAt
        (fun n => { n with Content := P.Content ++ [strScalar s1, wrapSegments rest v0] })
        obj rP⟩ := by
      simp only [hcp, rangeMatches, createPathSplice, id_eq, hP, hk, setContent]
    rw [hout]
    refine ⟨rfl, rP ++ r, ?_, ?_⟩
    · rw [hpath]
      simpa using hfm
    · rw [getNode_append, getNode_modifyAt, hP]
      simpa using hr2
  · obtain ⟨r, hr1, hr2⟩ := resolve_appended_element s1 rest P v0 hk hindex hrest
    have hfm := FindMatches_below
      (fun n => { n with Content := P.Content ++ [wrapSegments rest v0] })
      (fun _ => rfl) obj pre (s1 :: rest) rP P hpre hP hgood
    simp only [hr1] at hfm
    have hout : createPath obj path value = ⟨none, modifyAt
        (fun n => { n with Content := P.Content ++ [wrapSegments rest v0] })
        obj rP⟩ := by
      simp only [hcp, rangeMatches, createPathSplice, id_eq, hP, hk, setContent]
    rw [hout]
    refine ⟨rfl, rP ++ r, ?_, ?_⟩
    · rw [hpath]
      simpa using hfm
    · rw [getNode_append, getNode_modifyAt, hP]
      simpa using hr2

/-! ## Claims about `Add` with a missing path -/

theorem Add_eq_createPath (obj : Node) (patch : Patch)
    (hzero : FindMatches obj patch.Path = .ok [])
    (hcond : ValidateAllConditions obj none patch.Conditions = .ok true) :
    Add obj patch = createPath obj patch.Path ⟨.DocumentNode, "", "", [patch.Value]⟩ := by
  simp only [Add, hzero, NewNode, List.length_nil, if_true, hcond]

/-- C2, as stated, fails: on the document `{}` the path `a.5` resolves to nothing, `Add`
succeeds and stores the value as the only element of a new sequence under `a`, and the
path `a.5` still resolves to nothing afterwards. -/
theorem Add_round_trip_counterexample :
    FindMatches (documentOf [mappingOf []]) "a.5" = .ok [] ∧
    ValidateAllConditions (documentOf [mappingOf []]) none [] = .ok true ∧
    Add (documentOf [mappingOf []]) ⟨"a.5", "", strScalar "v", ⟨""⟩, []⟩ =
      ⟨none, documentOf [mappingOf [strScalar "a", sequenceOf [strScalar "v"]]]⟩ ∧
    FindMatches (Add (documentOf [mappingOf []]) ⟨"a.5", "", strScalar "v", ⟨""⟩, []⟩).tree
      "a.5" = .ok [] := by
  decide

/-- C2, amended: when the path resolves to no match, its longest existing prefix resolves
to exactly one node `P`, `P` is a Mapping with an even number of children or a Sequence
whose length is the index the first missing segment denotes, every later missing segment
that parses as an integer denotes index 0, and the conditions pass against the nil
candidate, then `Add` returns no error and the path resolves afterwards to exactly one
node, structurally equal to the value. -/
theorem Add_round_trip (obj : Node) (patch : Patch) (pre rest : List String) (s1 : String)
    (rP : Ref) (P : Node)
    (hsegs : pathSegments patch.Path = pre ++ s1 :: rest)
    (hzero : FindMatches obj patch.Path = .ok [])
    (hpre : FindMatches obj (joinPath pre) = .ok [rP]) (hP : getNode obj rP = some P)
    (hmiss : FindMatches obj (joinPath (pre ++ [s1])) = .ok [])
    (hparent : ResolvableParent s1 P)
    (hrest : ∀ s ∈ rest, ∀ i, Atoi s = some i → i = 0)
    (hcond : ValidateAllConditions obj none patch.Conditions = .ok true) :
    (Add obj patch).err = none ∧
      ∃ r, FindMatches (Add obj patch).tree patch.Path = .ok [r] ∧
        getNode (Add obj patch).tree r = some patch.Value := by
  have hgood := (FindMatches_ok_good obj patch.Path [] hzero).1
  have hsegs2 := segments_of_pathSegments patch.Path pre rest s1 hsegs
  rw [hsegs, ← hsegs2] at hgood
  rw [Add_eq_createPath obj patch hzero hcond]
  exact createPath_round_trip obj patch.Path pre rest s1 rP P hsegs2 hgood hpre hP hmiss
    hparent hrest _ _ (by simp)

/-- The round trip of C2 on the document `{spec: {}}` with the path
`spec.containers.0.name`. -/
theorem Add_round_trip_witness :
    (Add (documentOf [mappingOf [strScalar "spec", mappingOf []]])
        ⟨"spec.containers.0.name", "", strScalar "nginx", ⟨""⟩, []⟩).err = none ∧
      ∃ r, FindMatches (Add (documentOf [mappingOf [strScalar "spec", mappingOf []]])
          ⟨"spec.containers.0.name", "", strScalar "nginx", ⟨""⟩, []⟩).tree
          "spec.containers.0.name" = .ok [r] ∧
        getNode (Add (documentOf [mappingOf [strScalar "spec", mappingOf []]])
          ⟨"spec.containers.0.name", "", strScalar "nginx", ⟨""⟩, []⟩).tree r =
          some (strScalar "nginx") :=
  Add_round_trip (documentOf [mappingOf [strScalar "spec", mappingOf []]])
    ⟨"spec.containers.0.name", "", strScalar "nginx", ⟨""⟩, []⟩
    ["spec"] ["0", "name"] "containers" [0, 1] (mappingOf [])
    (by decide) (by decide) (by decide) (by decide) (by decide)
    (Or.inl ⟨by decide, by decide⟩)
    (by
      intro s hs i hi
      simp only [List.mem_cons, List.mem_singleton, List.not_mem_nil, or_false] at hs
      rcases hs with rfl | rfl
      · have h0 : Atoi "0" = some 0 := by decide
        rw [h0] at hi
        exact (Option.some.inj hi).symm
      · have h0 : Atoi "name" = none := by decide
        rw [h0] at hi
        exact absurd hi (by simp))
    (by decide)

/-! ## Resolving after a removal -/

theorem mappingValues_offset (seg : String) (l : List Node) (k : Nat) :
    mappingValues seg k l = (mappingValues seg 0 l).map (fun ic => (ic.1 + k, ic.2)) := by
  generalize hl : l.length = m
  induction m using Nat.strong_induction_on generalizing l k with
  | _ m ih =>
    match l, hl with
    | [], _ => simp [mappingValues]
    | [_], _ => simp [mappingValues]
    | a :: b :: rest, hl =>
      simp only [List.length_cons] at hl
      have h1 := ih rest.length (by omega) rest (k + 2) rfl
      have h2 := ih rest.length (by omega) rest 2 rfl
      simp only [mappingValues, Nat.zero_add]
      rw [h1, h2]
      split <;> simp [Nat.add_comm, Nat.add_left_comm]

theorem mappingValues_eq_nil_offset (seg : String) (l : List Node) (k k2 : Nat)
    (h : mappingValues seg k l = []) : mappingValues seg k2 l = [] := by
  rw [mappingValues_offset] at h ⊢
  simp only [List.map_eq_nil_iff] at h ⊢
  exact h

theorem mappingValues_remove (seg : String) (m : Nat) :
    ∀ (l : List Node) (k j : Nat) (v : Node), l.length = m →
      mappingValues seg k l = [(k + j, v)] →
      mappingValues seg k (l.take (j - 1) ++ l.drop (j + 1)) = [] := by
  induction m using Nat.strong_induction_on with
  | _ m ih =>
    intro l k j v hl h
    match l, hl with
    | [], _ => simp [mappingValues] at h
    | [_], _ => simp [mappingValues] at h
    | a :: b :: rest, hl =>
      simp only [List.length_cons] at hl
      simp only [mappingValues] at h
      split at h
      · simp only [List.cons.injEq, Prod.mk.injEq] at h
        obtain ⟨⟨hj, _⟩, hrest⟩ := h
        have hj1 : j = 1 := by omega
        subst hj1
        simpa using mappingValues_eq_nil_offset seg rest (k + 2) k hrest
      · rename_i hne
        obtain ⟨j2, hj1, _, hj3⟩ := mappingValues_mem seg rest (k + 2) (k + j, v) (by simp [h])
        simp only at hj1
        have hj : j = j2 + 2 := by omega
        subst hj
        have e : k + (j2 + 2) = k + 2 + j2 := by omega
        rw [e] at h
        have h2 := ih rest.length (by omega) rest (k + 2) j2 v rfl h
        have e1 : j2 + 2 - 1 = (j2 - 1) + 2 := by omega
        simp only [e1, List.take_succ_cons, List.drop_succ_cons, List.cons_append,
          mappingValues, hne, if_false]
        exact h2

theorem extendRefs_mem (segs : List String) (n : Node) (rs out : List Ref)
    (h : extendRefs segs n rs = some out) (t : Ref) (ht : t ∈ out) :
    ∃ q ∈ rs, ∃ c us u, getNode n q = some c ∧ resolve segs c = some us ∧ u ∈ us ∧
      t = q ++ u := by
  induction rs generalizing out with
  | nil =>
    simp only [extendRefs, Option.some.injEq] at h
    subst h
    simp at ht
  | cons r rs ih =>
    simp only [extendRefs] at h
    obtain ⟨a, b, ha, hb, hab⟩ := appendRefs_eq_some h
    subst hab
    rcases List.mem_append.1 ht with h1 | h1
    · cases hg : getNode n r with
      | none =>
        simp only [hg, Option.some.injEq] at ha
        subst ha
        simp at h1
      | some c =>
        simp only [hg] at ha
        cases hres : resolve segs c with
        | none => simp [hres] at ha
        | some us =>
          simp only [hres, mapRefs_some, Option.some.injEq] at ha
          subst ha
          obtain ⟨u, hu, rfl⟩ := List.mem_map.1 h1
          exact ⟨r, by simp, c, us, u, hg, hres, hu, rfl⟩
    · obtain ⟨q, hq, rest⟩ := ih b hb h1
      exact ⟨q, by simp [hq], rest⟩

theorem extendRefs_contrib (segs : List String) (n : Node) (rs out : List Ref)
    (h : extendRefs segs n rs = some out) (q : Ref) (hq : q ∈ rs) :
    ∃ xs, (match getNode n q with
        | some c => mapRefs (fun t => q ++ t) (resolve segs c)
        | none => some []) = some xs ∧ ∀ x ∈ xs, x ∈ out := by
  induction rs generalizing out with
  | nil => simp at hq
  | cons r rs ih =>
    simp only [extendRefs] at h
    obtain ⟨a, b, ha, hb, hab⟩ := appendRefs_eq_some h
    subst hab
    rcases List.mem_cons.1 hq with h1 | h1
    · subst h1
      exact ⟨a, ha, fun x hx => by simp [hx]⟩
    · obtain ⟨xs, hxs, hsub⟩ := ih b hb h1
      exact ⟨xs, hxs, fun x hx => by simp [hsub x hx]⟩

theorem extendRefs_eq_nil (segs : List String) (n : Node) (rs : List Ref)
    (h : ∀ q ∈ rs, (match getNode n q with
        | some c => mapRefs (fun t => q ++ t) (resolve segs c)
        | none => some []) = some []) :
    extendRefs segs n rs = some [] := by
  induction rs with
  | nil => rfl
  | cons r rs ih =>
    simp only [extendRefs]
    rw [h r (by simp), ih (fun q hq => h q (by simp [hq]))]
    rfl

theorem resolveRoot_length (a : List String) (obj : Node) (rs : List Ref)
    (h : resolveRoot a obj = some rs) : ∀ q ∈ rs, ∀ r ∈ rs, q.length = r.length := by
  unfold resolveRoot at h
  split at h
  · simp only [Option.some.injEq] at h
    subst h
    simp
  · rename_i c t hk hc
    cases hres : resolve a c with
    | none => simp [hres] at h
    | some rsx =>
      simp only [hres, mapRefs_some, Option.some.injEq] at h
      subst h
      intro q hq r hr
      obtain ⟨q2, hq2, rfl⟩ := List.mem_map.1 hq
      obtain ⟨r2, hr2, rfl⟩ := List.mem_map.1 hr
      simp [resolve_length a c rsx hres q2 hq2, resolve_length a c rsx hres r2 hr2]
  · intro q hq r hr
    rw [resolve_length a obj rs h q hq, resolve_length a obj rs h r hr]

theorem resolveRoot_valid (a : List String) (obj : Node) (rs : List Ref)
    (h : resolveRoot a obj = some rs) (r : Ref) (hr : r ∈ rs) : ∃ c, getNode obj r = some c := by
  unfold resolveRoot at h
  split at h
  · simp only [Option.some.injEq] at h
    subst h
    simp at hr
  · rename_i c t hk hc
    cases hres : resolve a c with
    | none => simp [hres] at h
    | some rsx =>
      simp only [hres, mapRefs_some, Option.some.injEq] at h
      subst h
      obtain ⟨q, hq, rfl⟩ := List.mem_map.1 hr
      simpa [getNode, hc] using resolve_valid a c rsx hres q hq
  · exact resolve_valid a obj rs h r hr

theorem FindMatches_valid (obj : Node) (path : String) (rs : List Ref)
    (h : FindMatches obj path = .ok rs) (r : Ref) (hr : r ∈ rs) : ∃ c, getNode obj r = some c :=
  resolveRoot_valid _ obj rs (FindMatches_ok_good obj path rs h).2 r hr

theorem extendRefs_sublist (segs : List String) (n : Node) (rs out : List Ref)
    (h : extendRefs segs n rs = some out) (q : Ref) (hq : q ∈ rs) :
    ∃ xs, (match getNode n q with
        | some c => mapRefs (fun t => q ++ t) (resolve segs c)
        | none => some []) = some xs ∧ xs.length ≤ out.length := by
  induction rs generalizing out with
  | nil => simp at hq
  | cons r rs ih =>
    simp only [extendRefs] at h
    obtain ⟨a, b, ha, hb, hab⟩ := appendRefs_eq_some h
    subst hab
    rcases List.mem_cons.1 hq with h1 | h1
    · subst h1
      exact ⟨a, ha, by simp⟩
    · obtain ⟨xs, hxs, hlen⟩ := ih b hb h1
      exact ⟨xs, hxs, by simp; omega⟩

theorem resolve_singleton (s : String) (n : Node) :
    resolve [s] n = (selectChildren s n).map (fun cs => cs.map (fun ic => [ic.1])) := by
  simp only [resolve]
  cases selectChildren s n with
  | none => rfl
  | some cs =>
    simp only [Option.map_some']
    induction cs with
    | nil => rfl
    | cons x xs ih =>
      simp only [mapRefs_some, List.map_cons, List.map_nil] at ih
      simp [collect, ih]

theorem FindMatches_last_step (obj : Node) (path : String) (p : Ref) (i : Nat) (parent : Node)
    (hm : FindMatches obj path = .ok [p ++ [i]]) (hp : getNode obj p = some parent)
    (hnd : parent.Kind ≠ .DocumentNode) :
    GoodSegments (pathSegments path) ∧
      ∃ a s rsA v, pathSegments path = a ++ [s] ∧ resolveRoot a obj = some rsA ∧ p ∈ rsA ∧
        extendRefs [s] obj rsA = some [p ++ [i]] ∧ selectChildren s parent = some [(i, v)] := by
  obtain ⟨hgood, hres⟩ := FindMatches_ok_good obj path _ hm
  refine ⟨hgood, ?_⟩
  rcases List.eq_nil_or_concat (pathSegments path) with hnil | ⟨a, s, hseg⟩
  · exfalso
    rw [hnil] at hres
    unfold resolveRoot at hres
    split at hres
    · simp at hres
    · rename_i c t hk hc
      simp only [resolve, mapRefs_some, List.map_cons, List.map_nil, Option.some.injEq,
        List.cons.injEq, and_true] at hres
      have hpn : p = [] := by
        cases p with
        | nil => rfl
        | cons x xs =>
          have := congrArg List.length hres
          simp at this
      subst hpn
      simp only [getNode, Option.some.injEq] at hp
      subst hp
      exact hnd hk
    · simp only [resolve, Option.some.injEq, List.cons.injEq, and_true] at hres
      have := congrArg List.length hres
      simp at this
  · rw [List.concat_eq_append] at hseg
    rw [hseg, resolveRoot_append] at hres
    cases hA : resolveRoot a obj with
    | none => simp [hA] at hres
    | some rsA =>
      simp only [hA, Option.some_bind] at hres
      obtain ⟨q, hq, c, us, u, hgc, hrc, hu, htq⟩ :=
        extendRefs_mem [s] obj rsA _ hres (p ++ [i]) (by simp)
      have hul := resolve_length [s] c us hrc u hu
      obtain ⟨j, rfl⟩ : ∃ j, u = [j] := by
        match u, hul with
        | [j], _ => exact ⟨j, rfl⟩
      obtain ⟨hpq, hij⟩ := List.append_inj' htq rfl
      subst hpq
      simp only [List.cons.injEq, and_true] at hij
      subst hij
      rw [hp] at hgc
      simp only [Option.some.injEq] at hgc
      subst hgc
      obtain ⟨xs, hxs, hlen⟩ := extendRefs_sublist [s] obj rsA _ hres p hq
      simp only [hp, hrc, mapRefs_some, Option.some.injEq] at hxs
      subst hxs
      simp only [List.length_map, List.length_singleton] at hlen
      have hus : us = [[i]] := by
        match us, hu, hlen with
        | [x], hu, _ =>
          simp only [List.mem_singleton] at hu
          rw [hu]
      subst hus
      rw [resolve_singleton] at hrc
      cases hsel : selectChildren s parent with
      | none => simp [hsel] at hrc
      | some cs =>
        simp only [hsel, Option.map_some', Option.some.injEq] at hrc
        match cs, hrc with
        | [x], hrc =>
          simp only [List.map_cons, List.map_nil, List.cons.injEq, and_true] at hrc
          refine ⟨a, s, rsA, x.2, hseg, hA, hq, hres, ?_⟩
          rw [← hrc, hsel]

theorem FindMatches_after_unselect (obj : Node) (path : String) (p : Ref) (i : Nat)
    (parent : Node) (content : List Node)
    (hm : FindMatches obj path = .ok [p ++ [i]]) (hp : getNode obj p = some parent)
    (hnd : parent.Kind ≠ .DocumentNode)
    (hsel : ∀ s v, selectChildren s parent = some [(i, v)] →
      selectChildren s { parent with Content := content } = some []) :
    FindMatches (setContent obj p content) path = .ok [] := by
  obtain ⟨hgood, a, s, rsA, v, hseg, hA, hpA, hext, hs⟩ :=
    FindMatches_last_step obj path p i parent hm hp hnd
  have hA2 := resolveRoot_modifyAt (fun n => { n with Content := content }) a obj rsA hA p hpA
    (Or.inr (fun _ hx => hx))
  have hnil : extendRefs [s] (setContent obj p content) rsA = some [] := by
    apply extendRefs_eq_nil
    intro q hq
    by_cases hqp : q = p
    · subst hqp
      simp only [setContent, getNode_modifyAt, hp, Option.map_some', resolve_singleton,
        hsel s v hs]
      rfl
    · have hlen := resolveRoot_length a obj rsA hA p hpA q hq
      have hg : getNode (setContent obj p content) q = getNode obj q :=
        getNode_modifyAt_ne _ obj p q hlen (fun h => hqp h.symm)
      rw [hg]
      obtain ⟨xs, hxs, hsub⟩ := extendRefs_contrib [s] obj rsA _ hext q hq
      rw [hxs]
      cases xs with
      | nil => rfl
      | cons x xs =>
        exfalso
        have hx := hsub x (by simp)
        simp only [List.mem_singleton] at hx
        cases hgq : getNode obj q with
        | none => simp [hgq] at hxs
        | some c =>
          simp only [hgq] at hxs
          cases hrc : resolve [s] c with
          | none => simp [hrc] at hxs
          | some us =>
            simp only [hrc, mapRefs_some, Option.some.injEq] at hxs
            have hmem : x ∈ us.map (fun t => q ++ t) := by rw [hxs]; simp
            obtain ⟨u, hu, hxu⟩ := List.mem_map.1 hmem
            have hul := resolve_length [s] c us hrc u hu
            rw [hx] at hxu
            have := (List.append_inj' hxu (by simpa using hul)).1
            exact hqp this
  simp only [FindMatches, hgood.all_valid, if_true]
  rw [hseg, resolveRoot_append]
  simp only [setContent] at hnil ⊢
  rw [hA2]
  simp [hnil]

/-! ## Claims about `Remove` and `CopyFromObject` -/

theorem Find_child (obj : Node) (p : Ref) (i : Nat) (parent : Node)
    (hp : getNode obj p = some parent) (hi : i < parent.Content.length) :
    Find obj (p ++ [i]) = some (p, parent, i) := by
  simp [Find, hp, hi]

/-- C5: when the path resolves to the value of a mapping entry and the conditions pass
for it, `Remove` returns no error, the match sits at an odd position `i` of its parent,
the only change to the tree is that the parent loses the children at positions `i - 1`
and `i` (the key and the value; the other entries keep their order), and the path
resolves to no match afterwards. -/
theorem Remove_mapping_entry (obj : Node) (patch : Patch) (p : Ref) (i : Nat) (parent : Node)
    (hm : FindMatches obj patch.Path = .ok [p ++ [i]])
    (hp : getNode obj p = some parent) (hk : parent.Kind = .MappingNode)
    (hcond : ValidateAllConditions obj (some (p ++ [i])) patch.Conditions = .ok true) :
    i % 2 = 1 ∧ i < parent.Content.length ∧
    Remove obj patch =
      ⟨none, setContent obj p (parent.Content.take (i - 1) ++ parent.Content.drop (i + 1))⟩ ∧
    FindMatches (Remove obj patch).tree patch.Path = .ok [] := by
  have hnd : parent.Kind ≠ .DocumentNode := by simp [hk]
  obtain ⟨_, a, s, rsA, v, _, _, _, _, hs⟩ :=
    FindMatches_last_step obj patch.Path p i parent hm hp hnd
  have hmem : (i, v) ∈ mappingValues s 0 parent.Content := by
    simp only [selectChildren, hk, Option.some.injEq] at hs
    simp [hs]
  obtain ⟨j, hj1, hj2, hj3⟩ := mappingValues_mem s parent.Content 0 (i, v) hmem
  simp only [Nat.zero_add] at hj1
  subst hj1
  have hi : i < parent.Content.length := (List.getElem?_eq_some.1 hj2).1
  have hrm : Remove obj patch =
      ⟨none, setContent obj p (parent.Content.take (i - 1) ++ parent.Content.drop (i + 1))⟩ := by
    simp only [Remove, hm, rangeMatches, id_eq, hcond, Find_child obj p i parent hp hi, hk,
      removeProperty]
  refine ⟨hj3, hi, hrm, ?_⟩
  rw [hrm]
  apply FindMatches_after_unselect obj patch.Path p i parent _ hm hp hnd
  intro s2 v2 h2
  simp only [selectChildren, hk, Option.some.injEq] at h2 ⊢
  exact mappingValues_remove s2 parent.Content.length parent.Content 0 i v2 rfl
    (by simpa using h2)

/-- The removal of C5 on the document `{a: "1", b: "2"}` with the path `a`. -/
theorem Remove_mapping_entry_witness :
    1 % 2 = 1 ∧ 1 < (mappingOf [strScalar "a", strScalar "1", strScalar "b",
        strScalar "2"]).Content.length ∧
    Remove (documentOf [mappingOf [strScalar "a", strScalar "1", strScalar "b", strScalar "2"]])
        ⟨"a", "", strScalar "", ⟨""⟩, []⟩ =
      ⟨none, setContent
        (documentOf [mappingOf [strScalar "a", strScalar "1", strScalar "b", strScalar "2"]])
        [0]
        ((mappingOf [strScalar "a", strScalar "1", strScalar "b", strScalar "2"]).Content.take
            (1 - 1) ++
          (mappingOf [strScalar "a", strScalar "1", strScalar "b", strScalar "2"]).Content.drop
            (1 + 1))⟩ ∧
    FindMatches (Remove
        (documentOf [mappingOf [strScalar "a", strScalar "1", strScalar "b", strScalar "2"]])
        ⟨"a", "", strScalar "", ⟨""⟩, []⟩).tree "a" = .ok [] :=
  Remove_mapping_entry
    (documentOf [mappingOf [strScalar "a", strScalar "1", strScalar "b", strScalar "2"]])
    ⟨"a", "", strScalar "", ⟨""⟩, []⟩ [0] 1
    (mappingOf [strScalar "a", strScalar "1", strScalar "b", strScalar "2"])
    (by decide) (by decide) (by decide) (by decide)

/-- C3: when the source has more than one match for `fromPath` (for `path` when
`fromPath` is empty), `CopyFromObject` returns an error and leaves the target tree
unchanged, whatever the target and the conditions are. -/
theorem CopyFromObject_ambiguous_source (obj1 obj2 : Node) (patch : Patch)
    (fromMatches : List Ref)
    (hfrom : FindMatches obj2 (if patch.FromPath = "" then patch.Path else patch.FromPath) =
      .ok fromMatches)
    (hmany : 1 < fromMatches.length) :
    (CopyFromObject obj1 (some obj2) patch).err ≠ none ∧
      (CopyFromObject obj1 (some obj2) patch).tree = obj1 := by
  simp only [CopyFromObject]
  cases FindMatches obj1 patch.Path with
  | error e => simp
  | ok matched => simp [hfrom, hmany]

/-- The ambiguity of C3 with the source `{a: "1", a: "2"}` and the path `a`. -/
theorem CopyFromObject_ambiguous_source_witness :
    (CopyFromObject (documentOf [mappingOf [strScalar "a", strScalar "0"]])
        (some (documentOf [mappingOf [strScalar "a", strScalar "1", strScalar "a",
          strScalar "2"]]))
        ⟨"a", "", strScalar "", ⟨""⟩, []⟩).err ≠ none ∧
      (CopyFromObject (documentOf [mappingOf [strScalar "a", strScalar "0"]])
        (some (documentOf [mappingOf [strScalar "a", strScalar "1", strScalar "a",
          strScalar "2"]]))
        ⟨"a", "", strScalar "", ⟨""⟩, []⟩).tree =
        documentOf [mappingOf [strScalar "a", strScalar "0"]] :=
  CopyFromObject_ambiguous_source (documentOf [mappingOf [strScalar "a", strScalar "0"]])
    (documentOf [mappingOf [strScalar "a", strScalar "1", strScalar "a", strScalar "2"]])
    ⟨"a", "", strScalar "", ⟨""⟩, []⟩ [[0, 1], [0, 3]] (by decide) (by decide)

/-- C4, the behaviour of the code: with the target `{a: "1"}`, the source `{}` and the
path `a`, the target has one match that passes the (empty) conditions and the source has
none, yet `CopyFromObject` leaves the target as it was and the path still resolves to
the match. -/
theorem CopyFromObject_source_absent_keeps_target :
    FindMatches (documentOf [mappingOf [strScalar "a", strScalar "1"]]) "a" = .ok [[0, 1]] ∧
    ValidateAllConditions (documentOf [mappingOf [strScalar "a", strScalar "1"]])
      (some [0, 1]) [] = .ok true ∧
    FindMatches (documentOf [mappingOf []]) "a" = .ok [] ∧
    CopyFromObject (documentOf [mappingOf [strScalar "a", strScalar "1"]])
        (some (documentOf [mappingOf []])) ⟨"a", "", strScalar "", ⟨""⟩, []⟩ =
      ⟨none, documentOf [mappingOf [strScalar "a", strScalar "1"]]⟩ ∧
    FindMatches (CopyFromObject (documentOf [mappingOf [strScalar "a", strScalar "1"]])
        (some (documentOf [mappingOf []])) ⟨"a", "", strScalar "", ⟨""⟩, []⟩).tree "a" =
      .ok [[0, 1]] := by
  decide

/-- C10: `CopyFromObject` with an empty `fromPath` behaves as with `fromPath` set to
`path`: same returned error, same target tree. -/
theorem CopyFromObject_fromPath_default (obj1 : Node) (obj2 : Option Node) (patch : Patch) :
    CopyFromObject obj1 obj2 { patch with FromPath := "" } =
      CopyFromObject obj1 obj2 { patch with FromPath := patch.Path } := by
  cases obj2 with
  | none => rfl
  | some obj2 =>
    by_cases h : patch.Path = ""
    · simp [CopyFromObject, h]
    · simp [CopyFromObject, h]

/-! ## Claims about conditions that fail, `Replace` and `CopyFromObject` -/

theorem rangeMatches_tree_unchanged (body : Node → Ref → Step) (obj : Node)
    (h : ∀ m, (body obj m).tree = obj) (sigma : Ref → Ref) (ms : List Ref) :
    (rangeMatches body sigma obj ms).tree = obj := by
  induction ms generalizing sigma with
  | nil => rfl
  | cons m ms ih =>
    simp only [rangeMatches]
    have hm := h (sigma m)
    cases hb : body obj (sigma m) with
    | next obj2 rho =>
      simp only [hb, Step.tree] at hm
      subst hm
      exact ih _
    | ret e obj2 =>
      simp only [hb, Step.tree] at hm
      subst hm
      rfl

/-- C6: a patch whose conditions evaluate to false, without error, for every candidate
(the nil candidate included) leaves the tree unchanged under each of the seven verbs,
whatever the source tree and the resolver are. -/
theorem conditional_skip (obj : Node) (obj2 : Option Node) (patch : Patch)
    (resolver : NameResolver) (yamlLib : Serializer)
    (hfalse : ∀ candidate, ValidateAllConditions obj candidate patch.Conditions = .ok false) :
    (Add obj patch).tree = obj ∧ (Remove obj patch).tree = obj ∧
    (Replace obj patch).tree = obj ∧ (CopyFromObject obj obj2 patch).tree = obj ∧
    (RewriteName obj patch resolver).tree = obj ∧
    (RewriteLabelSelector yamlLib obj patch resolver).tree = obj ∧
    (RewriteLabelExpressionsSelector yamlLib obj patch resolver).tree = obj := by
  refine ⟨?_, ?_, ?_, ?_, ?_, ?_, ?_⟩
  · simp only [Add, NewNode]
    cases FindMatches obj patch.Path with
    | error e => rfl
    | ok matched =>
      simp only
      split
      · simp [hfalse]
      · apply rangeMatches_tree_unchanged
        intro m
        simp [hfalse, Step.tree]
  · simp only [Remove]
    cases FindMatches obj patch.Path with
    | error e => rfl
    | ok matched =>
      apply rangeMatches_tree_unchanged
      intro m
      simp [hfalse, Step.tree]
  · simp only [Replace, NewNode]
    cases FindMatches obj patch.Path with
    | error e => rfl
    | ok matched =>
      apply rangeMatches_tree_unchanged
      intro m
      simp [hfalse, Step.tree]
  · cases obj2 with
    | none => rfl
    | some obj2 =>
      simp only [CopyFromObject]
      cases FindMatches obj patch.Path with
      | error e => rfl
      | ok matched =>
        simp only
        cases FindMatches obj2 (if patch.FromPath = "" then patch.Path else patch.FromPath) with
        | error e => rfl
        | ok fromMatches =>
          simp only
          split
          · rfl
          · split
            · simp [hfalse]
            · apply rangeMatches_tree_unchanged
              intro m
              simp [hfalse, Step.tree]
  · simp only [RewriteName]
    cases FindMatches obj patch.Path with
    | error e => rfl
    | ok matched =>
      apply rangeMatches_tree_unchanged
      intro m
      cases getNode obj m with
      | none => rfl
      | some node =>
        simp only [hfalse]
        split <;> rfl
  · simp only [RewriteLabelSelector]
    cases FindMatches obj patch.Path with
    | error e => rfl
    | ok matched =>
      apply rangeMatches_tree_unchanged
      intro m
      cases getNode obj m with
      | none => rfl
      | some node =>
        simp only [hfalse]
        split <;> rfl
  · simp only [RewriteLabelExpressionsSelector]
    cases FindMatches obj patch.Path with
    | error e => rfl
    | ok matched =>
      apply rangeMatches_tree_unchanged
      intro m
      cases getNode obj m with
      | none => rfl
      | some node =>
        simp only [hfalse]
        split <;> rfl

/-- The skip of C6 on the document `{a: "1"}` with a condition that always fails. -/
theorem conditional_skip_witness :
    (Add sampleTarget neverPatch).tree = sampleTarget ∧
    (Remove sampleTarget neverPatch).tree = sampleTarget ∧
    (Replace sampleTarget neverPatch).tree = sampleTarget ∧
    (CopyFromObject sampleTarget (some sampleSource) neverPatch).tree = sampleTarget ∧
    (RewriteName sampleTarget neverPatch identityResolver).tree = sampleTarget ∧
    (RewriteLabelSelector emptySerializer sampleTarget neverPatch identityResolver).tree =
      sampleTarget ∧
    (RewriteLabelExpressionsSelector emptySerializer sampleTarget neverPatch
      identityResolver).tree = sampleTarget :=
  conditional_skip sampleTarget (some sampleSource) neverPatch identityResolver emptySerializer
    (fun _ => rfl)

/-- C8, as stated, fails: with the target `{}`, the source `{a: ["x", "y"]}` and the path
`a.1`, the target has no match, the source has exactly one (`"y"`), `CopyFromObject`
succeeds and stores `"y"` as the only element of a new sequence under `a`, and the path
`a.1` resolves to nothing in the target afterwards. -/
theorem CopyFromObject_round_trip_counterexample :
    FindMatches (documentOf [mappingOf []]) "a.1" = .ok [] ∧
    FindMatches (documentOf [mappingOf [strScalar "a",
      sequenceOf [strScalar "x", strScalar "y"]]]) "a.1" = .ok [[0, 1, 1]] ∧
    CopyFromObject (documentOf [mappingOf []])
        (some (documentOf [mappingOf [strScalar "a",
          sequenceOf [strScalar "x", strScalar "y"]]]))
        ⟨"a.1", "", strScalar "", ⟨""⟩, []⟩ =
      ⟨none, documentOf [mappingOf [strScalar "a", sequenceOf [strScalar "y"]]]⟩ ∧
    FindMatches (CopyFromObject (documentOf [mappingOf []])
        (some (documentOf [mappingOf [strScalar "a",
          sequenceOf [strScalar "x", strScalar "y"]]]))
        ⟨"a.1", "", strScalar "", ⟨""⟩, []⟩).tree "a.1" = .ok [] := by
  decide

/-- C8, amended: when the target has no match for the path, the source has exactly one
match `s` for `fromPath`, `s` is not a Document, the longest existing prefix of the path
resolves in the target to exactly one node `P`, `P` is a Mapping with an even number of
children or a Sequence whose length is the index the first missing segment denotes,
every later missing segment that parses as an integer denotes index 0, and the
conditions pass against the nil candidate, then
`CopyFromObject` returns no error and the path resolves afterwards in the target to
exactly one node, structurally equal to `s`. -/
theorem CopyFromObject_round_trip (obj1 obj2 : Node) (patch : Patch)
    (pre rest : List String) (s1 : String) (rP : Ref) (P : Node) (rS : Ref) (s : Node)
    (hsegs : pathSegments patch.Path = pre ++ s1 :: rest)
    (hzero : FindMatches obj1 patch.Path = .ok [])
    (hfrom : FindMatches obj2 (if patch.FromPath = "" then patch.Path else patch.FromPath) =
      .ok [rS])
    (hs : getNode obj2 rS = some s) (hsnd : s.Kind ≠ .DocumentNode)
    (hpre : FindMatches obj1 (joinPath pre) = .ok [rP]) (hP : getNode obj1 rP = some P)
    (hmiss : FindMatches obj1 (joinPath (pre ++ [s1])) = .ok [])
    (hparent : ResolvableParent s1 P)
    (hrest : ∀ t ∈ rest, ∀ i, Atoi t = some i → i = 0)
    (hcond : ValidateAllConditions obj1 none patch.Conditions = .ok true) :
    (CopyFromObject obj1 (some obj2) patch).err = none ∧
      ∃ r, FindMatches (CopyFromObject obj1 (some obj2) patch).tree patch.Path = .ok [r] ∧
        getNode (CopyFromObject obj1 (some obj2) patch).tree r = some s := by
  have h1 : CopyFromObject obj1 (some obj2) patch = createPath obj1 patch.Path s := by
    simp [CopyFromObject, hzero, hfrom, hcond, hs]
  have hgood := (FindMatches_ok_good obj1 patch.Path [] hzero).1
  have hsegs2 := segments_of_pathSegments patch.Path pre rest s1 hsegs
  rw [hsegs, ← hsegs2] at hgood
  rw [h1]
  exact createPath_round_trip obj1 patch.Path pre rest s1 rP P hsegs2 hgood hpre hP hmiss
    hparent hrest s s (by simp [hsnd])

/-- The scenario of C8: target `{}`, source `{metadata: {name: "a"}}` and the path
`metadata.name` give the target `{metadata: {name: "a"}}`, in which the path resolves
to the copied value. -/
theorem CopyFromObject_round_trip_witness :
    ((CopyFromObject (documentOf [mappingOf []])
        (some (documentOf [mappingOf [strScalar "metadata",
          mappingOf [strScalar "name", strScalar "a"]]]))
        ⟨"metadata.name", "", strScalar "", ⟨""⟩, []⟩).err = none ∧
      ∃ r, FindMatches (CopyFromObject (documentOf [mappingOf []])
          (some (documentOf [mappingOf [strScalar "metadata",
            mappingOf [strScalar "name", strScalar "a"]]]))
          ⟨"metadata.name", "", strScalar "", ⟨""⟩, []⟩).tree "metadata.name" = .ok [r] ∧
        getNode (CopyFromObject (documentOf [mappingOf []])
          (some (documentOf [mappingOf [strScalar "metadata",
            mappingOf [strScalar "name", strScalar "a"]]]))
          ⟨"metadata.name", "", strScalar "", ⟨""⟩, []⟩).tree r = some (strScalar "a")) ∧
    CopyFromObject (documentOf [mappingOf []])
        (some (documentOf [mappingOf [strScalar "metadata",
          mappingOf [strScalar "name", strScalar "a"]]]))
        ⟨"metadata.name", "", strScalar "", ⟨""⟩, []⟩ =
      ⟨none, documentOf [mappingOf [strScalar "metadata",
        mappingOf [strScalar "name", strScalar "a"]]]⟩ :=
  ⟨CopyFromObject_round_trip (documentOf [mappingOf []])
    (documentOf [mappingOf [strScalar "metadata", mappingOf [strScalar "name", strScalar "a"]]])
    ⟨"metadata.name", "", strScalar "", ⟨""⟩, []⟩
    [] ["name"] "metadata" [0] (mappingOf []) [0, 1, 1] (strScalar "a")
    (by decide) (by decide) (by decide) (by decide) (by decide) (by decide) (by decide)
    (by decide)
    (Or.inl ⟨by decide, by decide⟩)
    (by
      intro t ht i hi
      simp only [List.mem_singleton] at ht
      subst ht
      have h0 : Atoi "name" = none := by decide
      rw [h0] at hi
      exact absurd hi (by simp))
    (by decide), by decide⟩

/-! ## Claims about `CopyFromObject` without a source and about `RewriteName` -/

/-- C19: `CopyFromObject` called with a nil source returns no error and leaves the target
tree unchanged, for every target tree and every patch; the path is not resolved and the
conditions are not evaluated, so a malformed path or failing conditions change nothing. -/
theorem CopyFromObject_nil_source (obj1 : Node) (patch : Patch) :
    CopyFromObject obj1 none patch = ⟨none, obj1⟩ := rfl

/-- C12: when the path resolves to a single Scalar match that passes the conditions and
the resolver fails on its value with the error `e`, `RewriteName` returns exactly `e`,
not wrapped, and the tree is unchanged. -/
theorem RewriteName_resolver_error (obj : Node) (patch : Patch) (resolver : NameResolver)
    (m : Ref) (node : Node) (e : Err)
    (hm : FindMatches obj patch.Path = .ok [m]) (hnode : getNode obj m = some node)
    (hk : node.Kind = .ScalarNode)
    (hcond : ValidateAllConditions obj (some m) patch.Conditions = .ok true)
    (hres : resolver.TranslateName node.Value patch.ParsedRegex patch.FromPath = .error e) :
    RewriteName obj patch resolver = ⟨some e, obj⟩ := by
  simp only [RewriteName, hm, rangeMatches, id_eq, hnode, hk, if_true, hcond, hres]

/-- The failure of C12 on the document `{a: "1"}` with the path `a` and a resolver that
rejects every name. -/
theorem RewriteName_resolver_error_witness :
    RewriteName sampleTarget ⟨"a", "", strScalar "", ⟨""⟩, []⟩
        ⟨fun _ _ _ => .error (.msg "no such name"), fun labels => .ok labels,
          fun selector => .ok selector⟩ =
      ⟨some (.msg "no such name"), sampleTarget⟩ :=
  RewriteName_resolver_error sampleTarget ⟨"a", "", strScalar "", ⟨""⟩, []⟩
    ⟨fun _ _ _ => .error (.msg "no such name"), fun labels => .ok labels,
      fun selector => .ok selector⟩
    [0, 1] (strScalar "1") (.msg "no such name") (by decide) (by decide) (by decide)
    (by decide) rfl

/-! ## Claims about `Remove` on sequences and on the root value, and `Add` on a mapping -/

/-- C15: when the path resolves to the element at index `i` of a Sequence and the
conditions pass for it, `Remove` returns no error and the only change to the tree is that
the Sequence loses its `i`-th child: its length drops by one, the elements in front of
index `i` stay where they were and the elements behind it move up by one position. -/
theorem Remove_sequence_element (obj : Node) (patch : Patch) (p : Ref) (i : Nat) (parent : Node)
    (hm : FindMatches obj patch.Path = .ok [p ++ [i]])
    (hp : getNode obj p = some parent) (hk : parent.Kind = .SequenceNode)
    (hcond : ValidateAllConditions obj (some (p ++ [i])) patch.Conditions = .ok true) :
    i < parent.Content.length ∧
    Remove obj patch =
      ⟨none, setContent obj p (parent.Content.take i ++ parent.Content.drop (i + 1))⟩ ∧
    getNode (Remove obj patch).tree p =
      some { parent with Content := parent.Content.take i ++ parent.Content.drop (i + 1) } ∧
    (parent.Content.take i ++ parent.Content.drop (i + 1)).length =
      parent.Content.length - 1 ∧
    (∀ j, j < i →
      (parent.Content.take i ++ parent.Content.drop (i + 1))[j]? = parent.Content[j]?) ∧
    (∀ j, i ≤ j →
      (parent.Content.take i ++ parent.Content.drop (i + 1))[j]? = parent.Content[j + 1]?) := by
  have hnd : parent.Kind ≠ .DocumentNode := by simp [hk]
  obtain ⟨_, a, s, rsA, v, _, _, _, _, hs⟩ :=
    FindMatches_last_step obj patch.Path p i parent hm hp hnd
  have hget := selectChildren_mem s parent _ hs (i, v) (by simp)
  have hi : i < parent.Content.length := (List.getElem?_eq_some.1 hget).1
  have hrm : Remove obj patch =
      ⟨none, setContent obj p (parent.Content.take i ++ parent.Content.drop (i + 1))⟩ := by
    simp only [Remove, hm, rangeMatches, id_eq, hcond, Find_child obj p i parent hp hi, hk,
      removeChild]
  refine ⟨hi, hrm, ?_, ?_, ?_, ?_⟩
  · rw [hrm]
    simp only [setContent, getNode_modifyAt, hp, Option.map_some']
  · simp only [List.length_append, List.length_take, List.length_drop]
    omega
  · intro j hj
    rw [List.getElem?_append_left (by simp only [List.length_take]; omega)]
    exact List.getElem?_take_of_lt hj
  · intro j hj
    rw [List.getElem?_append_right (by simp only [List.length_take]; omega)]
    simp only [List.length_take, List.getElem?_drop]
    congr 1
    omega

/-- The removal of C15 on the document `{a: ["x", "y", "z"]}` with the path `a.1`. -/
theorem Remove_sequence_element_witness :
    1 < (sequenceOf [strScalar "x", strScalar "y", strScalar "z"]).Content.length ∧
    Remove (documentOf [mappingOf [strScalar "a",
          sequenceOf [strScalar "x", strScalar "y", strScalar "z"]]])
        ⟨"a.1", "", strScalar "", ⟨""⟩, []⟩ =
      ⟨none, documentOf [mappingOf [strScalar "a",
          sequenceOf [strScalar "x", strScalar "z"]]]⟩ :=
  have h := Remove_sequence_element
    (documentOf [mappingOf [strScalar "a",
      sequenceOf [strScalar "x", strScalar "y", strScalar "z"]]])
    ⟨"a.1", "", strScalar "", ⟨""⟩, []⟩ [0, 1] 1
    (sequenceOf [strScalar "x", strScalar "y", strScalar "z"])
    (by decide) (by decide) (by decide) (by decide)
  ⟨h.1, h.2.1.trans (by decide)⟩

theorem FindMatches_child_of_document (obj : Node) (path : String) (matched : List Ref)
    (i : Nat) (hroot : obj.Kind = .DocumentNode)
    (hm : FindMatches obj path = .ok matched) (hmem : [i] ∈ matched) :
    matched = [[0]] ∧ i = 0 ∧ 0 < obj.Content.length := by
  obtain ⟨_, hres⟩ := FindMatches_ok_good obj path matched hm
  unfold resolveRoot at hres
  split at hres
  · simp only [Option.some.injEq] at hres
    subst hres
    simp at hmem
  · rename_i c t hk hc
    cases hrc : resolve (pathSegments path) c with
    | none => simp [hrc] at hres
    | some rsx =>
      simp only [hrc, mapRefs_some, Option.some.injEq] at hres
      subst hres
      obtain ⟨r, hr, hri⟩ := List.mem_map.1 hmem
      simp only [List.cons.injEq] at hri
      obtain ⟨hi, hrn⟩ := hri
      subst hrn
      have hlen := resolve_length _ c rsx hrc [] hr
      have hsegs : pathSegments path = [] := List.length_eq_zero.1 hlen.symm
      rw [hsegs] at hrc
      simp only [resolve, Option.some.injEq] at hrc
      subst hrc
      exact ⟨rfl, hi.symm, by simp [hc]⟩
  · rename_i h1 h2
    exfalso
    cases hc : obj.Content with
    | nil => exact h1 hroot hc
    | cons c t => exact h2 c t hroot hc

/-- C20: when the root of the tree is a Document and the path resolves to a match whose
parent is that Document, `Remove` returns no error and leaves the tree unchanged although
the conditions pass for the match; the path resolves to the same match afterwards. -/
theorem Remove_root_value (obj : Node) (patch : Patch) (matched : List Ref) (m : Ref) (i : Nat)
    (hroot : obj.Kind = .DocumentNode)
    (hm : FindMatches obj patch.Path = .ok matched) (hmem : m ∈ matched)
    (hparent : Find obj m = some ([], obj, i))
    (hcond : ValidateAllConditions obj (some m) patch.Conditions = .ok true) :
    Remove obj patch = ⟨none, obj⟩ ∧
    FindMatches (Remove obj patch).tree patch.Path = .ok matched ∧
    getNode (Remove obj patch).tree m = getNode obj m := by
  have hmi : m = [i] := by
    simp only [Find] at hparent
    cases hl : m.getLast? with
    | none => simp [hl] at hparent
    | some j =>
      simp only [hl] at hparent
      cases hg : getNode obj m.dropLast with
      | none => simp [hg] at hparent
      | some parent =>
        simp only [hg] at hparent
        split at hparent
        · simp only [Option.some.injEq, Prod.mk.injEq] at hparent
          obtain ⟨hd, _, hj⟩ := hparent
          have hne : m ≠ [] := by
            intro h
            simp [h] at hl
          rw [← List.dropLast_append_getLast hne, hd, List.nil_append]
          rw [List.getLast?_eq_getLast _ hne] at hl
          simp only [Option.some.injEq] at hl
          rw [hl, hj]
        · simp at hparent
  subst hmi
  obtain ⟨hall, hi, hlen⟩ := FindMatches_child_of_document obj patch.Path matched i hroot hm hmem
  subst hi
  subst hall
  have hrm : Remove obj patch = ⟨none, obj⟩ := by
    simp only [Remove, hm, rangeMatches, id_eq, hcond, hparent, hroot]
  rw [hrm]
  exact ⟨rfl, hm, rfl⟩

/-- The case of C20 on the document `{a: "1"}` with the empty path, which resolves to the
root value. -/
theorem Remove_root_value_witness :
    Remove sampleTarget ⟨"", "", strScalar "", ⟨""⟩, []⟩ = ⟨none, sampleTarget⟩ ∧
    FindMatches (Remove sampleTarget ⟨"", "", strScalar "", ⟨""⟩, []⟩).tree "" = .ok [[0]] ∧
    getNode (Remove sampleTarget ⟨"", "", strScalar "", ⟨""⟩, []⟩).tree [0] =
      getNode sampleTarget [0] :=
  Remove_root_value sampleTarget ⟨"", "", strScalar "", ⟨""⟩, []⟩ [[0]] [0] 0
    (by decide) (by decide) (by decide) (by decide) (by decide)

/-! ## Claims about the recursion of `createPath` -/

theorem segments_getParentPath (path : String) (hne : getParentPath path ≠ "") :
    (segments (getParentPath path)).length + 1 = (segments path).length := by
  rcases List.eq_nil_or_concat (segments path) with hnil | ⟨init, s, hseg⟩
  · exact absurd hnil (segments_ne_nil path)
  · rw [List.concat_eq_append] at hseg
    have hpar := getParentPath_of_segments path init s hseg
    have hinit : init ≠ [] := by
      intro h
      rw [hpar, h] at hne
      exact hne rfl
    have hfree : ∀ x ∈ init, '.' ∉ x.data := fun x hx =>
      segments_dotfree path x (by rw [hseg]; simp [hx])
    rw [hpar, segments_joinPath init hinit hfree, hseg]
    simp

theorem joinDots_length (segs : List (List Char)) (s : List Char) (hne : segs ≠ []) :
    (joinDots (segs ++ [s])).length = (joinDots segs).length + 1 + s.length := by
  induction segs with
  | nil => exact absurd rfl hne
  | cons a t ih =>
    cases t with
    | nil => simp [joinDots]; omega
    | cons b t =>
      have h := ih (by simp)
      simp only [List.cons_append, joinDots, List.length_append, List.length_cons,
        List.append_eq] at h ⊢
      omega

theorem getParentPath_length (path : String) (hne : getParentPath path ≠ "") :
    (getParentPath path).length < path.length := by
  rcases List.eq_nil_or_concat (splitDots path.data) with hnil | ⟨init, s, hseg⟩
  · exact absurd hnil (splitDots_ne_nil path.data)
  · rw [List.concat_eq_append] at hseg
    have hpar : getParentPath path = String.mk (joinDots init) := by
      simp [getParentPath, hseg]
    have hinit : init ≠ [] := by
      intro h
      rw [hpar, h] at hne
      exact hne rfl
    have hlen := joinDots_length init s hinit
    rw [← hseg, joinDots_splitDots] at hlen
    rw [hpar]
    simp only [String.length] at hlen ⊢
    omega

theorem createPathAux_fuel (obj : Node) : ∀ (fuel : Nat) (path : String) (value : Node),
    (segments path).length ≤ fuel →
    createPathAux fuel obj path value = createPathAux (segments path).length obj path value := by
  intro fuel
  induction fuel with
  | zero =>
    intro path value h
    have := segments_ne_nil path
    cases hs : segments path with
    | nil => exact absurd hs this
    | cons a t => simp [hs] at h
  | succ f ih =>
    intro path value h
    obtain ⟨k, hk⟩ : ∃ k, (segments path).length = k + 1 := by
      cases hs : segments path with
      | nil => exact absurd hs (segments_ne_nil path)
      | cons a t => exact ⟨t.length, by simp⟩
    rw [hk]
    simp only [createPathAux]
    cases (if value.Kind = .DocumentNode then value.Content.head? else some value) with
    | none => rfl
    | some v =>
      simp only []
      cases getParents obj path with
      | error e => rfl
      | ok ms =>
        cases ms with
        | cons m ms => rfl
        | nil =>
          simp only []
          split
          · rfl
          · rename_i htop
            simp only [not_or] at htop
            have hpl := segments_getParentPath path htop.2.1
            have hpk : (segments (getParentPath path)).length = k := by omega
            rw [ih _ _ (by omega), hpk]

theorem rangeMatches_err (body : Node → Ref → Step) (P : Err → Prop)
    (h : ∀ t m e t2, body t m = .ret e t2 → P e) (sigma : Ref → Ref) (obj : Node)
    (ms : List Ref) (e : Err) (he : (rangeMatches body sigma obj ms).err = some e) : P e := by
  induction ms generalizing sigma obj with
  | nil => simp [rangeMatches] at he
  | cons m ms ih =>
    simp only [rangeMatches] at he
    cases hb : body obj (sigma m) with
    | next obj2 rho =>
      simp only [hb] at he
      exact ih _ _ he
    | ret e2 obj2 =>
      simp only [hb, Option.some.injEq] at he
      subst he
      exact h _ _ _ _ hb

theorem createPathSplice_err (childName : String) (value obj : Node) (m : Ref) (e : Err)
    (t : Node) (h : createPathSplice childName value obj m = .ret e t) :
    e = nilDereference ∨ e = indexOutOfRange := by
  simp only [createPathSplice] at h
  split at h
  · simp only [Step.ret.injEq] at h
    exact Or.inl h.1.symm
  · split at h
    · split at h
      · simp only [Step.ret.injEq] at h
        exact Or.inl h.1.symm
      · simp at h
    · simp at h
    · simp at h
    · split at h
      · simp only [Step.ret.injEq] at h
        exact Or.inr h.1.symm
      · simp at h

theorem createPathAux_not_exhausted (obj : Node) : ∀ (fuel : Nat) (path : String) (value : Node),
    (segments path).length ≤ fuel →
    (createPathAux fuel obj path value).err ≠ some (.msg "recursion budget exhausted") := by
  intro fuel
  induction fuel with
  | zero =>
    intro path value h
    cases hs : segments path with
    | nil => exact absurd hs (segments_ne_nil path)
    | cons a t => simp [hs] at h
  | succ f ih =>
    intro path value h
    simp only [createPathAux]
    cases (if value.Kind = .DocumentNode then value.Content.head? else some value) with
    | none => simp [indexOutOfRange]
    | some v =>
      simp only []
      cases getParents obj path with
      | error e =>
        simp only [ne_eq, Option.some.injEq, Err.msg.injEq]
        intro hc
        have := congrArg (fun s => s.data.head?) hc
        simp at this
      | ok ms =>
        cases ms with
        | nil =>
          simp only []
          split
          · simp
          · rename_i htop
            simp only [not_or] at htop
            have hpl := segments_getParentPath path htop.2.1
            exact ih _ _ (by omega)
        | cons m ms =>
          simp only []
          intro hc
          have h2 := rangeMatches_err (createPathSplice (getChildName path) v)
            (fun e => e = nilDereference ∨ e = indexOutOfRange)
            (fun t m e t2 h => createPathSplice_err _ _ t m e t2 h) id obj (m :: ms) _ hc
          simp [nilDereference, indexOutOfRange] at h2

/-- C17: `createPath` terminates for every tree, path and value. A recursive call is made
on the parent path, which has one segment less than the path and is a strictly shorter
string; a recursion budget of as many calls as the path has segments is therefore never
exhausted, and every such budget gives the same result. -/
theorem createPath_terminates (obj : Node) (path : String) (value : Node) :
    (¬(path = getParentPath path ∨ getParentPath path = "" ∨ path = "") →
      (segments (getParentPath path)).length + 1 = (segments path).length ∧
        (getParentPath path).length < path.length) ∧
    (∀ fuel, (segments path).length ≤ fuel →
      createPathAux fuel obj path value = createPath obj path value ∧
      (createPathAux fuel obj path value).err ≠ some (.msg "recursion budget exhausted")) := by
  constructor
  · intro htop
    simp only [not_or] at htop
    exact ⟨segments_getParentPath path htop.2.1, getParentPath_length path htop.2.1⟩
  · intro fuel hfuel
    refine ⟨?_, createPathAux_not_exhausted obj fuel path value hfuel⟩
    rw [createPath, createPathAux_fuel obj fuel path value hfuel,
      createPathAux_fuel obj (path.length + 1) path value (segments_length path)]

/-- The bound of C17 on the path `a.b.c` in the document `{}`: the parent path `a.b` has
two of the three segments, and a budget of three calls gives the result of `createPath`,
the document `{a: {b: {c: "v"}}}`. -/
theorem createPath_terminates_witness :
    ((segments (getParentPath "a.b.c")).length + 1 = (segments "a.b.c").length ∧
      (getParentPath "a.b.c").length < "a.b.c".length) ∧
    createPathAux 3 (documentOf [mappingOf []]) "a.b.c" (strScalar "v") =
      createPath (documentOf [mappingOf []]) "a.b.c" (strScalar "v") ∧
    (createPathAux 3 (documentOf [mappingOf []]) "a.b.c" (strScalar "v")).err ≠
      some (.msg "recursion budget exhausted") ∧
    createPath (documentOf [mappingOf []]) "a.b.c" (strScalar "v") =
      ⟨none, documentOf [mappingOf [strScalar "a", mappingOf [strScalar "b",
        mappingOf [strScalar "c", strScalar "v"]]]]⟩ :=
  have h := createPath_terminates (documentOf [mappingOf []]) "a.b.c" (strScalar "v")
  ⟨h.1 (by decide), (h.2 3 (by decide)).1, (h.2 3 (by decide)).2, by decide⟩

theorem mappingValues_pairwise (seg : String) (m : Nat) :
    ∀ (l : List Node) (k : Nat), l.length = m →
      (mappingValues seg k l).Pairwise (fun x y => x.1 ≠ y.1) := by
  induction m using Nat.strong_induction_on with
  | _ m ih =>
    intro l k hl
    match l, hl with
    | [], _ => simp [mappingValues]
    | [_], _ => simp [mappingValues]
    | a :: b :: rest, hl =>
      simp only [List.length_cons] at hl
      have h2 := ih rest.length (by omega) rest (k + 2) rfl
      simp only [mappingValues]
      split
      · refine List.Pairwise.cons ?_ h2
        intro y hy
        obtain ⟨j, hj, _, _⟩ := mappingValues_mem seg rest (k + 2) y hy
        simp only [ne_eq]
        omega
      · exact h2

theorem selectChildren_pairwise (seg : String) (n : Node) (cs : List (Nat × Node))
    (h : selectChildren seg n = some cs) : cs.Pairwise (fun x y => x.1 ≠ y.1) := by
  simp only [selectChildren] at h
  split at h
  · simp at h
  · simp only [Option.some.injEq] at h
    subst h
    exact mappingValues_pairwise seg _ _ 0 rfl
  · simp only [Option.some.injEq] at h
    subst h
    simp only [sequenceElement]
    split
    · split
      · split <;> simp
      · simp
    · simp
  · simp only [Option.some.injEq] at h
    subst h
    simp

theorem collect_nodup (g : Nat × Node → Option (List Ref)) (cs : List (Nat × Node))
    (hg : ∀ x ∈ cs, ∀ l, g x = some l → l.Nodup)
    (hcs : cs.Pairwise (fun x y => x.1 ≠ y.1)) (out : List Ref)
    (h : collect (fun ic => mapRefs (fun r => ic.1 :: r) (g ic)) cs = some out) :
    out.Nodup := by
  induction cs generalizing out with
  | nil =>
    simp only [collect, Option.some.injEq] at h
    subst h
    simp
  | cons x xs ih =>
    simp only [collect] at h
    obtain ⟨a, b, ha, hb, hab⟩ := appendRefs_eq_some h
    subst hab
    rw [List.pairwise_cons] at hcs
    have hbn := ih (fun y hy => hg y (by simp [hy])) hcs.2 b hb
    cases hgx : g x with
    | none => simp [hgx] at ha
    | some l =>
      simp only [hgx, mapRefs_some, Option.some.injEq] at ha
      subst ha
      have han : (l.map (fun r => x.1 :: r)).Nodup :=
        (hg x (by simp) l hgx).map (fun r1 r2 h12 => by simpa using h12)
      refine List.nodup_append.2 ⟨han, hbn, ?_⟩
      intro r hra hrb
      obtain ⟨q, _, rfl⟩ := List.mem_map.1 hra
      obtain ⟨y, hy, c, hc, hrc⟩ := collect_mem _ xs b hb _ hrb
      cases hgy : g y with
      | none => simp [hgy] at hc
      | some l2 =>
        simp only [hgy, mapRefs_some, Option.some.injEq] at hc
        subst hc
        obtain ⟨q2, _, h2⟩ := List.mem_map.1 hrc
        simp only [List.cons.injEq] at h2
        exact hcs.1 y hy h2.1.symm

theorem resolve_nodup (a : List String) : ∀ (n : Node) (rs : List Ref),
    resolve a n = some rs → rs.Nodup := by
  induction a with
  | nil =>
    intro n rs h
    simp only [resolve, Option.some.injEq] at h
    subst h
    simp
  | cons s a ih =>
    intro n rs h
    simp only [resolve] at h
    cases hsel : selectChildren s n with
    | none => simp [hsel] at h
    | some cs =>
      simp only [hsel] at h
      exact collect_nodup (fun ic => resolve a ic.2) cs (fun x _ l hl => ih x.2 l hl)
        (selectChildren_pairwise s n cs hsel) rs h

theorem FindMatches_nodup (obj : Node) (path : String) (rs : List Ref)
    (h : FindMatches obj path = .ok rs) : rs.Nodup := by
  obtain ⟨_, hres⟩ := FindMatches_ok_good obj path rs h
  unfold resolveRoot at hres
  split at hres
  · simp only [Option.some.injEq] at hres
    subst hres
    simp
  · rename_i c t hk hc
    cases hrc : resolve (pathSegments path) c with
    | none => simp [hrc] at hres
    | some rsx =>
      simp only [hrc, mapRefs_some, Option.some.injEq] at hres
      subst hres
      exact (resolve_nodup _ _ rsx hrc).map (fun r1 r2 h12 => by simpa using h12)
  · exact resolve_nodup _ _ rs hres

theorem FindMatches_length (obj : Node) (path : String) (rs : List Ref)
    (h : FindMatches obj path = .ok rs) : ∀ q ∈ rs, ∀ r ∈ rs, q.length = r.length :=
  resolveRoot_length _ obj rs (FindMatches_ok_good obj path rs h).2

/-! ## Properties of loops over matches -/

theorem RewriteLabelSelector_eq_loop (yamlLib : Serializer) (obj : Node) (patch : Patch)
    (resolver : NameResolver) (matched : List Ref)
    (hm : FindMatches obj patch.Path = .ok matched) :
    RewriteLabelSelector yamlLib obj patch resolver =
      rangeMatches (RewriteLabelSelectorStep yamlLib patch resolver) id obj matched := by
  simp only [RewriteLabelSelector, hm]
  rfl

theorem Renumbering.id (len : Nat) : Renumbering len id :=
  ⟨fun _ ha => ⟨ha, rfl⟩, fun _ _ _ _ hab => hab⟩

theorem Renumbering.comp {len : Nat} {rho sigma : Ref → Ref} (hr : Renumbering len rho)
    (hs : Renumbering len sigma) : Renumbering len (rho ∘ sigma) := by
  refine ⟨fun a ha => ?_, fun a b ha hb hab => ?_⟩
  · obtain ⟨h1, h2⟩ := hs.1 a ha
    obtain ⟨h3, h4⟩ := hr.1 (sigma a) h1
    exact ⟨h3, h4.trans h2⟩
  · exact hr.2 _ _ (hs.1 a ha).1 (hs.1 b hb).1 (hs.2 a b ha hb hab)

theorem rangeHandles_renumbering (len : Nat) (body : Node → Ref → Step)
    (hstable : StableStep len body) : ∀ (ms : List Ref) (T : Node) (sigma : Ref → Ref),
    Renumbering len sigma → (∀ r ∈ ms, r.length = len) →
    Renumbering len (rangeHandles body sigma T ms) := by
  intro ms
  induction ms with
  | nil => exact fun _ _ hs _ => hs
  | cons r ms ih =>
    intro T sigma hs hlen
    simp only [rangeHandles]
    cases hb : body T (sigma r) with
    | ret e T2 => exact hs
    | next T2 rho =>
      simp only []
      have hr := ((hstable T (sigma r) (hs.1 r (hlen r (by simp))).1).2 T2 rho hb).1
      exact ih T2 _ (hr.comp hs) (fun x hx => hlen x (by simp [hx]))

theorem rangeMatches_track (len : Nat) (body : Node → Ref → Step)
    (hstable : StableStep len body) : ∀ (ms : List Ref) (T : Node) (sigma : Ref → Ref)
    (x : Ref), Renumbering len sigma → x.length = len → (∀ r ∈ ms, r.length = len) → x ∉ ms →
    getNode (rangeMatches body sigma T ms).tree (rangeHandles body sigma T ms x) =
      getNode T (sigma x) := by
  intro ms
  induction ms with
  | nil => exact fun _ _ _ _ _ _ _ => rfl
  | cons r ms ih =>
    intro T sigma x hs hx hlen hxm
    simp only [List.mem_cons, not_or] at hxm
    have hrl := hlen r (by simp)
    obtain ⟨hret, hnext⟩ := hstable T (sigma r) (hs.1 r hrl).1
    simp only [rangeMatches, rangeHandles]
    cases hb : body T (sigma r) with
    | ret e T2 =>
      simp only []
      rw [hret e T2 hb]
    | next T2 rho =>
      simp only []
      obtain ⟨hr, hframe⟩ := hnext T2 rho hb
      rw [ih T2 (rho ∘ sigma) x (hr.comp hs) hx (fun y hy => hlen y (by simp [hy])) hxm.2]
      exact hframe (sigma x) (hs.1 x hx).1 (hs.2 x r hx hrl hxm.1)

theorem rangeMatches_append (body : Node → Ref → Step) : ∀ (pre post : List Ref) (T : Node)
    (sigma : Ref → Ref), (rangeMatches body sigma T pre).err = none →
    rangeMatches body sigma T (pre ++ post) =
      rangeMatches body (rangeHandles body sigma T pre) (rangeMatches body sigma T pre).tree
        post := by
  intro pre
  induction pre with
  | nil => exact fun _ _ _ _ => rfl
  | cons r pre ih =>
    intro post T sigma herr
    simp only [rangeMatches, rangeHandles, List.cons_append] at herr ⊢
    cases hb : body T (sigma r) with
    | ret e T2 => simp [hb] at herr
    | next T2 rho =>
      simp only [hb] at herr ⊢
      exact ih post T2 _ herr

theorem rangeHandles_append (body : Node → Ref → Step) : ∀ (pre post : List Ref) (T : Node)
    (sigma : Ref → Ref), (rangeMatches body sigma T pre).err = none →
    rangeHandles body sigma T (pre ++ post) =
      rangeHandles body (rangeHandles body sigma T pre) (rangeMatches body sigma T pre).tree
        post := by
  intro pre
  induction pre with
  | nil => exact fun _ _ _ _ => rfl
  | cons r pre ih =>
    intro post T sigma herr
    simp only [rangeMatches, rangeHandles, List.cons_append] at herr ⊢
    cases hb : body T (sigma r) with
    | ret e T2 => simp [hb] at herr
    | next T2 rho =>
      simp only [hb] at herr ⊢
      exact ih post T2 _ herr

/-- The node that the iteration on `m` leaves at `m` stays there, at the handle that the
rest of the loop gives it, whatever the later iterations do. -/
theorem rangeMatches_visit (len : Nat) (body : Node → Ref → Step)
    (hstable : StableStep len body) (obj : Node) (pre post : List Ref) (m : Ref)
    (hlen : ∀ r ∈ pre ++ m :: post, r.length = len) (hnodup : (pre ++ m :: post).Nodup)
    (T T2 : Node) (rho : Ref → Ref) (node : Node)
    (hreach : rangeMatches body id obj pre = ⟨none, T⟩)
    (hstep : body T (rangeHandles body id obj pre m) = .next T2 rho)
    (hnode : getNode T2 (rho (rangeHandles body id obj pre m)) = some node) :
    getNode (rangeMatches body id obj (pre ++ m :: post)).tree
      (rangeHandles body id obj (pre ++ m :: post) m) = some node := by
  have herr : (rangeMatches body id obj pre).err = none := by rw [hreach]
  have htree : (rangeMatches body id obj pre).tree = T := by rw [hreach]
  have hml : m.length = len := hlen m (by simp)
  have hpre : ∀ r ∈ pre, r.length = len := fun r hr => hlen r (by simp [hr])
  have hpost : ∀ r ∈ post, r.length = len := fun r hr => hlen r (by simp [hr])
  have hmpost : m ∉ post := by
    have h := (List.nodup_append.1 hnodup).2.1
    exact (List.nodup_cons.1 h).1
  have hs := rangeHandles_renumbering len body hstable pre obj id (Renumbering.id len) hpre
  have hr := ((hstable T _ (hs.1 m hml).1).2 T2 rho hstep).1
  rw [rangeMatches_append body pre (m :: post) obj id herr,
    rangeHandles_append body pre (m :: post) obj id herr, htree]
  simp only [rangeMatches, rangeHandles, hstep]
  rw [rangeMatches_track len body hstable post T2 _ m (hr.comp hs) hml hpost hmpost]
  exact hnode

theorem StableStep_of_local (len : Nat) (body : Node → Ref → Step)
    (hlocal : ∀ T h, (∃ e, body T h = .ret e T) ∨ body T h = .next T id ∨
      ∃ f, body T h = .next (modifyAt f T h) id) : StableStep len body := by
  intro T h hh
  rcases hlocal T h with ⟨e0, h0⟩ | h0 | ⟨f, h0⟩
  · refine ⟨fun e T2 hb => ?_, fun T2 rho hb => ?_⟩
    · rw [h0] at hb
      simp only [Step.ret.injEq] at hb
      exact hb.2.symm
    · rw [h0] at hb
      cases hb
  · refine ⟨fun e T2 hb => ?_, fun T2 rho hb => ?_⟩
    · rw [h0] at hb
      cases hb
    · rw [h0] at hb
      simp only [Step.next.injEq] at hb
      obtain ⟨h1, h2⟩ := hb
      subst h1
      subst h2
      exact ⟨Renumbering.id len, fun _ _ _ => rfl⟩
  · refine ⟨fun e T2 hb => ?_, fun T2 rho hb => ?_⟩
    · rw [h0] at hb
      cases hb
    · rw [h0] at hb
      simp only [Step.next.injEq] at hb
      obtain ⟨h1, h2⟩ := hb
      subst h1
      subst h2
      refine ⟨Renumbering.id len, fun y hy hne => ?_⟩
      exact getNode_modifyAt_ne f T h y (by rw [hh, hy]) (fun h => hne h.symm)

theorem rangeHandles_local (body : Node → Ref → Step)
    (hlocal : ∀ T h, (∃ e, body T h = .ret e T) ∨ body T h = .next T id ∨
      ∃ f, body T h = .next (modifyAt f T h) id) :
    ∀ (ms : List Ref) (T : Node) (sigma : Ref → Ref) (x : Ref),
      rangeHandles body sigma T ms x = sigma x := by
  intro ms
  induction ms with
  | nil => exact fun _ _ _ => rfl
  | cons r ms ih =>
    intro T sigma x
    simp only [rangeHandles]
    rcases hlocal T (sigma r) with ⟨e0, h0⟩ | h0 | ⟨f, h0⟩
    · rw [h0]
    · rw [h0]
      exact ih T _ x
    · rw [h0]
      exact ih _ _ x

theorem RewriteLabelSelectorStep_local (yamlLib : Serializer) (patch : Patch)
    (resolver : NameResolver) (T : Node) (h : Ref) :
    (∃ e, RewriteLabelSelectorStep yamlLib patch resolver T h = .ret e T) ∨
      RewriteLabelSelectorStep yamlLib patch resolver T h = .next T id ∨
      ∃ f, RewriteLabelSelectorStep yamlLib patch resolver T h =
        .next (modifyAt f T h) id := by
  simp only [RewriteLabelSelectorStep]
  cases getNode T h with
  | none => exact Or.inl ⟨_, rfl⟩
  | some node =>
    simp only []
    split
    · cases ValidateAllConditions T (some h) patch.Conditions with
      | error e => exact Or.inl ⟨_, rfl⟩
      | ok b =>
        cases b with
        | false => exact Or.inr (Or.inl rfl)
        | true =>
          simp only []
          cases yamlLib.Marshal node with
          | error e => exact Or.inl ⟨_, rfl⟩
          | ok text =>
            simp only []
            cases yamlLib.UnmarshalStrictLabels text with
            | error e => exact Or.inl ⟨_, rfl⟩
            | ok labels =>
              simp only []
              cases resolver.TranslateLabelSelector labels with
              | error e => exact Or.inl ⟨_, rfl⟩
              | ok translated =>
                simp only []
                cases yamlLib.NewNodeLabels translated with
                | error e => exact Or.inl ⟨_, rfl⟩
                | ok newNode => exact Or.inr (Or.inr ⟨_, rfl⟩)
    · exact Or.inr (Or.inl rfl)

/-- What a loop of local iterations leaves at a match: the node that the iteration on the
match put there; and what it leaves elsewhere at that depth: the node that was there. -/
theorem rangeMatches_local_visit (body : Node → Ref → Step)
    (hlocal : ∀ T h, (∃ e, body T h = .ret e T) ∨ body T h = .next T id ∨
      ∃ f, body T h = .next (modifyAt f T h) id)
    (obj : Node) (pre post : List Ref) (m : Ref) (len : Nat)
    (hlen : ∀ r ∈ pre ++ m :: post, r.length = len) (hnodup : (pre ++ m :: post).Nodup)
    (T : Node) (hreach : rangeMatches body id obj pre = ⟨none, T⟩) :
    getNode T m = getNode obj m ∧
    ∀ T2 rho node, body T m = .next T2 rho → getNode T2 m = some node →
      getNode (rangeMatches body id obj (pre ++ m :: post)).tree m = some node := by
  have hstable := StableStep_of_local len body hlocal
  have hml : m.length = len := hlen m (by simp)
  have hpre : ∀ r ∈ pre, r.length = len := fun r hr => hlen r (by simp [hr])
  have hmpre : m ∉ pre := by
    intro hmem
    exact (List.nodup_append.1 hnodup).2.2 hmem (by simp)
  have hvis := rangeMatches_track len body hstable pre obj id m (Renumbering.id len) hml hpre
    hmpre
  rw [hreach, rangeHandles_local body hlocal] at hvis
  simp only [id_eq] at hvis
  refine ⟨hvis, ?_⟩
  intro T2 rho node hstep hnode
  have hrho : rho m = m := by
    rcases hlocal T m with ⟨e0, h0⟩ | h0 | ⟨f, h0⟩
    · rw [h0] at hstep
      cases hstep
    · rw [h0] at hstep
      simp only [Step.next.injEq] at hstep
      rw [← hstep.2]
      rfl
    · rw [h0] at hstep
      simp only [Step.next.injEq] at hstep
      rw [← hstep.2]
      rfl
  have h := rangeMatches_visit len body hstable obj pre post m hlen hnodup T T2 rho node hreach
    (by rw [rangeHandles_local body hlocal]; exact hstep)
    (by rw [rangeHandles_local body hlocal, id_eq, hrho]; exact hnode)
  rwa [rangeHandles_local body hlocal] at h

theorem rangeMatches_local_frame (body : Node → Ref → Step)
    (hlocal : ∀ T h, (∃ e, body T h = .ret e T) ∨ body T h = .next T id ∨
      ∃ f, body T h = .next (modifyAt f T h) id)
    (obj : Node) (ms : List Ref) (r : Ref)
    (hlen : ∀ m ∈ ms, r.length = m.length) (hr : r ∉ ms) :
    getNode (rangeMatches body id obj ms).tree r = getNode obj r := by
  have hstable := StableStep_of_local r.length body hlocal
  have h := rangeMatches_track r.length body hstable ms obj id r (Renumbering.id _) rfl
    (fun m hm => (hlen m hm).symm) hr
  rwa [rangeHandles_local body hlocal] at h

/-! ## Handles after the insertion of a sibling -/

theorem wellFormedAll_iff (l : List Node) :
    wellFormedAll l = true ↔ ∀ c ∈ l, wellFormedBelow c = true := by
  induction l with
  | nil => simp [wellFormedAll]
  | cons c cs ih => simp [wellFormedAll, ih]

theorem wellFormedBelow_iff (n : Node) :
    wellFormedBelow n = true ↔
      n.Kind ≠ .DocumentNode ∧ (n.Kind = .MappingNode → scalarKeys n.Content = true) ∧
        ∀ c ∈ n.Content, wellFormedBelow c = true := by
  cases n with
  | mk k t v content =>
    simp only [wellFormedBelow, Bool.and_eq_true, Bool.or_eq_true, decide_eq_true_eq,
      wellFormedAll_iff, ne_eq, and_assoc]
    constructor
    · rintro ⟨h1, h2, h3⟩
      refine ⟨h1, ?_, h3⟩
      intro hk
      rcases h2 with h2 | h2
      · exact absurd hk h2
      · exact h2
    · rintro ⟨h1, h2, h3⟩
      refine ⟨h1, ?_, h3⟩
      by_cases hk : k = .MappingNode
      · exact Or.inr (h2 hk)
      · exact Or.inl hk

theorem scalarKeys_append (m : Nat) : ∀ (a b : List Node), a.length = m →
    scalarKeys a = true → scalarKeys (a ++ b) = scalarKeys b := by
  induction m using Nat.strong_induction_on with
  | _ m ih =>
    intro a b hl ha
    match a, hl, ha with
    | [], _, _ => rfl
    | [_], _, ha => simp [scalarKeys] at ha
    | k :: v :: rest, hl, ha =>
      simp only [List.length_cons] at hl
      simp only [scalarKeys, Bool.and_eq_true, decide_eq_true_eq] at ha
      simp only [List.cons_append, scalarKeys, ha.1, decide_True, Bool.true_and]
      exact ih rest.length (by omega) rest b rfl ha.2

theorem scalarKeys_set (m : Nat) : ∀ (l : List Node) (i : Nat) (c d : Node), l.length = m →
    l[i]? = some c → d.Kind = c.Kind → scalarKeys (l.set i d) = scalarKeys l := by
  induction m using Nat.strong_induction_on with
  | _ m ih =>
    intro l i c d hl hc hk
    match l, hl, hc with
    | [], _, hc => simp at hc
    | [x], _, _ =>
      cases i <;> simp [scalarKeys]
    | k :: v :: rest, hl, hc =>
      simp only [List.length_cons] at hl
      match i, hc with
      | 0, hc =>
        simp only [List.getElem?_cons_zero, Option.some.injEq] at hc
        subst hc
        simp [scalarKeys, hk]
      | 1, hc => simp [scalarKeys]
      | i + 2, hc =>
        simp only [List.getElem?_cons_succ] at hc
        simp only [List.set_cons_succ, scalarKeys]
        rw [ih rest.length (by omega) rest i c d rfl hc hk]

theorem modifyAt_kind_eq (f : Node → Node) (n : Node) (r : Ref) (node : Node)
    (hnode : getNode n r = some node) (hk : (f node).Kind = node.Kind) :
    (modifyAt f n r).Kind = n.Kind := by
  cases r with
  | nil =>
    simp only [getNode, Option.some.injEq] at hnode
    subst hnode
    exact hk
  | cons i r => exact modifyAt_kind f n i r

theorem wellFormedBelow_getNode (r : Ref) : ∀ (n node : Node), wellFormedBelow n = true →
    getNode n r = some node → wellFormedBelow node = true := by
  induction r with
  | nil =>
    intro n node hn hnode
    simp only [getNode, Option.some.injEq] at hnode
    rwa [← hnode]
  | cons i r ih =>
    intro n node hn hnode
    simp only [getNode] at hnode
    cases hc : n.Content[i]? with
    | none => simp [hc] at hnode
    | some c =>
      simp only [hc] at hnode
      exact ih c node (((wellFormedBelow_iff n).1 hn).2.2 c (List.getElem?_mem hc)) hnode

theorem wellFormedBelow_modifyAt (f : Node → Node) (r : Ref) : ∀ (n node : Node),
    wellFormedBelow n = true → getNode n r = some node → (f node).Kind = node.Kind →
    wellFormedBelow (f node) = true → wellFormedBelow (modifyAt f n r) = true := by
  induction r with
  | nil =>
    intro n node _ hnode _ hf
    simp only [getNode, Option.some.injEq] at hnode
    subst hnode
    exact hf
  | cons i r ih =>
    intro n node hn hnode hk hf
    simp only [getNode] at hnode
    cases hc : n.Content[i]? with
    | none => simp [hc] at hnode
    | some c =>
      simp only [hc] at hnode
      obtain ⟨h1, h2, h3⟩ := (wellFormedBelow_iff n).1 hn
      have hcw := ih c node (h3 c (List.getElem?_mem hc)) hnode hk hf
      simp only [modifyAt, hc]
      rw [wellFormedBelow_iff]
      refine ⟨h1, ?_, ?_⟩
      · intro hm
        simp only [] at hm ⊢
        rw [scalarKeys_set _ n.Content i c _ rfl hc (modifyAt_kind_eq f c r node hnode hk)]
        exact h2 hm
      · intro x hx
        simp only [] at hx
        rcases List.mem_or_eq_of_mem_set hx with h | h
        · exact h3 x h
        · rw [h]
          exact hcw

theorem WellFormed_of_document (obj : Node) (h : obj.Kind = .DocumentNode) :
    WellFormed obj = (decide (obj.Content.length = 1) && wellFormedAll obj.Content) := by
  simp only [WellFormed, h]

theorem WellFormed_of_not_document (obj : Node) (h : obj.Kind ≠ .DocumentNode) :
    WellFormed obj = wellFormedBelow obj := by
  unfold WellFormed
  split
  · rename_i hk
    exact absurd hk h
  · rfl

theorem WellFormed_getNode (obj : Node) (r : Ref) (node : Node)
    (hwf : WellFormed obj = true) (hnode : getNode obj r = some node)
    (hnd : node.Kind ≠ .DocumentNode) : wellFormedBelow node = true := by
  by_cases hk : obj.Kind = .DocumentNode
  · rw [WellFormed_of_document obj hk] at hwf
    simp only [Bool.and_eq_true, decide_eq_true_eq, wellFormedAll_iff] at hwf
    cases r with
    | nil =>
      simp only [getNode, Option.some.injEq] at hnode
      subst hnode
      exact absurd hk hnd
    | cons i r =>
      simp only [getNode] at hnode
      cases hc : obj.Content[i]? with
      | none => simp [hc] at hnode
      | some c =>
        simp only [hc] at hnode
        exact wellFormedBelow_getNode r c node (hwf.2 c (List.getElem?_mem hc)) hnode
  · rw [WellFormed_of_not_document obj hk] at hwf
    exact wellFormedBelow_getNode r obj node hwf hnode

theorem WellFormed_modifyAt (f : Node → Node) (obj : Node) (r : Ref) (node : Node)
    (hwf : WellFormed obj = true) (hnode : getNode obj r = some node)
    (hnd : node.Kind ≠ .DocumentNode)
    (hk : (f node).Kind = node.Kind) (hf : wellFormedBelow (f node) = true) :
    WellFormed (modifyAt f obj r) = true := by
  by_cases hd : obj.Kind = .DocumentNode
  · cases r with
    | nil =>
      simp only [getNode, Option.some.injEq] at hnode
      subst hnode
      exact absurd hd hnd
    | cons i r =>
      have hkind := modifyAt_kind f obj i r
      rw [WellFormed_of_document _ (hkind.trans hd)]
      rw [WellFormed_of_document obj hd] at hwf
      simp only [Bool.and_eq_true, decide_eq_true_eq, wellFormedAll_iff] at hwf ⊢
      simp only [getNode] at hnode
      cases hc : obj.Content[i]? with
      | none => simp [hc] at hnode
      | some c =>
        simp only [hc] at hnode
        simp only [modifyAt, hc, List.length_set]
        refine ⟨hwf.1, ?_⟩
        intro x hx
        rcases List.mem_or_eq_of_mem_set hx with h | h
        · exact hwf.2 x h
        · rw [h]
          exact wellFormedBelow_modifyAt f r c node (hwf.2 c (List.getElem?_mem hc)) hnode hk hf
  · rw [WellFormed_of_not_document obj hd] at hwf
    have hkind := modifyAt_kind_eq f obj r node hnode hk
    rw [WellFormed_of_not_document _ (by rw [hkind]; exact hd)]
    exact wellFormedBelow_modifyAt f r obj node hwf hnode hk hf

theorem WellFormed_append (obj : Node) (r : Ref) (node : Node) (extra : List Node)
    (hwf : WellFormed obj = true) (hnode : getNode obj r = some node)
    (hnd : node.Kind ≠ .DocumentNode)
    (hkeys : node.Kind = .MappingNode → scalarKeys extra = true)
    (hextra : ∀ c ∈ extra, wellFormedBelow c = true) :
    WellFormed (setContent obj r (node.Content ++ extra)) = true := by
  have hn := (wellFormedBelow_iff node).1 (WellFormed_getNode obj r node hwf hnode hnd)
  apply WellFormed_modifyAt _ obj r node hwf hnode hnd rfl
  rw [wellFormedBelow_iff]
  refine ⟨hnd, ?_, ?_⟩
  · intro hm
    simp only [] at hm ⊢
    rw [scalarKeys_append _ node.Content extra rfl (hn.2.1 hm)]
    exact hkeys hm
  · intro c hc
    simp only [List.mem_append] at hc
    rcases hc with h | h
    · exact hn.2.2 c h
    · exact hextra c h

theorem getNode_setContent_append (extra : List Node) (r : Ref) :
    ∀ (obj node : Node) (q : Ref) (nq : Node), getNode obj r = some node →
      getNode obj q = some nq →
      ∃ nq2, getNode (setContent obj r (node.Content ++ extra)) q = some nq2 ∧
        nq2.Kind = nq.Kind := by
  induction r with
  | nil =>
    intro obj node q nq hnode hq
    simp only [getNode, Option.some.injEq] at hnode
    subst hnode
    cases q with
    | nil =>
      simp only [getNode, Option.some.injEq] at hq
      subst hq
      exact ⟨_, rfl, rfl⟩
    | cons i q =>
      simp only [getNode] at hq
      cases hc : obj.Content[i]? with
      | none => simp [hc] at hq
      | some c =>
        simp only [hc] at hq
        have hi : i < obj.Content.length := (List.getElem?_eq_some.1 hc).1
        refine ⟨nq, ?_, rfl⟩
        simp only [setContent, modifyAt, getNode, List.getElem?_append_left hi, hc, hq]
  | cons j r ih =>
    intro obj node q nq hnode hq
    simp only [getNode] at hnode
    cases hc : obj.Content[j]? with
    | none => simp [hc] at hnode
    | some c =>
      simp only [hc] at hnode
      cases q with
      | nil =>
        simp only [getNode, Option.some.injEq] at hq
        subst hq
        exact ⟨_, rfl, modifyAt_kind _ _ j r⟩
      | cons i q =>
        simp only [getNode] at hq
        cases hci : obj.Content[i]? with
        | none => simp [hci] at hq
        | some ci =>
          simp only [hci] at hq
          have hj : j < obj.Content.length := (List.getElem?_eq_some.1 hc).1
          by_cases hij : i = j
          · subst hij
            rw [hc] at hci
            simp only [Option.some.injEq] at hci
            subst hci
            obtain ⟨nq2, h1, h2⟩ := ih c node q nq hnode hq
            refine ⟨nq2, ?_, h2⟩
            simp only [setContent] at h1
            simp only [setContent, modifyAt, hc, getNode, List.getElem?_set_self hj, h1]
          · refine ⟨nq, ?_, rfl⟩
            simp only [setContent, modifyAt, hc, getNode,
              List.getElem?_set_ne (fun h => hij h.symm), hci, hq]

theorem FindMatches_not_document (obj : Node) (path : String) (rs : List Ref)
    (hwf : WellFormed obj = true) (h : FindMatches obj path = .ok rs) (r : Ref) (hr : r ∈ rs)
    (node : Node) (hnode : getNode obj r = some node) : node.Kind ≠ .DocumentNode := by
  by_cases hd : obj.Kind = .DocumentNode
  · obtain ⟨_, hres⟩ := FindMatches_ok_good obj path rs h
    rw [WellFormed_of_document obj hd] at hwf
    simp only [Bool.and_eq_true, decide_eq_true_eq, wellFormedAll_iff] at hwf
    unfold resolveRoot at hres
    split at hres
    · simp only [Option.some.injEq] at hres
      subst hres
      simp at hr
    · rename_i c t hk hc
      cases hrc : resolve (pathSegments path) c with
      | none => simp [hrc] at hres
      | some rsx =>
        simp only [hrc, mapRefs_some, Option.some.injEq] at hres
        subst hres
        obtain ⟨q, _, rfl⟩ := List.mem_map.1 hr
        simp only [getNode, hc, List.getElem?_cons_zero] at hnode
        exact ((wellFormedBelow_iff node).1
          (wellFormedBelow_getNode q c node (hwf.2 c (by simp [hc])) hnode)).1
    · rename_i h1 h2
      exfalso
      cases hc : obj.Content with
      | nil => exact h1 hd hc
      | cons c t => exact h2 c t hd hc
  · rw [WellFormed_of_not_document obj hd] at hwf
    exact ((wellFormedBelow_iff node).1 (wellFormedBelow_getNode r obj node hwf hnode)).1

theorem wellFormedBelow_strScalar (value : String) :
    wellFormedBelow (strScalar value) = true := by
  simp [strScalar, wellFormedBelow, wellFormedAll]

theorem selectChildren_scalar (s : String) (n : Node) (h : n.Kind = .ScalarNode) :
    selectChildren s n = none := by
  simp [selectChildren, h]

theorem parents_not_scalar (obj : Node) (path : String) (rs : List Ref)
    (hzero : FindMatches obj path = .ok []) (hpar : getParents obj path = .ok rs)
    (r : Ref) (hr : r ∈ rs) (node : Node) (hnode : getNode obj r = some node) :
    node.Kind ≠ .ScalarNode := by
  by_cases hp : path = ""
  · subst hp
    have h0 : getParentPath "" = "" := by decide
    simp only [getParents, h0, hzero, Except.ok.injEq] at hpar
    subst hpar
    simp at hr
  · obtain ⟨hgood, hres⟩ := FindMatches_ok_good obj path [] hzero
    rw [pathSegments_of_ne path hp] at hgood hres
    rcases List.eq_nil_or_concat (segments path) with hnil | ⟨init, s, hseg⟩
    · exact absurd hnil (segments_ne_nil path)
    · rw [List.concat_eq_append] at hseg
      rw [hseg] at hgood hres
      have hpp := getParentPath_of_segments path init s hseg
      have hginit : GoodSegments init := fun x hx => hgood x (by simp [hx])
      simp only [getParents, hpp, FindMatches_joinPath obj init hginit] at hpar
      cases hri : resolveRoot init obj with
      | none => simp [hri] at hpar
      | some rs2 =>
        simp only [hri, Except.ok.injEq] at hpar
        subst hpar
        rw [resolveRoot_append, hri, Option.some_bind] at hres
        obtain ⟨xs, hxs, _⟩ := extendRefs_contrib [s] obj rs2 [] hres r hr
        simp only [hnode, resolve_singleton] at hxs
        intro hk
        simp [selectChildren_scalar s node hk] at hxs

theorem rangeMatches_wellFormed (body : Node → Ref → Step) (K : Kind → Prop)
    (hbody : ∀ T m node, WellFormed T = true → getNode T m = some node → K node.Kind →
      (∃ e, body T m = .ret e T) ∨ body T m = .next T id ∨
      (∃ extra, body T m = .next (setContent T m (node.Content ++ extra)) id ∧
        WellFormed (setContent T m (node.Content ++ extra)) = true)) :
    ∀ (ms : List Ref) (T : Node), WellFormed T = true →
      (∀ m ∈ ms, ∃ node, getNode T m = some node ∧ K node.Kind) →
      WellFormed (rangeMatches body id T ms).tree = true := by
  intro ms
  induction ms with
  | nil =>
    intro T hT _
    exact hT
  | cons m ms ih =>
    intro T hT hQ
    obtain ⟨node, hnode, hK⟩ := hQ m (by simp)
    simp only [rangeMatches, id_eq]
    rcases hbody T m node hT hnode hK with ⟨e, h⟩ | h | ⟨extra, h, hwf2⟩
    · simp only [h]
      exact hT
    · simp only [h, Function.comp_id]
      exact ih T hT (fun x hx => hQ x (by simp [hx]))
    · simp only [h, Function.comp_id]
      apply ih _ hwf2
      intro x hx
      obtain ⟨nx, hnx, hKx⟩ := hQ x (by simp [hx])
      obtain ⟨nx2, h1, h2⟩ := getNode_setContent_append extra m T node x nx hnode hnx
      exact ⟨nx2, h1, by rw [h2]; exact hKx⟩

theorem createPathSplice_wellFormed (childName : String) (v : Node)
    (hv : wellFormedBelow v = true) (T : Node) (m : Ref) (node : Node)
    (hT : WellFormed T = true) (hnode : getNode T m = some node)
    (hK : node.Kind = .SequenceNode ∨ node.Kind = .MappingNode) :
    (∃ e, createPathSplice childName v T m = .ret e T) ∨
      createPathSplice childName v T m = .next T id ∨
      (∃ extra, createPathSplice childName v T m =
          .next (setContent T m (node.Content ++ extra)) id ∧
        WellFormed (setContent T m (node.Content ++ extra)) = true) := by
  refine Or.inr (Or.inr ?_)
  rcases hK with hK | hK
  · refine ⟨[v], by simp only [createPathSplice, hnode, hK], ?_⟩
    exact WellFormed_append T m node [v] hT hnode (by simp [hK]) (by simp [hK])
      (by simpa using hv)
  · refine ⟨[strScalar childName, v], by simp only [createPathSplice, hnode, hK], ?_⟩
    exact WellFormed_append T m node _ hT hnode (by simp [hK])
      (fun _ => by simp [scalarKeys, strScalar])
      (by
        intro c hc
        simp only [List.mem_cons, List.mem_singleton, List.not_mem_nil, or_false] at hc
        rcases hc with h | h
        · rw [h]
          exact wellFormedBelow_strScalar childName
        · rw [h]
          exact hv)

theorem createPathAux_wellFormed (obj : Node) (hwf : WellFormed obj = true) :
    ∀ (fuel : Nat) (path : String) (value : Node),
      (∀ v, (if value.Kind = .DocumentNode then value.Content.head? else some value) = some v →
        wellFormedBelow v = true) →
      FindMatches obj path = .ok [] →
      WellFormed (createPathAux fuel obj path value).tree = true := by
  intro fuel
  induction fuel with
  | zero =>
    intro path value _ _
    exact hwf
  | succ f ih =>
    intro path value hvalue hzero
    simp only [createPathAux]
    cases hu : (if value.Kind = .DocumentNode then value.Content.head? else some value) with
    | none => exact hwf
    | some v =>
      have hv := hvalue v hu
      simp only []
      cases hpar : getParents obj path with
      | error e => exact hwf
      | ok ms =>
        cases ms with
        | nil =>
          simp only []
          split
          · exact hwf
          · apply ih
            · intro w hw
              split at hw
              · simp only [createSequenceNode, sequenceOf, reduceCtorEq, if_false,
                  Option.some.injEq] at hw
                subst hw
                rw [wellFormedBelow_iff]
                simp [hv]
              · simp only [createMappingNode, mappingOf, reduceCtorEq, if_false,
                  Option.some.injEq] at hw
                subst hw
                rw [wellFormedBelow_iff]
                simp only [List.mem_cons, List.mem_singleton, List.not_mem_nil, or_false,
                  forall_eq_or_imp, forall_eq, hv, and_true, ne_eq, reduceCtorEq,
                  not_false_eq_true, true_and, forall_const, scalarKeys, strScalar,
                  decide_True, Bool.and_self]
                exact wellFormedBelow_strScalar (getChildName path)
            · exact hpar
        | cons m ms =>
          simp only []
          apply rangeMatches_wellFormed _
            (fun k => k = .SequenceNode ∨ k = .MappingNode)
            (fun T x node hT hnode hK =>
              createPathSplice_wellFormed (getChildName path) v hv T x node hT hnode hK)
            (m :: ms) obj hwf
          intro r hr
          obtain ⟨node, hnode⟩ := FindMatches_valid obj _ _ hpar r hr
          have h1 := FindMatches_not_document obj _ _ hwf hpar r hr node hnode
          have h2 := parents_not_scalar obj path _ hzero hpar r hr node hnode
          refine ⟨node, hnode, ?_⟩
          cases hk : node.Kind <;> simp_all

/-! ## Claims about `Add` and structural well-formedness -/

/-- C13, as stated, fails: adding the value `"9"` at the path `a` of the well-formed
document `{a: "1"}`, where the match is the Scalar `"1"`, succeeds and leaves a Mapping
with three children, the last of them a Document. -/
theorem Add_wellFormed_counterexample :
    WellFormed sampleTarget = true ∧ wellFormedBelow plainPatch.Value = true ∧
    Add sampleTarget plainPatch =
      ⟨none, documentOf [mappingOf [strScalar "a", strScalar "1",
        documentOf [strScalar "9"]]]⟩ ∧
    WellFormed (Add sampleTarget plainPatch).tree = false := by
  decide

/-- C13, amended: `Add` preserves structural well-formedness when no match is a Scalar.
For a well-formed tree and a well-formed value, if no match of the path is a Scalar and,
when a match is a Mapping, the root of the value is a Mapping or has no children, the tree
after `Add` is well-formed, whether the path had matches or was synthesised. -/
theorem Add_preserves_wellFormed (obj : Node) (patch : Patch) (matched : List Ref)
    (hwf : WellFormed obj = true) (hvalue : wellFormedBelow patch.Value = true)
    (hm : FindMatches obj patch.Path = .ok matched)
    (hscalar : ∀ m ∈ matched, ∀ node, getNode obj m = some node → node.Kind ≠ .ScalarNode)
    (hmapping : ∀ m ∈ matched, ∀ node, getNode obj m = some node →
      node.Kind = .MappingNode →
      patch.Value.Kind = .MappingNode ∨ patch.Value.Content = []) :
    WellFormed (Add obj patch).tree = true := by
  obtain ⟨hv1, hv2, hv3⟩ := (wellFormedBelow_iff patch.Value).1 hvalue
  simp only [Add, hm, NewNode]
  split
  · rename_i hlen
    have hnil : matched = [] := List.length_eq_zero.1 hlen
    subst hnil
    cases ValidateAllConditions obj none patch.Conditions with
    | error e => exact hwf
    | ok b =>
      cases b with
      | false => exact hwf
      | true =>
        simp only [createPath]
        apply createPathAux_wellFormed obj hwf _ _ _ _ hm
        intro v hv
        simp only [if_true, List.head?_cons, Option.some.injEq] at hv
        rw [← hv]
        exact hvalue
  · apply rangeMatches_wellFormed _
      (fun k => k = .SequenceNode ∨
        (k = .MappingNode ∧ (patch.Value.Kind = .MappingNode ∨ patch.Value.Content = [])))
      _ matched obj hwf
    · intro m hmem
      obtain ⟨node, hnode⟩ := FindMatches_valid obj _ _ hm m hmem
      have h1 := FindMatches_not_document obj _ _ hwf hm m hmem node hnode
      have h2 := hscalar m hmem node hnode
      have h3 := hmapping m hmem node hnode
      refine ⟨node, hnode, ?_⟩
      cases hk : node.Kind <;> simp_all
    · intro T m node hT hnode hK
      cases ValidateAllConditions T (some m) patch.Conditions with
      | error e => exact Or.inl ⟨_, rfl⟩
      | ok b =>
        cases b with
        | false => exact Or.inr (Or.inl rfl)
        | true =>
          refine Or.inr (Or.inr ?_)
          rcases hK with hK | ⟨hK, hcompat⟩
          · refine ⟨[patch.Value], by simp only [AddNode, hnode, hK], ?_⟩
            exact WellFormed_append T m node _ hT hnode (by simp [hK]) (by simp [hK])
              (by simpa using hvalue)
          · refine ⟨patch.Value.Content, by simp only [AddNode, hnode, hK], ?_⟩
            apply WellFormed_append T m node _ hT hnode (by simp [hK]) _ hv3
            intro _
            rcases hcompat with h | h
            · exact hv2 h
            · rw [h]
              rfl

/-- The amended C13 on two inputs: adding `{b: "2"}` to the Mapping at the path `spec` of
`{spec: {a: "1"}}`, and adding `"nginx"` at the missing path `spec.containers.0.name` of
`{spec: {}}`. -/
theorem Add_preserves_wellFormed_witness :
    WellFormed (Add
      (documentOf [mappingOf [strScalar "spec", mappingOf [strScalar "a", strScalar "1"]]])
      ⟨"spec", "", mappingOf [strScalar "b", strScalar "2"], ⟨""⟩, []⟩).tree = true ∧
    WellFormed (Add (documentOf [mappingOf [strScalar "spec", mappingOf []]])
      ⟨"spec.containers.0.name", "", strScalar "nginx", ⟨""⟩, []⟩).tree = true :=
  ⟨Add_preserves_wellFormed
      (documentOf [mappingOf [strScalar "spec", mappingOf [strScalar "a", strScalar "1"]]])
      ⟨"spec", "", mappingOf [strScalar "b", strScalar "2"], ⟨""⟩, []⟩ [[0, 1]]
      (by decide) (by decide) (by decide)
      (fun m hmem node hnode => by
        simp only [List.mem_singleton] at hmem
        subst hmem
        have h : getNode
            (documentOf [mappingOf [strScalar "spec",
              mappingOf [strScalar "a", strScalar "1"]]]) [0, 1] =
            some (mappingOf [strScalar "a", strScalar "1"]) := by decide
        rw [h] at hnode
        cases hnode
        decide)
      (fun _ _ _ _ _ => Or.inl rfl),
    Add_preserves_wellFormed (documentOf [mappingOf [strScalar "spec", mappingOf []]])
      ⟨"spec.containers.0.name", "", strScalar "nginx", ⟨""⟩, []⟩ []
      (by decide) (by decide) (by decide)
      (fun m hmem => by simp at hmem) (fun m hmem => by simp at hmem)⟩

/-! ## Claims about `Replace` applied twice -/

theorem keyLess_trans (a : List Char) : ∀ (b c : List Char), keyLess a b = true →
    keyLess b c = true → keyLess a c = true := by
  induction a with
  | nil =>
    intro b c h1 h2
    cases b with
    | nil => simp [keyLess] at h1
    | cons y b =>
      cases c with
      | nil => simp [keyLess] at h2
      | cons z c => simp [keyLess]
  | cons x a ih =>
    intro b c h1 h2
    cases b with
    | nil => simp [keyLess] at h1
    | cons y b =>
      cases c with
      | nil => simp [keyLess] at h2
      | cons z c =>
        simp only [keyLess, Bool.or_eq_true, Bool.and_eq_true, decide_eq_true_eq] at h1 h2 ⊢
        rcases h1 with h1 | ⟨h1, h1r⟩
        · rcases h2 with h2 | ⟨h2, _⟩
          · exact Or.inl (by omega)
          · exact Or.inl (by omega)
        · rcases h2 with h2 | ⟨h2, h2r⟩
          · exact Or.inl (by omega)
          · exact Or.inr ⟨by omega, ih b c h1r h2r⟩

theorem keyLess_total (a : List Char) : ∀ (b : List Char), keyLess a b = false → a ≠ b →
    keyLess b a = true := by
  induction a with
  | nil =>
    intro b h1 h2
    cases b with
    | nil => exact absurd rfl h2
    | cons y b => simp [keyLess] at h1
  | cons x a ih =>
    intro b h1 h2
    cases b with
    | nil => simp [keyLess]
    | cons y b =>
      simp only [keyLess, Bool.or_eq_false_iff, decide_eq_false_iff_not] at h1
      simp only [keyLess, Bool.or_eq_true, Bool.and_eq_true, decide_eq_true_eq]
      by_cases hxy : x.toNat = y.toNat
      · have hc : x = y := by
          rw [← Char.ofNat_toNat x, ← Char.ofNat_toNat y, hxy]
        subst hc
        refine Or.inr ⟨rfl, ih b ?_ ?_⟩
        · simpa using h1.2
        · intro hab
          exact h2 (by rw [hab])
      · exact Or.inl (by omega)

theorem setLabel_mem (key value : String) (labels : LabelMap) (e : String × String)
    (h : e ∈ setLabel key value labels) : e = (key, value) ∨ e ∈ labels := by
  induction labels with
  | nil => simpa [setLabel] using h
  | cons x rest ih =>
    obtain ⟨k, v⟩ := x
    simp only [setLabel] at h
    split at h
    · simp only [List.mem_cons] at h
      rcases h with h | h
      · exact Or.inl h
      · exact Or.inr (by simp [h])
    · split at h
      · simp only [List.mem_cons] at h
        rcases h with h | h | h
        · exact Or.inl h
        · exact Or.inr (by simp [h])
        · exact Or.inr (by simp [h])
      · simp only [List.mem_cons] at h
        rcases h with h | h
        · exact Or.inr (by simp [h])
        · rcases ih h with h2 | h2
          · exact Or.inl h2
          · exact Or.inr (by simp [h2])

theorem setLabel_sorted (key value : String) (labels : LabelMap)
    (h : labels.Pairwise (fun a b => keyLess a.1.data b.1.data = true)) :
    (setLabel key value labels).Pairwise (fun a b => keyLess a.1.data b.1.data = true) := by
  induction labels with
  | nil => simp [setLabel]
  | cons x rest ih =>
    obtain ⟨k, v⟩ := x
    rw [List.pairwise_cons] at h
    simp only [setLabel]
    split
    · rename_i hk
      subst hk
      exact List.Pairwise.cons (fun b hb => h.1 b hb) h.2
    · rename_i hk
      split
      · rename_i hlt
        refine List.Pairwise.cons ?_ (List.Pairwise.cons h.1 h.2)
        intro b hb
        simp only [List.mem_cons] at hb
        rcases hb with hb | hb
        · rw [hb]
          exact hlt
        · exact keyLess_trans _ _ _ hlt (h.1 b hb)
      · rename_i hlt
        have hkl : keyLess k.data key.data = true := by
          apply keyLess_total key.data k.data (by simpa using hlt)
          intro hd
          exact hk (String.ext hd)
        refine List.Pairwise.cons ?_ (ih h.2)
        intro b hb
        rcases setLabel_mem key value rest b hb with h2 | h2
        · rw [h2]
          exact hkl
        · exact h.1 b h2

theorem goMap_sorted (entries : LabelMap) :
    (goMap entries).Pairwise (fun a b => keyLess a.1.data b.1.data = true) := by
  have h : ∀ (es acc : LabelMap),
      acc.Pairwise (fun a b => keyLess a.1.data b.1.data = true) →
      (es.foldl (fun labels e => setLabel e.1 e.2 labels) acc).Pairwise
        (fun a b => keyLess a.1.data b.1.data = true) := by
    intro es
    induction es with
    | nil => exact fun _ h => h
    | cons e es ih => exact fun acc hacc => ih _ (setLabel_sorted e.1 e.2 acc hacc)
  exact h entries [] List.Pairwise.nil

theorem labelEntries_labelsNode (labels : LabelMap) :
    labelEntries (labelsNode labels).Content = labels := by
  simp only [labelsNode, mappingOf]
  induction labels with
  | nil => rfl
  | cons e rest ih =>
    rw [List.flatMap_cons]
    simp only [List.cons_append, List.nil_append, labelEntries, strScalar, List.append_eq]
    simp only [strScalar] at ih
    rw [ih]

/-! ## The serialised form of a flat label map -/

theorem splitLines_append (l : List Char) (hl : '\n' ∉ l) (rest : List Char) :
    splitLines (l ++ '\n' :: rest) = l :: splitLines rest := by
  induction l with
  | nil => simp [splitLines]
  | cons c l ih =>
    simp only [List.mem_cons, not_or] at hl
    have hc : c ≠ '\n' := fun h => hl.1 h.symm
    simp only [List.cons_append, splitLines, hc, if_false, List.append_eq, ih hl.2]

theorem splitEntry_entry (k : List Char) (hk : ':' ∉ k) (after : List Char) :
    splitEntry (k ++ ':' :: after) = some (k, after) := by
  induction k with
  | nil => simp [splitEntry]
  | cons c k ih =>
    simp only [List.mem_cons, not_or] at hk
    have hc : c ≠ ':' := fun h => hk.1 h.symm
    simp only [List.cons_append, splitEntry, hc, if_false, List.append_eq, ih hk.2,
      Option.map_some']

theorem isWordChar_plain (c : Char) (h : isWordChar c = true) :
    c ≠ ':' ∧ c ≠ '\n' ∧ c ≠ '"' := by
  refine ⟨?_, ?_, ?_⟩ <;>
  · rintro rfl
    exact absurd h (by decide)

theorem isWord_chars (s : List Char) (h : isWord s = true) : s.all isWordChar = true := by
  cases s with
  | nil => simp [isWord] at h
  | cons c cs =>
    simp only [isWord, Bool.and_eq_true] at h
    simp only [List.all_cons, Bool.and_eq_true]
    refine ⟨?_, h.2⟩
    simp only [isWordChar, Bool.or_eq_true]
    exact Or.inl (Or.inl (Or.inl (Or.inl h.1)))

theorem covered_chars (s : List Char) (h : isWord s = true ∨ s = []) :
    s.all isWordChar = true := by
  rcases h with h | h
  · exact isWord_chars s h
  · rw [h]
    rfl

theorem resolvedTag_of_null (s : List Char) (h : s ∈ nullWords) :
    resolvedTag s = "!!null" := by
  simp only [resolvedTag, h, or_true, if_true]

theorem not_mem_of_all_isWordChar (s : List Char) (h : s.all isWordChar = true) :
    ':' ∉ s ∧ '\n' ∉ s ∧ '"' ∉ s := by
  simp only [List.all_eq_true] at h
  exact ⟨fun hm => (isWordChar_plain _ (h _ hm)).1 rfl,
    fun hm => (isWordChar_plain _ (h _ hm)).2.1 rfl,
    fun hm => (isWordChar_plain _ (h _ hm)).2.2 rfl⟩

theorem readToken_quoted (s : List Char) (h : s.all isWordChar = true) :
    readToken ('"' :: s ++ ['"']) = some s := by
  have h1 : (s ++ ['"']).getLast? = some '"' := by simp
  have h2 : (s ++ ['"']).dropLast = s := by simp
  simp only [readToken, List.cons_append, h1, h2, h, and_self, if_true]

theorem readToken_word (s : List Char) (h : isWord s = true) (hn : s ∉ nullWords) :
    readToken s = some s := by
  cases s with
  | nil => simp [isWord] at h
  | cons c cs =>
    have hq : c ≠ '"' := by
      rintro rfl
      simp only [isWord, Bool.and_eq_true] at h
      exact absurd h.1 (by decide)
    unfold readToken
    split
    · rename_i heq
      cases heq
    · rename_i heq
      simp only [List.cons.injEq] at heq
      exact absurd heq.1 hq
    · rename_i c2 rest hne heq
      simp only [List.cons.injEq] at heq
      obtain ⟨h1, h2⟩ := heq
      subst h1
      subst h2
      simp only [hn, if_false, h, if_true]

/-- The text that `yaml.Marshal` writes for a string that is empty or covered is not empty,
holds no colon and no line feed, does not read as null, and is read back as the string. -/
theorem scalarToken_string (s : List Char) (h : isWord s = true ∨ s = []) :
    ∃ t, scalarToken "!!str" s = some t ∧ t ≠ [] ∧ ':' ∉ t ∧ '\n' ∉ t ∧ t ∉ nullWords ∧
      readToken t = some s := by
  have hall := covered_chars s h
  obtain ⟨h1, h2, _⟩ := not_mem_of_all_isWordChar s hall
  have hdom : s = [] ∨ s ∈ nullWords ∨ isWord s = true := by
    rcases h with h | h
    · exact Or.inr (Or.inr h)
    · exact Or.inl h
  have hstr : ¬ (("!!str" : String) = "") := by decide
  by_cases hq : resolvedTag s = "!!str"
  · have hne : s ≠ [] := by
      rintro rfl
      exact absurd hq (by decide)
    have hw : isWord s = true := by
      rcases h with h | h
      · exact h
      · exact absurd h hne
    have hnull : s ∉ nullWords := by
      intro hm
      rw [resolvedTag_of_null s hm] at hq
      exact absurd hq (by decide)
    refine ⟨s, ?_, hne, h1, h2, hnull, readToken_word s hw hnull⟩
    simp only [scalarToken, if_true, hdom, hq, or_true]
  · refine ⟨'"' :: s ++ ['"'], ?_, by simp, ?_, ?_, ?_, readToken_quoted s hall⟩
    · simp only [scalarToken, if_true, hdom, hq, hstr, or_self, if_false, hall, and_self]
    · simp only [List.cons_append, List.mem_cons, List.mem_append, List.mem_singleton, not_or]
      exact ⟨by decide, h1, by decide⟩
    · simp only [List.cons_append, List.mem_cons, List.mem_append, List.mem_singleton, not_or]
      exact ⟨by decide, h2, by decide⟩
    · simp [nullWords]

theorem flatStrings_lines (m : Nat) : ∀ (content : List Node), content.length = m →
    flatStrings content = true →
    ∃ text, renderTop content = some text ∧
      (splitLines text).filter (fun l => !l.isEmpty) =
        (labelEntries content).map (fun e =>
          ((scalarToken "!!str" e.1.data).getD []) ++ ':' :: ' ' ::
            ((scalarToken "!!str" e.2.data).getD [])) := by
  induction m using Nat.strong_induction_on with
  | _ m ih =>
    intro content hl hp
    match content, hl, hp with
    | [], _, _ => exact ⟨[], rfl, rfl⟩
    | [_], _, hp => simp [flatStrings] at hp
    | k :: v :: rest, hl, hp =>
      simp only [List.length_cons] at hl
      simp only [flatStrings, Bool.and_eq_true, decide_eq_true_eq, Bool.or_eq_true] at hp
      obtain ⟨⟨⟨⟨⟨⟨⟨hkk, hkt⟩, hkf⟩, hkl⟩, hvk⟩, hvt⟩, hvf⟩, hrest⟩ := hp
      obtain ⟨text, htext, hlines⟩ := ih rest.length (by omega) rest rfl hrest
      obtain ⟨kt, hkt1, hkt2, hkt3, hkt4, _⟩ := scalarToken_string k.Value.data (Or.inl hkf)
      obtain ⟨vt, hvt1, hvt2, hvt3, hvt4, _⟩ := scalarToken_string v.Value.data hvf
      have hline : '\n' ∉ kt ++ ':' :: ' ' :: vt := by
        simp only [List.mem_append, List.mem_cons, not_or]
        exact ⟨hkt4, by decide, by decide, hvt4⟩
      refine ⟨(kt ++ ':' :: ' ' :: vt) ++ '\n' :: text, ?_, ?_⟩
      · simp only [renderTop, hvk, entryLine, hkk, hkl, and_self, if_true, hkt, hvt, hkt1,
          hvt1, hkt2, hvt2, if_false, htext, List.nil_append, List.append_assoc,
          List.cons_append, List.singleton_append]
      · rw [splitLines_append _ hline, List.filter_cons]
        have hne : (!(kt ++ ':' :: ' ' :: vt).isEmpty) = true := by
          cases kt <;> rfl
        rw [if_pos hne, hlines]
        simp only [labelEntries, List.map_cons, hkt1, hvt1, Option.getD_some]

theorem flatStrings_covered (m : Nat) : ∀ (content : List Node), content.length = m →
    flatStrings content = true → ∀ e ∈ labelEntries content,
      (isWord e.1.data = true ∨ e.1.data = []) ∧
      (isWord e.2.data = true ∨ e.2.data = []) := by
  induction m using Nat.strong_induction_on with
  | _ m ih =>
    intro content hl hp
    match content, hl, hp with
    | [], _, _ => simp [labelEntries]
    | [_], _, _ => simp [labelEntries]
    | k :: v :: rest, hl, hp =>
      simp only [List.length_cons] at hl
      simp only [flatStrings, Bool.and_eq_true, decide_eq_true_eq, Bool.or_eq_true] at hp
      obtain ⟨⟨⟨⟨⟨⟨⟨_, _⟩, hkf⟩, _⟩, _⟩, _⟩, hvf⟩, hrest⟩ := hp
      intro e he
      simp only [labelEntries, List.mem_cons] at he
      rcases he with h | h
      · rw [h]
        exact ⟨Or.inl hkf, hvf⟩
      · exact ih rest.length (by omega) rest rfl hrest e h

theorem setLabel_keys (key value : String) (labels : LabelMap) (x : String) :
    x ∈ (setLabel key value labels).map Prod.fst ↔ x = key ∨ x ∈ labels.map Prod.fst := by
  induction labels with
  | nil => simp [setLabel]
  | cons e rest ih =>
    obtain ⟨k, v⟩ := e
    simp only [setLabel]
    split
    · rename_i hk
      subst hk
      simp
    · split
      · simp
      · simp only [List.map_cons, List.mem_cons, ih]
        constructor
        · rintro (h | h | h)
          · exact Or.inr (Or.inl h)
          · exact Or.inl h
          · exact Or.inr (Or.inr h)
        · rintro (h | h | h)
          · exact Or.inr (Or.inl h)
          · exact Or.inl h
          · exact Or.inr (Or.inr h)

theorem decodeLabels_entries (entries : LabelMap) : ∀ (labels : LabelMap),
    (∀ e ∈ entries,
      (isWord e.1.data = true ∨ e.1.data = []) ∧
      (isWord e.2.data = true ∨ e.2.data = [])) →
    (entries.map Prod.fst).Nodup →
    (∀ e ∈ entries, e.1 ∉ labels.map Prod.fst) →
    decodeLabels (entries.map (fun e =>
        ((scalarToken "!!str" e.1.data).getD []) ++ ':' :: ' ' ::
          ((scalarToken "!!str" e.2.data).getD []))) labels =
      .ok (entries.foldl (fun acc e => setLabel e.1 e.2 acc) labels) := by
  induction entries with
  | nil => intro labels _ _ _; rfl
  | cons e rest ih =>
    intro labels hcov hnodup hfresh
    simp only [List.map_cons, List.nodup_cons] at hnodup
    have hk : (labels.map Prod.fst).contains e.1 = false := by
      simpa using hfresh e (by simp)
    obtain ⟨kt, hkt1, hkt2, hkt3, _, hkt4, hkt5⟩ :=
      scalarToken_string e.1.data (hcov e (by simp)).1
    obtain ⟨vt, hvt1, hvt2, _, _, _, hvt5⟩ := scalarToken_string e.2.data (hcov e (by simp)).2
    simp only [List.map_cons, decodeLabels, hkt1, hvt1, Option.getD_some,
      splitEntry_entry kt hkt3, hkt2, hkt4, or_self, hkt5, hvt2, if_false, hvt5, hk,
      List.foldl_cons]
    simp only [Bool.false_eq_true, if_false]
    apply ih
    · exact fun x hx => hcov x (by simp [hx])
    · exact hnodup.2
    · intro x hx hmem
      rcases (setLabel_keys e.1 e.2 labels x.1).1 hmem with h | h
      · exact hnodup.1 (by rw [← h]; exact List.mem_map_of_mem _ hx)
      · exact hfresh x (by simp [hx]) h

/-- The round trip of lines 214-224 on a flat map of strings: `yaml.Marshal` writes the
mapping and the strict decoding reads the text as the Go map of its entries. -/
theorem flatYaml_decodes (node : Node) (hk : node.Kind = .MappingNode)
    (htag : node.Tag = "!!map" ∨ node.Tag = "")
    (hflat : flatStrings node.Content = true)
    (hkeys : ((labelEntries node.Content).map Prod.fst).Nodup) :
    ∃ text, flatYaml.Marshal node = .ok text ∧
      flatYaml.UnmarshalStrictLabels text = .ok (goMap (labelEntries node.Content)) := by
  by_cases hlen : node.Content.length < 2
  · have hc : node.Content = [] := by
      match hcc : node.Content, hlen, hflat with
      | [], _, _ => rfl
      | [_], _, hf => simp [hcc, flatStrings] at hf
      | _ :: _ :: _, hl, _ =>
        simp only [List.length_cons] at hl
        omega
    refine ⟨String.mk ['\x7b', '\x7d', '\n'], ?_, ?_⟩
    · simp only [flatYaml, marshalNode, hk, htag, and_self, if_true, hlen]
    · simp only [flatYaml, if_true, hc, labelEntries, goMap, List.foldl_nil]
  · obtain ⟨text, htext, hlines⟩ := flatStrings_lines _ node.Content rfl hflat
    refine ⟨String.mk text, ?_, ?_⟩
    · simp only [flatYaml, marshalNode, hk, htag, and_self, if_true, hlen, if_false, htext]
    · have hne : text ≠ ['\x7b', '\x7d', '\n'] := by
        intro h0
        rw [h0] at hlines
        match hcc : node.Content, hlen with
        | [], hl => simp [hcc] at hl
        | [_], hl => simp [hcc] at hl
        | k :: v :: rest, _ =>
          rw [hcc] at hlines hflat
          obtain ⟨hcov, _⟩ := flatStrings_covered _ _ rfl hflat (k.Value, v.Value)
            (by simp [labelEntries])
          obtain ⟨kt, hkt1, _, hkt3, _, _, _⟩ := scalarToken_string k.Value.data hcov
          simp only [labelEntries, List.map_cons, hkt1, Option.getD_some] at hlines
          have hl : splitLines ['\x7b', '\x7d', '\n'] = [['\x7b', '\x7d']] := by decide
          rw [hl] at hlines
          simp only [List.filter_cons, List.isEmpty_cons, Bool.not_false, if_true,
            List.filter_nil, List.cons.injEq] at hlines
          have hmem : ':' ∈ kt ++ ':' :: ' ' :: (scalarToken "!!str" v.Value.data).getD [] := by
            simp
          rw [← hlines.1] at hmem
          exact absurd hmem (by decide)
      simp only [flatYaml, hne, if_false, hlines]
      exact decodeLabels_entries (labelEntries node.Content) []
        (flatStrings_covered _ node.Content rfl hflat) hkeys (by simp)

/-! ## The order of the keys of an encoded label map -/

theorem Char.isAlpha_range (c : Char) (h : c.isAlpha = true) :
    65 ≤ c.toNat ∧ c.isDigit = false := by
  simp only [Char.isAlpha, Char.isUpper, Char.isLower, Bool.or_eq_true, Bool.and_eq_true,
    decide_eq_true_eq, ge_iff_le, UInt32.le_def, BitVec.le_def] at h
  simp only [Char.isDigit, Char.toNat, ge_iff_le, UInt32.le_def, BitVec.le_def,
    Bool.and_eq_false_iff, decide_eq_false_iff_not]
  have hn : c.val.toNat = c.val.toBitVec.toNat := rfl
  have e1 : (UInt32.toBitVec 65).toNat = 65 := rfl
  have e2 : (UInt32.toBitVec 90).toNat = 90 := rfl
  have e3 : (UInt32.toBitVec 97).toNat = 97 := rfl
  have e4 : (UInt32.toBitVec 122).toNat = 122 := rfl
  have e5 : (UInt32.toBitVec 48).toNat = 48 := rfl
  have e6 : (UInt32.toBitVec 57).toNat = 57 := rfl
  rw [hn, e5, e6]
  rw [e1, e2, e3, e4] at h
  omega

theorem simpleChar_cases (c : Char)
    (h : (c.isAlpha || c = '-' || c = '.' || c = '/') = true) :
    (c.isAlpha = true ∧ c.isDigit = false ∧ 65 ≤ c.toNat) ∨
      (c.isAlpha = false ∧ c.isDigit = false ∧ c.toNat ≤ 47 ∧
        (c = '-' ∨ c = '.' ∨ c = '/')) := by
  by_cases ha : c.isAlpha = true
  · exact Or.inl ⟨ha, (Char.isAlpha_range c ha).2, (Char.isAlpha_range c ha).1⟩
  · have ha2 : c.isAlpha = false := by simpa using ha
    simp only [ha2, Bool.false_or, Bool.or_eq_true, decide_eq_true_eq] at h
    right
    rcases h with (h | h) | h <;> subst h <;> decide

theorem naturalLessFrom_simple (a : List Char) : ∀ (b before : List Char),
    isSimpleKey a = true → isSimpleKey b = true → isSimpleKey before = true →
    naturalLessFrom before a b = keyLess a b := by
  induction a with
  | nil =>
    intro b before _ _ _
    cases b <;> rfl
  | cons x a ih =>
    intro b before ha hb hbefore
    cases b with
    | nil => rfl
    | cons y b =>
      simp only [isSimpleKey, List.all_cons, Bool.and_eq_true] at ha hb
      by_cases hxy : x = y
      · subst hxy
        have hb2 : isSimpleKey (x :: before) = true := by
          simp only [isSimpleKey, List.all_cons, Bool.and_eq_true]
          exact ⟨ha.1, hbefore⟩
        simp only [naturalLessFrom, if_true, keyLess, lt_self_iff_false, decide_False,
          decide_True, Bool.true_and, Bool.false_or]
        exact ih b (x :: before) ha.2 hb.2 hb2
      · have hne : x.toNat ≠ y.toNat := by
          intro h
          apply hxy
          rw [← Char.ofNat_toNat x, ← Char.ofNat_toNat y, h]
        have hdig : ¬ (before.head?.map Char.isDigit) = some true := by
          cases before with
          | nil => simp
          | cons c t =>
            simp only [isSimpleKey, List.all_cons, Bool.and_eq_true] at hbefore
            rcases simpleChar_cases c hbefore.1 with h | h
            · simp [h.2.1]
            · simp [h.2.1]
        have hk : keyLess (x :: a) (y :: b) = decide (x.toNat < y.toNat) := by
          simp only [keyLess, hne, decide_False, Bool.false_and, Bool.or_false]
        rw [hk]
        rcases simpleChar_cases x ha.1 with hx | hx
        · rcases simpleChar_cases y hb.1 with hy | hy
          · simp only [naturalLessFrom, hxy, if_false, hx.1, hy.1, Bool.and_self, if_true]
          · simp only [naturalLessFrom, hxy, if_false, hx.1, hy.1, Bool.and_false,
              Bool.or_false, if_true, hdig, Bool.false_eq_true]
            symm
            simp only [decide_eq_false_iff_not]
            omega
        · rcases simpleChar_cases y hb.1 with hy | hy
          · simp only [naturalLessFrom, hxy, if_false, hx.1, hy.1, Bool.and_true,
              Bool.false_and, Bool.or_true, Bool.false_or, if_true, hdig, Bool.false_eq_true]
            symm
            simp only [decide_eq_true_eq]
            omega
          · have hx0 : x ≠ '0' := by
              rintro rfl
              exact absurd hx.2.1 (by decide)
            have hy0 : y ≠ '0' := by
              rintro rfl
              exact absurd hy.2.1 (by decide)
            simp only [naturalLessFrom, hxy, if_false, hx.1, hy.1, Bool.and_self,
              Bool.or_self, Bool.false_eq_true, hx0, hy0, or_self, false_and, digitRun,
              hx.2.1, hy.2.1, ne_eq, not_true_eq_false]

theorem listKeys_simple (labels : LabelMap)
    (hsorted : labels.Pairwise (fun a b => keyLess a.1.data b.1.data = true))
    (hsimple : ∀ e ∈ labels, isSimpleKey e.1.data = true) : listKeys labels = labels := by
  induction labels with
  | nil => rfl
  | cons x rest ih =>
    rw [List.pairwise_cons] at hsorted
    have h1 : listKeys (x :: rest) = insertEntry x (listKeys rest) := rfl
    rw [h1, ih hsorted.2 (fun e he => hsimple e (by simp [he]))]
    cases rest with
    | nil => rfl
    | cons y r =>
      have h2 := naturalLessFrom_simple x.1.data y.1.data [] (hsimple x (by simp))
        (hsimple y (by simp)) rfl
      simp only [insertEntry, h2, hsorted.1 y (by simp), if_true]

theorem insertEntry_perm (e : String × String) (labels : LabelMap) :
    (insertEntry e labels).Perm (e :: labels) := by
  induction labels with
  | nil => exact List.Perm.refl _
  | cons x rest ih =>
    simp only [insertEntry]
    split
    · exact List.Perm.refl _
    · exact (List.Perm.cons x ih).trans (List.Perm.swap e x rest)

theorem listKeys_perm (labels : LabelMap) : (listKeys labels).Perm labels := by
  induction labels with
  | nil => exact List.Perm.refl _
  | cons x rest ih =>
    have h1 : listKeys (x :: rest) = insertEntry x (listKeys rest) := rfl
    rw [h1]
    exact (insertEntry_perm x _).trans (List.Perm.cons x ih)

theorem goMap_mem (entries : LabelMap) (e : String × String) (h : e ∈ goMap entries) :
    e ∈ entries := by
  have hgen : ∀ (es acc : LabelMap),
      e ∈ es.foldl (fun labels x => setLabel x.1 x.2 labels) acc → e ∈ es ∨ e ∈ acc := by
    intro es
    induction es with
    | nil => exact fun _ h => Or.inr h
    | cons x es ih =>
      intro acc h
      rcases ih _ h with h1 | h1
      · exact Or.inl (by simp [h1])
      · rcases setLabel_mem x.1 x.2 acc e h1 with h2 | h2
        · exact Or.inl (by simp [h2])
        · exact Or.inr h2
  rcases hgen entries [] h with h1 | h1
  · exact h1
  · simp at h1

/-! ## Claims about `RewriteLabelSelector` -/

/-- Whatever the serialisation library is, the node that `RewriteLabelSelector` puts in the
place of a match depends on the match only through the Go map that the text of the match
is decoded to (line 220): two single matches whose texts decode to the same map are
replaced by the same node when the verb returns no error, whatever order their entries
had. -/
theorem RewriteLabelSelector_same_labels (yamlLib : Serializer) (patch : Patch)
    (resolver : NameResolver) (obj1 obj2 : Node) (m1 m2 : Ref) (n1 n2 : Node)
    (text1 text2 : String) (labels : LabelMap)
    (hm1 : FindMatches obj1 patch.Path = .ok [m1]) (hm2 : FindMatches obj2 patch.Path = .ok [m2])
    (hn1 : getNode obj1 m1 = some n1) (hn2 : getNode obj2 m2 = some n2)
    (hk1 : n1.Kind = .MappingNode) (hk2 : n2.Kind = .MappingNode)
    (hc1 : ValidateAllConditions obj1 (some m1) patch.Conditions = .ok true)
    (hc2 : ValidateAllConditions obj2 (some m2) patch.Conditions = .ok true)
    (ht1 : yamlLib.Marshal n1 = .ok text1) (ht2 : yamlLib.Marshal n2 = .ok text2)
    (hd1 : yamlLib.UnmarshalStrictLabels text1 = .ok labels)
    (hd2 : yamlLib.UnmarshalStrictLabels text2 = .ok labels)
    (he1 : (RewriteLabelSelector yamlLib obj1 patch resolver).err = none) :
    (RewriteLabelSelector yamlLib obj2 patch resolver).err = none ∧
    getNode (RewriteLabelSelector yamlLib obj1 patch resolver).tree m1 =
      getNode (RewriteLabelSelector yamlLib obj2 patch resolver).tree m2 := by
  simp only [RewriteLabelSelector, hm1, hm2, rangeMatches, id_eq, hn1, hn2, hk1, hk2, if_true,
    hc1, hc2, ht1, ht2, hd1, hd2] at he1 ⊢
  cases htr : resolver.TranslateLabelSelector labels with
  | error e => simp [htr] at he1
  | ok translated =>
    simp only [htr] at he1 ⊢
    cases hnew : yamlLib.NewNodeLabels translated with
    | error e => simp [hnew] at he1
    | ok newNode =>
      simp only [ReplaceNode, getNode_modifyAt, hn1, hn2, Option.map_some', and_self]

/-- C14, as stated, fails: the keys do not keep the order of the original match. Line 220
decodes the match into a Go map, which has no order, and `NewNode` builds the new mapping
from the translated map alone. With the path `sel` and a resolver that changes nothing,
the match `{tier: "web", app: "foo"}` comes back as `{app: "foo", tier: "web"}`, and so
does the match `{app: "foo", tier: "web"}`: the texts of the two matches decode to the same
Go map, so no encoder could give each of them its own order back. -/
theorem RewriteLabelSelector_order_counterexample :
    getNode (documentOf [mappingOf [strScalar "sel",
        mappingOf [strScalar "tier", strScalar "web", strScalar "app", strScalar "foo"]]])
        [0, 1] =
      some (mappingOf [strScalar "tier", strScalar "web", strScalar "app", strScalar "foo"]) ∧
    RewriteLabelSelector flatYaml
        (documentOf [mappingOf [strScalar "sel",
          mappingOf [strScalar "tier", strScalar "web", strScalar "app", strScalar "foo"]]])
        ⟨"sel", "", strScalar "", ⟨""⟩, []⟩ identityResolver =
      ⟨none, documentOf [mappingOf [strScalar "sel",
        mappingOf [strScalar "app", strScalar "foo", strScalar "tier", strScalar "web"]]]⟩ ∧
    RewriteLabelSelector flatYaml
        (documentOf [mappingOf [strScalar "sel",
          mappingOf [strScalar "app", strScalar "foo", strScalar "tier", strScalar "web"]]])
        ⟨"sel", "", strScalar "", ⟨""⟩, []⟩ identityResolver =
      ⟨none, documentOf [mappingOf [strScalar "sel",
        mappingOf [strScalar "app", strScalar "foo", strScalar "tier", strScalar "web"]]]⟩ ∧
    flatYaml.Marshal
        (mappingOf [strScalar "tier", strScalar "web", strScalar "app", strScalar "foo"]) =
      .ok "tier: web\napp: foo\n" ∧
    flatYaml.UnmarshalStrictLabels "tier: web\napp: foo\n" =
      flatYaml.UnmarshalStrictLabels "app: foo\ntier: web\n" ∧
    (labelEntries [strScalar "tier", strScalar "web", strScalar "app",
        strScalar "foo"]).map Prod.fst ≠
      (labelEntries [strScalar "app", strScalar "foo", strScalar "tier",
        strScalar "web"]).map Prod.fst := by
  decide

/-- C14, amended: `RewriteLabelSelector` rewrites a flat label map through its serialised
form, on a path with any number of matches. Let the match `m` be a Mapping with the tag
`!!map` or without a tag whose entries have distinct keys and are string Scalars that the
modelled text form covers (`flatStrings`: letters, digits and the characters `-`, `_`, `.`,
`/` after a letter or a digit; a value may also be empty). When the loop of lines 204-239
reaches `m` (the iterations over the matches before it returned no error and left the tree
`T`), the conditions pass there and the resolver translates the Go map of the entries of `m`
to `translated`, then in the tree that the verb leaves `m` is the mapping that `NewNode`
builds from the translated map: it holds exactly the entries of that map, as string Scalars,
in the order in which the encoder lists the keys of a Go map and not in the order of the
original match; for keys of letters and the characters `-`, `.`, `/` this is the increasing
order of the character codes. Every node at the depth of the matches that is not a match is
unchanged, and with `m` the only match the verb returns no error and nothing else in the
tree changes. -/
theorem RewriteLabelSelector_rewrites (obj : Node) (patch : Patch) (resolver : NameResolver)
    (matched pre : List Ref) (m : Ref) (post : List Ref) (node T : Node)
    (translated : LabelMap)
    (hm : FindMatches obj patch.Path = .ok matched) (hsplit : matched = pre ++ m :: post)
    (hnode : getNode obj m = some node) (hk : node.Kind = .MappingNode)
    (htag : node.Tag = "!!map" ∨ node.Tag = "") (hflat : flatStrings node.Content = true)
    (hkeys : ((labelEntries node.Content).map Prod.fst).Nodup)
    (hreach : rangeMatches (RewriteLabelSelectorStep flatYaml patch resolver) id obj pre =
      ⟨none, T⟩)
    (hcond : ValidateAllConditions T (some m) patch.Conditions = .ok true)
    (htranslate : resolver.TranslateLabelSelector (goMap (labelEntries node.Content)) =
      .ok translated) :
    (∃ result, getNode (RewriteLabelSelector flatYaml obj patch resolver).tree m =
        some result ∧
      result = labelsNode (listKeys (goMap translated)) ∧
      result.Kind = .MappingNode ∧
      labelEntries result.Content = listKeys (goMap translated) ∧
      (labelEntries result.Content).Perm (goMap translated) ∧
      ((∀ e ∈ translated, isSimpleKey e.1.data = true) →
        labelEntries result.Content = goMap translated ∧
        (labelEntries result.Content).Pairwise
          (fun a b => keyLess a.1.data b.1.data = true))) ∧
    (∀ r, r ∉ matched → (∀ x ∈ matched, r.length = x.length) →
      getNode (RewriteLabelSelector flatYaml obj patch resolver).tree r = getNode obj r) ∧
    (pre = [] → post = [] →
      RewriteLabelSelector flatYaml obj patch resolver =
        ⟨none, modifyAt (fun _ => labelsNode (listKeys (goMap translated))) obj m⟩) := by
  have hlocal := RewriteLabelSelectorStep_local flatYaml patch resolver
  have hmem : m ∈ matched := by rw [hsplit]; simp
  have hloop := RewriteLabelSelector_eq_loop flatYaml obj patch resolver matched hm
  have hlen : ∀ r ∈ pre ++ m :: post, r.length = m.length := by
    intro r hr
    rw [← hsplit] at hr
    exact FindMatches_length obj patch.Path matched hm r hr m hmem
  have hnodup : (pre ++ m :: post).Nodup := by
    rw [← hsplit]
    exact FindMatches_nodup obj patch.Path matched hm
  obtain ⟨hvis, hfinal⟩ := rangeMatches_local_visit _ hlocal obj pre post m m.length hlen
    hnodup T hreach
  rw [hnode] at hvis
  obtain ⟨text, hmar, hdec⟩ := flatYaml_decodes node hk htag hflat hkeys
  have hnew : flatYaml.NewNodeLabels translated =
      .ok (documentOf [labelsNode (listKeys (goMap translated))]) := rfl
  have hstep : ∀ T0 : Node, getNode T0 m = some node →
      ValidateAllConditions T0 (some m) patch.Conditions = .ok true →
      RewriteLabelSelectorStep flatYaml patch resolver T0 m =
        .next (modifyAt (fun _ => labelsNode (listKeys (goMap translated))) T0 m) id := by
    intro T0 h0 hc0
    simp only [RewriteLabelSelectorStep, h0, hk, if_true, hc0, hmar, hdec, htranslate, hnew,
      ReplaceNode, unwrapDocument, documentOf]
  refine ⟨⟨labelsNode (listKeys (goMap translated)), ?_, rfl, rfl,
    labelEntries_labelsNode _, ?_, ?_⟩, ?_, ?_⟩
  · rw [hloop, hsplit]
    apply hfinal _ id _ (hstep T hvis hcond)
    simp only [getNode_modifyAt, hvis, Option.map_some']
  · rw [labelEntries_labelsNode]
    exact listKeys_perm _
  · intro hsimple
    have h1 := listKeys_simple (goMap translated) (goMap_sorted translated)
      (fun e he => hsimple e (goMap_mem translated e he))
    rw [labelEntries_labelsNode, h1]
    exact ⟨rfl, goMap_sorted translated⟩
  · intro r hr hrl
    rw [hloop]
    exact rangeMatches_local_frame _ hlocal obj matched r hrl hr
  · intro h1 h2
    subst h1
    subst h2
    simp only [List.nil_append] at hsplit
    subst hsplit
    simp only [rangeMatches, Outcome.mk.injEq, true_and] at hreach
    subst hreach
    rw [hloop]
    simp only [rangeMatches, id_eq, hstep obj hnode hcond, Function.comp_id]

/-- The scenario of C14 with a second match: in the document
`{selector: {app: "foo"}, selector: {tier: "1", app: "foo"}}` with the path `selector`, a
resolver that maps the value `foo` to `foo-x-ns` and a condition that lets the second
match pass once the first one is rewritten, the first match becomes `{app: "foo-x-ns"}`
and the second one `{app: "foo-x-ns", tier: "1"}`, its keys in increasing order. -/
theorem RewriteLabelSelector_rewrites_witness :
    getNode (RewriteLabelSelector flatYaml
      (documentOf [mappingOf [strScalar "selector",
        mappingOf [strScalar "app", strScalar "foo"], strScalar "selector",
        mappingOf [strScalar "tier", strScalar "1", strScalar "app", strScalar "foo"]]])
      ⟨"selector", "", strScalar "", ⟨""⟩,
        [fun tree candidate => .ok (decide (candidate = some [0, 1]) ||
          decide (getNode tree [0, 1] =
            some (mappingOf [strScalar "app", strScalar "foo-x-ns"])))]⟩
      ⟨fun raw _ _ => .ok raw,
        fun labels => .ok (labels.map (fun e =>
          (e.1, if e.2 = "foo" then "foo-x-ns" else e.2))),
        fun selector => .ok selector⟩).tree [0, 3] =
    some (mappingOf [strScalar "app", strScalar "foo-x-ns", strScalar "tier",
      strScalar "1"]) := by
  obtain ⟨⟨result, h1, h2, _⟩, _⟩ := RewriteLabelSelector_rewrites
    (documentOf [mappingOf [strScalar "selector",
      mappingOf [strScalar "app", strScalar "foo"], strScalar "selector",
      mappingOf [strScalar "tier", strScalar "1", strScalar "app", strScalar "foo"]]])
    ⟨"selector", "", strScalar "", ⟨""⟩,
      [fun tree candidate => .ok (decide (candidate = some [0, 1]) ||
        decide (getNode tree [0, 1] =
          some (mappingOf [strScalar "app", strScalar "foo-x-ns"])))]⟩
    ⟨fun raw _ _ => .ok raw,
      fun labels => .ok (labels.map (fun e =>
        (e.1, if e.2 = "foo" then "foo-x-ns" else e.2))),
      fun selector => .ok selector⟩
    [[0, 1], [0, 3]] [[0, 1]] [0, 3] []
    (mappingOf [strScalar "tier", strScalar "1", strScalar "app", strScalar "foo"])
    (documentOf [mappingOf [strScalar "selector",
      mappingOf [strScalar "app", strScalar "foo-x-ns"], strScalar "selector",
      mappingOf [strScalar "tier", strScalar "1", strScalar "app", strScalar "foo"]]])
    [("app", "foo-x-ns"), ("tier", "1")]
    (by decide) (by decide) (by decide) (by decide) (by decide) (by decide) (by decide)
    (by decide) (by decide) (by decide)
  rw [h1, h2]
  decide

end patches
